import Mathlib

/-!
Shallow embedding of the MCHPRS redpiler core: the direct-execution backend
(`src/crates/redpiler/src/backend/direct/`) and the optimization passes
(`src/crates/redpiler/src/passes/`), together with proofs settling the claims
about them.

Machine integers: `u8` values are modelled as `Nat` with explicit `% 256`
where the source can wrap (release-mode semantics of Rust's `-=`/`+=` on
`u8`), and `saturating_sub` as truncated `Nat` subtraction.  Node/edge ids
are modelled as `Nat` indices into lists.
-/

namespace MCHPRS

/-- `LinkType` from `compile_graph.rs` (declaration mirrored from its uses in
`src/`): an edge is either a default (straight-in) or a side link. -/
inductive LinkType
  | default
  | side
  deriving DecidableEq, Repr, Inhabited

/-- Modelled from the spec: `TickPriority` lives in the external `mchprs_world`
crate (not under `src/`).  Spec §4.7 fixes the draining order
Highest → Higher → High → Normal; `priority as usize` is the position in that
order. -/
inductive TickPriority
  | highest
  | higher
  | high
  | normal
  deriving DecidableEq, Repr, Inhabited

/-- The `priority as usize` queue index of a priority. -/
def TickPriority.toIdx : TickPriority → Nat
  | .highest => 0
  | .higher => 1
  | .high => 2
  | .normal => 3

/-- `ComparatorMode` from the external `mchprs_blocks` crate, mirrored from its
uses in `src/`. -/
inductive ComparatorMode
  | compare
  | subtract
  deriving DecidableEq, Repr, Inhabited

/-- Modelled from the spec: `bool_to_ss` from the external `mchprs_redstone`
crate (not under `src/`); glossary: digital power is 15 when on, 0 when off. -/
def boolToSS (b : Bool) : Nat := if b then 15 else 0

/-- `NodeType` from `backend/direct/node_type.rs`. -/
inductive NodeType
  | constant
  | repeater
  | torch
  | comparator
  | lamp
  | button
  | lever
  | pressurePlate
  | trapdoor
  | wire
  | noteBlock
  deriving DecidableEq, Repr, Inhabited

/-- `NodeType::is_analog` from `node_type.rs`. -/
def NodeType.is_analog : NodeType → Bool
  | .comparator => true
  | .wire => true
  | _ => false

/-- `RepeaterProperties` (`node_type.rs`): the repeater view of the 16
type-specific bits. -/
structure RepeaterProperties where
  facing_diode : Bool
  locked : Bool
  delay : Nat
  deriving DecidableEq, Repr, Inhabited

/-- `ComparatorProperties` (`node_type.rs`): the comparator view of the 16
type-specific bits. -/
structure ComparatorProperties where
  mode : ComparatorMode
  facing_diode : Bool
  has_far_input : Bool
  far_input : Nat
  deriving DecidableEq, Repr, Inhabited

/-- The 16 type-specific property bits of a packed node, embedded as the
per-type structured views that the source reads and writes through
(`RepeaterProperties` / `ComparatorProperties` / `NoteblockProperties`
bitfield accessors in `node_type.rs`). -/
inductive TSProps
  | blank
  | rep (p : RepeaterProperties)
  | cmp (p : ComparatorProperties)
  | nb (noteblockId : Nat)
  deriving DecidableEq, Repr, Inhabited

/-- `DigitalInput` (`node_inputs.rs`): two u8 counters. -/
structure DigitalInput where
  count_default : Nat
  count_side : Nat
  deriving DecidableEq, Repr, Inhabited

/-- `DigitalInput::set`: increment or decrement the counter of the given link
type (u8 arithmetic, release-mode wrap modelled by `% 256`). -/
def DigitalInput.set (d : DigitalInput) (lt : LinkType) (value : Bool) : DigitalInput :=
  match lt with
  | .default =>
      { d with count_default :=
          if value then (d.count_default + 1) % 256 else (d.count_default + 255) % 256 }
  | .side =>
      { d with count_side :=
          if value then (d.count_side + 1) % 256 else (d.count_side + 255) % 256 }

/-- `DigitalInput::get`. -/
def DigitalInput.get (d : DigitalInput) : Bool := d.count_default > 0

/-- `DigitalInput::get_side`. -/
def DigitalInput.get_side (d : DigitalInput) : Bool := d.count_side > 0

/-- `AnalogInput` (`node_inputs.rs`): two 16-bucket histograms of u8 counts. -/
structure AnalogInput where
  ss_counts_default : List Nat
  ss_counts_side : List Nat
  deriving DecidableEq, Repr

/-- `AnalogInput::default`: bucket 0 holds 255 ghost entries. -/
def AnalogInput.dflt : AnalogInput :=
  { ss_counts_default := [255, 0, 0, 0, 0, 0, 0, 0, 0, 0, 0, 0, 0, 0, 0, 0]
    ss_counts_side := [255, 0, 0, 0, 0, 0, 0, 0, 0, 0, 0, 0, 0, 0, 0, 0] }

instance : Inhabited AnalogInput := ⟨AnalogInput.dflt⟩

/-- One histogram update: `counts[old] -= 1; counts[new] += 1` (u8 wrap as
`% 256`). -/
def bucketMove (counts : List Nat) (oldValue newValue : Nat) : List Nat :=
  let c1 := counts.set oldValue ((counts.getD oldValue 0 + 255) % 256)
  c1.set newValue ((c1.getD newValue 0 + 1) % 256)

/-- `AnalogInput::set`. -/
def AnalogInput.set (a : AnalogInput) (lt : LinkType) (oldValue newValue : Nat) :
    AnalogInput :=
  match lt with
  | .default => { a with ss_counts_default := bucketMove a.ss_counts_default oldValue newValue }
  | .side => { a with ss_counts_side := bucketMove a.ss_counts_side oldValue newValue }

/-- The histogram aggregate `15 - (u128-leading-zero-bits / 8)` of
`AnalogInput::get`: the largest non-empty bucket index.  When every bucket is
empty the u8 subtraction `15 - 16` wraps to 255 (release semantics). -/
def ssAggregate (counts : List Nat) : Nat :=
  match ((List.range 16).filter (fun i => counts.getD i 0 ≠ 0)).max? with
  | some i => i
  | none => 255

/-- `AnalogInput::get`. -/
def AnalogInput.get (a : AnalogInput) : Nat := ssAggregate a.ss_counts_default

/-- `AnalogInput::get_side`. -/
def AnalogInput.get_side (a : AnalogInput) : Nat := ssAggregate a.ss_counts_side

/-- `ForwardLink` (`node.rs`): a packed outgoing edge record.  The 4
`distance` bits are kept as a `Nat`; the bitfield setter masks to 4 bits,
which the compile embedding reproduces with `% 16`. -/
structure ForwardLink where
  ty : LinkType
  distance : Nat
  target : Nat
  deriving DecidableEq, Repr, Inhabited

/-- The packed 128-bit node record (`node.rs`), one field per bitfield. -/
structure Node where
  type_specific_properties : TSProps
  ty : NodeType
  ioMarked : Bool
  powered : Bool
  changed : Bool
  pending_tick : Bool
  output_power : Nat
  digital_input : DigitalInput
  fwd_link_count : Nat
  fwd_link_begin : Nat
  analog_input_idx : Nat
  deriving DecidableEq, Repr

instance : Inhabited Node :=
  ⟨{ type_specific_properties := .blank, ty := .constant, ioMarked := false,
     powered := false, changed := false, pending_tick := false, output_power := 0,
     digital_input := ⟨0, 0⟩, fwd_link_count := 0, fwd_link_begin := 0,
     analog_input_idx := 0 }⟩

/-- `Node::get_repeater_properties`: reading the repeater view of the
type-specific bits (meaningful only on repeater nodes). -/
def Node.get_repeater_properties (n : Node) : RepeaterProperties :=
  match n.type_specific_properties with
  | .rep p => p
  | _ => default

/-- `Node::get_comparator_properties` (meaningful only on comparator nodes). -/
def Node.get_comparator_properties (n : Node) : ComparatorProperties :=
  match n.type_specific_properties with
  | .cmp p => p
  | _ => default

/-- `Node::get_noteblock_properties` (meaningful only on noteblock nodes). -/
def Node.get_noteblock_properties (n : Node) : Nat :=
  match n.type_specific_properties with
  | .nb id => id
  | _ => 0

/-- `Queues` (`backend/direct/mod.rs`): one node list per priority, in
draining order Highest, Higher, High, Normal. -/
structure Queues where
  q0 : List Nat
  q1 : List Nat
  q2 : List Nat
  q3 : List Nat
  deriving DecidableEq, Repr

def Queues.empty : Queues := ⟨[], [], [], []⟩

instance : Inhabited Queues := ⟨Queues.empty⟩

/-- Push into the sub-queue selected by `priority as usize`. -/
def Queues.push (q : Queues) (priority : TickPriority) (node : Nat) : Queues :=
  match priority with
  | .highest => { q with q0 := q.q0 ++ [node] }
  | .higher => { q with q1 := q.q1 ++ [node] }
  | .high => { q with q2 := q.q2 ++ [node] }
  | .normal => { q with q3 := q.q3 ++ [node] }

/-- The drain order of `Queues::drain_iter`: all four sub-queues chained in
priority order. -/
def Queues.drainList (q : Queues) : List Nat := q.q0 ++ q.q1 ++ q.q2 ++ q.q3

/-- `TickScheduler` (`backend/direct/mod.rs`): a 16-slot ring of queues. -/
structure TickScheduler where
  queues_deque : List Queues
  pos : Nat
  deriving DecidableEq, Repr

def TickScheduler.NUM_QUEUES : Nat := 16

def TickScheduler.empty : TickScheduler :=
  { queues_deque := List.replicate 16 Queues.empty, pos := 0 }

instance : Inhabited TickScheduler := ⟨TickScheduler.empty⟩

/-- `TickScheduler::schedule_tick`: push into slot `(pos + delay) % 16`. -/
def TickScheduler.schedule_tick (s : TickScheduler) (node : Nat) (delay : Nat)
    (priority : TickPriority) : TickScheduler :=
  let slot := (s.pos + delay) % TickScheduler.NUM_QUEUES
  { s with queues_deque :=
      s.queues_deque.set slot ((s.queues_deque.getD slot Queues.empty).push priority node) }

/-- `TickScheduler::queues_this_tick`: advance `pos` and move the new slot's
queues out (leaving the slot empty). -/
def TickScheduler.queues_this_tick (s : TickScheduler) : Queues × TickScheduler :=
  let pos := (s.pos + 1) % TickScheduler.NUM_QUEUES
  ((s.queues_deque.getD pos Queues.empty),
    { queues_deque := s.queues_deque.set pos Queues.empty, pos })

/-- `TickScheduler::end_tick`: clear the moved-out queues and store them back
into the current slot. -/
def TickScheduler.end_tick (s : TickScheduler) (_queues : Queues) : TickScheduler :=
  { s with queues_deque := s.queues_deque.set s.pos Queues.empty }

/-- `TickScheduler::has_pending_ticks`. -/
def TickScheduler.has_pending_ticks (s : TickScheduler) : Bool :=
  s.queues_deque.any (fun q => !q.q0.isEmpty || !q.q1.isEmpty || !q.q2.isEmpty || !q.q3.isEmpty)

/-- `calculate_comparator_output` (`backend/direct/mod.rs`): the u8
`wrapping_sub` is `(input + 256 - side) % 256`. -/
def calculate_comparator_output (mode : ComparatorMode) (input_strength power_on_sides : Nat) :
    Nat :=
  let difference := (input_strength % 256 + 256 - power_on_sides % 256) % 256
  if difference ≤ 15 then
    match mode with
    | .compare => input_strength
    | .subtract => difference
  else
    0

/-! ## The pre-compilation logic graph

`CompileGraph` is a petgraph `StableGraph`; it is embedded as lists of
optional nodes and edges, `none` marking a removed slot.  Live edges are
iterated in list order (petgraph iterates a per-node linked list; every use
below is order-insensitive: counts, max/min folds, `all`/`any`, and
degree-one walks). -/

/-- `NodeState` from `compile_graph.rs` (mirrored from its uses in `src/`). -/
structure NodeState where
  powered : Bool
  output_strength : Nat
  repeater_locked : Bool
  deriving DecidableEq, Repr, Inhabited

/-- Modelled from the spec: `NodeState::simple` is in `compile_graph.rs`,
which is not under `src/`.  Spec §3.1/glossary: digital state with
output strength 15 when powered, 0 otherwise. -/
def NodeState.simple (powered : Bool) : NodeState :=
  { powered, output_strength := boolToSS powered, repeater_locked := false }

/-- `NodeType` of the compile graph (`compile_graph.rs`, mirrored from its
uses in `src/`). -/
inductive CNodeType
  | repeater (delay : Nat) (facingDiode : Bool)
  | torch
  | comparator (mode : ComparatorMode) (farInput : Option Nat) (facingDiode : Bool)
  | lamp
  | button
  | lever
  | pressurePlate
  | trapdoor
  | wire
  | constant
  | noteBlock (instrument : Nat) (note : Nat)
  deriving DecidableEq, Repr, Inhabited

/-- The `std::mem::discriminant` of a `CNodeType` value. -/
def CNodeType.discr : CNodeType → Nat
  | .repeater _ _ => 0
  | .torch => 1
  | .comparator _ _ _ => 2
  | .lamp => 3
  | .button => 4
  | .lever => 5
  | .pressurePlate => 6
  | .trapdoor => 7
  | .wire => 8
  | .constant => 9
  | .noteBlock _ _ => 10

def CNodeType.isComparator : CNodeType → Bool
  | .comparator _ _ _ => true
  | _ => false

/-- `CompileNode` from `compile_graph.rs` (mirrored from its uses in `src/`).
Block positions and block ids are opaque `Nat`s. -/
structure CompileNode where
  ty : CNodeType
  block : Option (Nat × Nat)
  state : NodeState
  is_input : Bool
  is_output : Bool
  deriving DecidableEq, Repr, Inhabited

/-- Modelled from the spec: `CompileNode::is_removable` is in
`compile_graph.rs`, not under `src/`.  Spec §3.1: a node is removable iff it
is not marked I/O and its type is not semantically observable on its own
(levers, buttons, lamps, pressure plates, noteblocks and trapdoors are
non-removable). -/
def CompileNode.is_removable (n : CompileNode) : Bool :=
  !(n.is_input || n.is_output) &&
    match n.ty with
    | .repeater _ _ => true
    | .torch => true
    | .comparator _ _ _ => true
    | .wire => true
    | .constant => true
    | _ => false

/-- `CompileLink` from `compile_graph.rs`: link type and signal-strength
loss.  An edge record also carries its endpoints. -/
structure CEdge where
  src : Nat
  dst : Nat
  ty : LinkType
  ss : Nat
  deriving DecidableEq, Repr, Inhabited

/-- A petgraph `StableGraph`, with `none` marking removed slots. -/
structure CGraph where
  nodes : List (Option CompileNode)
  edges : List (Option CEdge)
  deriving DecidableEq, Repr, Inhabited

/-- `graph.node_indices()`: the live node indices, ascending. -/
def CGraph.nodeIndices (g : CGraph) : List Nat :=
  (List.range g.nodes.length).filter (fun i => (g.nodes.getD i none).isSome)

def CGraph.containsNode (g : CGraph) (i : Nat) : Bool :=
  (g.nodes.getD i none).isSome

/-- Node lookup; out-of-graph indices give the `Inhabited` default (the Rust
index operator would panic there, and no verified path reads a removed
node). -/
def CGraph.node (g : CGraph) (i : Nat) : CompileNode :=
  (g.nodes.getD i none).getD default

/-- The live edges, with their edge index attached. -/
def CGraph.liveEdges (g : CGraph) : List (Nat × CEdge) :=
  (List.range g.edges.length).filterMap
    (fun i => (g.edges.getD i none).map (fun e => (i, e)))

/-- `graph.edges_directed(i, Incoming)`. -/
def CGraph.incomingEdges (g : CGraph) (i : Nat) : List CEdge :=
  (g.liveEdges.filter (fun p => p.2.dst = i)).map (·.2)

/-- `graph.edges_directed(i, Outgoing)`. -/
def CGraph.outgoingEdges (g : CGraph) (i : Nat) : List CEdge :=
  (g.liveEdges.filter (fun p => p.2.src = i)).map (·.2)

/-- Incoming edges restricted to one link type. -/
def CGraph.incomingOfType (g : CGraph) (i : Nat) (lt : LinkType) : List CEdge :=
  g.incomingEdges i |>.filter (fun e => e.ty = lt)

/-- `graph.add_node`: append at the end (petgraph may reuse freed slots; only
the identity of the fresh index differs, never the set of live nodes and
edges). -/
def CGraph.addNode (g : CGraph) (n : CompileNode) : CGraph × Nat :=
  ({ g with nodes := g.nodes ++ [some n] }, g.nodes.length)

/-- `graph.add_edge`. -/
def CGraph.addEdge (g : CGraph) (src dst : Nat) (ty : LinkType) (ss : Nat) : CGraph :=
  { g with edges := g.edges ++ [some { src, dst, ty, ss }] }

/-- `graph.remove_edge`. -/
def CGraph.removeEdge (g : CGraph) (i : Nat) : CGraph :=
  { g with edges := g.edges.set i none }

/-- `graph.remove_node`: clears the node slot and every incident edge. -/
def CGraph.removeNode (g : CGraph) (i : Nat) : CGraph :=
  { nodes := g.nodes.set i none
    edges := g.edges.map (fun e? =>
      match e? with
      | some e => if e.src = i || e.dst = i then none else some e
      | none => none) }

/-- Replace the record of a live node. -/
def CGraph.setNodeRecord (g : CGraph) (i : Nat) (n : CompileNode) : CGraph :=
  { g with nodes := g.nodes.set i (some n) }

/-! ## The direct backend -/

/-- `TickEntry` from the external `mchprs_world` crate, mirrored from its
uses in `compile.rs`: an initial scheduled tick at a world position. -/
structure TickEntry where
  pos : Nat
  ticks_left : Nat
  tick_priority : TickPriority
  deriving DecidableEq, Repr, Inhabited

/-- `DirectBackend` (`backend/direct/mod.rs`).  `pos_map` is an association
list keyed by position; `blocks` keeps the positions (the block payload of
external type `Block` is opaque to the core and only copied back out on
flush, which is modelled by the flush write list). -/
structure Backend where
  nodes : List Node
  forward_links : List ForwardLink
  analog_inputs : List AnalogInput
  blocks : List (Option Nat)
  pos_map : List (Nat × Nat)
  scheduler : TickScheduler
  events : List Nat
  noteblock_info : List (Nat × Nat × Nat)
  deriving DecidableEq, Repr

instance : Inhabited Backend :=
  ⟨{ nodes := [], forward_links := [], analog_inputs := [], blocks := [],
     pos_map := [], scheduler := TickScheduler.empty, events := [],
     noteblock_info := [] }⟩

/-- `FxHashMap::get` on the position map. -/
def posLookup (m : List (Nat × Nat)) (pos : Nat) : Option Nat :=
  (m.find? (fun p => p.1 = pos)).map (·.2)

def Backend.nodeAt (b : Backend) (i : Nat) : Node := b.nodes.getD i default

def Backend.modifyNode (b : Backend) (i : Nat) (f : Node → Node) : Backend :=
  { b with nodes := b.nodes.set i (f (b.nodeAt i)) }

def Backend.modifyAnalog (b : Backend) (i : Nat) (f : AnalogInput → AnalogInput) : Backend :=
  { b with analog_inputs := b.analog_inputs.set i (f (b.analog_inputs.getD i default)) }

/-- The forward-link slice `[fwd_link_begin, fwd_link_begin + fwd_link_count)`
of a node. -/
def Backend.linksOf (b : Backend) (i : Nat) : List ForwardLink :=
  ((b.forward_links.drop (b.nodeAt i).fwd_link_begin).take (b.nodeAt i).fwd_link_count)

/-- The free `schedule_tick` helper of `mod.rs`: marks the node pending and
pushes it onto the scheduler. -/
def Backend.scheduleTickPending (b : Backend) (node_id delay : Nat)
    (priority : TickPriority) : Backend :=
  let b := b.modifyNode node_id (fun n => { n with pending_tick := true })
  { b with scheduler := b.scheduler.schedule_tick node_id delay priority }

/-- `DirectBackend::schedule_tick` (does not touch `pending_tick`). -/
def Backend.scheduleTick (b : Backend) (node_id delay : Nat)
    (priority : TickPriority) : Backend :=
  { b with scheduler := b.scheduler.schedule_tick node_id delay priority }

/-- The free `set_node` helper of `mod.rs` used inside `update_node`: sets
`powered` and `changed` only. -/
def Node.setSimple (n : Node) (powered : Bool) : Node :=
  { n with powered, changed := true }

/-- `update_node` (`backend/direct/update.rs`): the per-type transition run
after one of the node's inputs changed.  It schedules ticks or, for the
non-powered types, commits state directly; it never propagates further. -/
def updateNode (b : Backend) (node_id : Nat) : Backend :=
  let node := b.nodeAt node_id
  match node.ty with
  | .repeater =>
      let props := node.get_repeater_properties
      let should_be_locked := node.digital_input.get_side
      let props := if should_be_locked ≠ props.locked then { props with locked := should_be_locked } else props
      let b :=
        if should_be_locked ≠ (node.get_repeater_properties).locked then
          b.modifyNode node_id (fun n =>
            { n with type_specific_properties := .rep props, changed := true })
        else b
      if props.locked || node.pending_tick then b
      else
        let should_be_powered := node.digital_input.get
        if should_be_powered ≠ node.powered then
          let priority :=
            if props.facing_diode then TickPriority.highest
            else if !should_be_powered then TickPriority.higher
            else TickPriority.high
          b.scheduleTickPending node_id props.delay priority
        else b
  | .torch =>
      if node.pending_tick then b
      else
        let should_be_powered := !node.digital_input.get
        if node.powered ≠ should_be_powered then
          b.scheduleTickPending node_id 1 TickPriority.normal
        else b
  | .comparator =>
      if node.pending_tick then b
      else
        let props := node.get_comparator_properties
        let analog := b.analog_inputs.getD node.analog_input_idx default
        let input_power := analog.get
        let side_input_power := analog.get_side
        let input_power :=
          if input_power < 15 && props.has_far_input then props.far_input else input_power
        let old_strength := node.output_power
        let output_power := calculate_comparator_output props.mode input_power side_input_power
        if output_power ≠ old_strength then
          let priority := if props.facing_diode then TickPriority.high else TickPriority.normal
          b.scheduleTickPending node_id 1 priority
        else b
  | .lamp =>
      let should_be_lit := node.digital_input.get
      let lit := node.powered
      if lit && !should_be_lit then
        b.scheduleTickPending node_id 2 TickPriority.normal
      else if !lit && should_be_lit then
        b.modifyNode node_id (·.setSimple true)
      else b
  | .trapdoor =>
      let should_be_powered := node.digital_input.get
      if node.powered ≠ should_be_powered then
        b.modifyNode node_id (·.setSimple should_be_powered)
      else b
  | .wire =>
      let input_power := (b.analog_inputs.getD node.analog_input_idx default).get
      if node.output_power ≠ input_power then
        b.modifyNode node_id (fun n => { n with output_power := input_power, changed := true })
      else b
  | .noteBlock =>
      let should_be_powered := node.digital_input.get
      if node.powered ≠ should_be_powered then
        let b := b.modifyNode node_id (·.setSimple should_be_powered)
        if should_be_powered then
          { b with events := b.events ++ [node.get_noteblock_properties] }
        else b
      else b
  | _ => b

/-- One iteration of the forward-link loop inside `DirectBackend::set_node`. -/
def processLink (old_power new_power : Nat) (b : Backend) (link : ForwardLink) : Backend :=
  let old_power := old_power - link.distance
  let new_power := new_power - link.distance
  if old_power = new_power then b
  else
    let target_node := b.nodeAt link.target
    if target_node.ty.is_analog then
      let b := b.modifyAnalog target_node.analog_input_idx
        (fun a => a.set link.ty old_power new_power)
      updateNode b link.target
    else if (decide (old_power ≠ 0)) = (decide (new_power ≠ 0)) then b
    else
      let b := b.modifyNode link.target
        (fun n => { n with digital_input := n.digital_input.set link.ty (new_power ≠ 0) })
      updateNode b link.target

/-- `DirectBackend::set_node`: commit the node's new power and propagate the
boundary change along every outgoing forward link. -/
def setNode (b : Backend) (node_id : Nat) (powered : Bool) (new_power : Nat) : Backend :=
  let old_power := (b.nodeAt node_id).output_power
  let b := b.modifyNode node_id (fun n =>
    { n with changed := true, powered, output_power := new_power })
  (b.linksOf node_id).foldl (processLink old_power new_power) b

/-- `DirectBackend::tick_node` (`backend/direct/tick.rs`). -/
def tickNode (b : Backend) (node_id : Nat) : Backend :=
  let b := b.modifyNode node_id (fun n => { n with pending_tick := false })
  let node := b.nodeAt node_id
  match node.ty with
  | .repeater =>
      let props := node.get_repeater_properties
      if props.locked then b
      else
        let should_be_powered := node.digital_input.get
        if node.powered && !should_be_powered then
          setNode b node_id false 0
        else if !node.powered then
          let b :=
            if !should_be_powered then
              b.scheduleTickPending node_id props.delay TickPriority.higher
            else b
          setNode b node_id true 15
        else b
  | .torch =>
      let should_be_powered := !node.digital_input.get
      if node.powered ≠ should_be_powered then
        setNode b node_id should_be_powered (boolToSS should_be_powered)
      else b
  | .comparator =>
      let props := node.get_comparator_properties
      let analog := b.analog_inputs.getD node.analog_input_idx default
      let input_power := analog.get
      let side_input_power := analog.get_side
      let input_power :=
        if input_power < 15 && props.has_far_input then props.far_input else input_power
      let old_strength := node.output_power
      let new_strength := calculate_comparator_output props.mode input_power side_input_power
      if new_strength ≠ old_strength then
        setNode b node_id (new_strength > 0) new_strength
      else b
  | .lamp =>
      let should_be_lit := node.digital_input.get
      if node.powered && !should_be_lit then
        setNode b node_id false 0
      else b
  | .button =>
      if node.powered then
        setNode b node_id false 0
      else b
  | _ => b

/-- `DirectBackend::tick`: advance the scheduler one slot, drain the four
priority sub-queues of that slot in order, then store the cleared queues
back. -/
def tickB (b : Backend) : Backend :=
  let (queues, scheduler) := b.scheduler.queues_this_tick
  let b := { b with scheduler }
  let b := queues.drainList.foldl tickNode b
  { b with scheduler := b.scheduler.end_tick queues }

/-- A runtime fault (a Rust panic) of the public surface. -/
inductive RtPanic
  | unknownPos
  deriving DecidableEq, Repr

/-- `DirectBackend::on_use_block`.  The position lookup `self.pos_map[&pos]`
panics when the position is unknown, modelled as `Except.error`. -/
def onUseBlock (b : Backend) (pos : Nat) : Except RtPanic Backend :=
  match posLookup b.pos_map pos with
  | none => .error .unknownPos
  | some node_id =>
    let node := b.nodeAt node_id
    match node.ty with
    | .button =>
        if node.powered then .ok b
        else
          let b := b.scheduleTick node_id 10 TickPriority.normal
          .ok (setNode b node_id true 15)
    | .lever =>
        .ok (setNode b node_id (!node.powered) (boolToSS !node.powered))
    | _ => .ok b

/-- `DirectBackend::set_pressure_plate`.  The lookup `self.pos_map[&pos]`
panics when the position is unknown. -/
def setPressurePlate (b : Backend) (pos : Nat) (powered : Bool) : Except RtPanic Backend :=
  match posLookup b.pos_map pos with
  | none => .error .unknownPos
  | some node_id =>
    let node := b.nodeAt node_id
    match node.ty with
    | .pressurePlate => .ok (setNode b node_id powered (boolToSS powered))
    | _ => .ok b

/-- `DirectBackend::inspect`: a debug read.  Both the unknown-position branch
and the found branch only log; no state changes and no panic. -/
def inspect (b : Backend) (pos : Nat) : Except RtPanic Backend :=
  match posLookup b.pos_map pos with
  | none => .ok b
  | some _ => .ok b

/-- `DirectBackend::flush`: drain the events (noteblock plays go to the
world), then for every node carrying block information write the node state
back to the world when `changed && (!io_only || is_io)`, and clear `changed`
unconditionally.  The returned list holds the indices of the nodes whose
blocks were written to the world (`world.set_block` calls), in order. -/
def flushStep (io_only : Bool) (acc : Backend × List Nat) (i : Nat) : Backend × List Nat :=
  match acc.1.blocks.getD i none with
  | none => acc
  | some _pos =>
      let node := acc.1.nodeAt i
      (acc.1.modifyNode i (fun n => { n with changed := false }),
       if node.changed && (!io_only || node.ioMarked) then acc.2 ++ [i] else acc.2)

def flushB (b : Backend) (io_only : Bool) : Backend × List Nat :=
  (List.range b.nodes.length).foldl (flushStep io_only) ({ b with events := [] }, [])

/-! ## Compile (lowering), from `backend/direct/compile.rs` -/

/-- Stable insertion of one element into a key-sorted list (equal keys keep
their relative order). -/
def insertByKey (key : CEdge → Nat) (x : CEdge) : List CEdge → List CEdge
  | [] => [x]
  | y :: ys => if key x < key y then x :: y :: ys else y :: insertByKey key x ys

/-- Stable sort by key, modelling `Itertools::sorted_by_key`. -/
def sortByKey (key : CEdge → Nat) (l : List CEdge) : List CEdge :=
  l.foldl (fun acc x => insertByKey key x acc) []

/-- `sorted_by_key(dense target)` followed by
`into_group_map_by(discriminant of target type)` and flattening of the group
values.  The `HashMap` iteration order of `into_values` is unspecified in the
source; groups are emitted here in first-occurrence order of their
discriminant, one deterministic refinement of that order. -/
def sortGroupOutgoing (g : CGraph) (dense : Nat → Nat) (edges : List CEdge) : List CEdge :=
  let sorted := sortByKey (fun e => dense e.dst) edges
  let keys := (sorted.map (fun e => (g.node e.dst).ty.discr)).dedup
  keys.flatMap (fun k => sorted.filter (fun e => (g.node e.dst).ty.discr = k))

/-- The digital/analog input aggregation of `compile_node`'s incoming-edge
loop: for each incoming edge, the delivered strength is
`src.output_strength.saturating_sub(distance)`; nonzero deliveries bump the
digital counter and move one unit of histogram mass out of the ghost
bucket. -/
def compiledInputs (g : CGraph) (j : Nat) : DigitalInput × AnalogInput :=
  (g.incomingEdges j).foldl
    (fun (p : DigitalInput × AnalogInput) e =>
      let ss := (g.node e.src).state.output_strength - e.ss
      if ss ≠ 0 then (p.1.set e.ty true, p.2.set e.ty 0 ss) else p)
    (⟨0, 0⟩, AnalogInput.dflt)

/-- The forward links `compile_node` emits for one node: none for a
Constant, else the sorted-and-grouped outgoing edges. -/
def compiledOutLinks (g : CGraph) (dense : Nat → Nat) (j : Nat) : List ForwardLink :=
  if (g.node j).ty = .constant then []
  else
    (sortGroupOutgoing g dense (g.outgoingEdges j)).map (fun e =>
      { ty := e.ty, distance := e.ss % 16, target := dense e.dst : ForwardLink })

/-- The accumulating state threaded through `compile_node` calls. -/
structure CompileAcc where
  nodes : List Node
  forward_links : List ForwardLink
  analog_inputs : List AnalogInput
  noteblock_info : List (Nat × Nat × Nat)
  deriving Repr

/-- `compile_node`: lower one graph node into a packed record, appending its
outgoing links, analog-input record and noteblock info to the global arrays.
The `MAX_INPUTS = 255` overflow panic and the 27-bit target assertion are
compile-time aborts; well-formedness (`WFGraph`) rules them out and the
embedding is the non-aborting branch. -/
def compileNode (g : CGraph) (j : Nat) (dense : Nat → Nat) (acc : CompileAcc) : CompileAcc :=
  let node := g.node j
  let digital_input := (compiledInputs g j).1
  let analog_input := (compiledInputs g j).2
  let fwd_link_begin := acc.forward_links.length
  let outLinks := compiledOutLinks g dense j
  let tyProps : NodeType × TSProps × List (Nat × Nat × Nat) :=
    match node.ty with
    | .repeater delay facingDiode =>
        (.repeater,
         .rep { delay, facing_diode := facingDiode, locked := node.state.repeater_locked },
         acc.noteblock_info)
    | .torch => (.torch, .blank, acc.noteblock_info)
    | .comparator mode farInput facingDiode =>
        (.comparator,
         .cmp { mode, has_far_input := farInput.isSome, far_input := farInput.getD 0,
                facing_diode := facingDiode },
         acc.noteblock_info)
    | .lamp => (.lamp, .blank, acc.noteblock_info)
    | .button => (.button, .blank, acc.noteblock_info)
    | .lever => (.lever, .blank, acc.noteblock_info)
    | .pressurePlate => (.pressurePlate, .blank, acc.noteblock_info)
    | .trapdoor => (.trapdoor, .blank, acc.noteblock_info)
    | .wire => (.wire, .blank, acc.noteblock_info)
    | .constant => (.constant, .blank, acc.noteblock_info)
    | .noteBlock instrument note =>
        (.noteBlock, .nb acc.noteblock_info.length,
         acc.noteblock_info ++ [((node.block.getD (0, 0)).1, instrument, note)])
  let node_type := tyProps.1
  let analog_input_idx := if node_type.is_analog then acc.analog_inputs.length else 0
  let packed : Node :=
    { ty := node_type
      type_specific_properties := tyProps.2.1
      powered := node.state.powered
      ioMarked := node.is_input || node.is_output
      changed := false
      pending_tick := false
      output_power := node.state.output_strength
      digital_input
      fwd_link_begin
      fwd_link_count := outLinks.length
      analog_input_idx }
  { nodes := acc.nodes ++ [packed]
    forward_links := acc.forward_links ++ outLinks
    analog_inputs :=
      if node_type.is_analog then acc.analog_inputs ++ [analog_input] else acc.analog_inputs
    noteblock_info := tyProps.2.2 }

/-- `FxHashMap::insert` on the position map: replace an existing key or
append. -/
def posMapInsert (m : List (Nat × Nat)) (pos id : Nat) : List (Nat × Nat) :=
  if m.any (fun p => p.1 = pos) then
    m.map (fun p => if p.1 = pos then (pos, id) else p)
  else m ++ [(pos, id)]

/-- `compile` (`backend/direct/compile.rs`): assign dense ids in
`node_indices` order, lower every node, build `blocks` and `pos_map`, and
schedule the initial ticks. -/
def compileB (g : CGraph) (ticks : List TickEntry) : Backend :=
  let idxs := g.nodeIndices
  let dense := fun j => idxs.indexOf j
  let acc := idxs.foldl (fun acc j => compileNode g j dense acc)
    { nodes := [], forward_links := [], analog_inputs := [], noteblock_info := [] }
  let blocks := idxs.map (fun j => (g.node j).block.map (·.1))
  let pos_map := (List.range blocks.length).foldl
    (fun m i =>
      match blocks.getD i none with
      | some pos => posMapInsert m pos i
      | none => m)
    []
  let b : Backend :=
    { nodes := acc.nodes
      forward_links := acc.forward_links
      analog_inputs := acc.analog_inputs
      blocks
      pos_map
      scheduler := TickScheduler.empty
      events := []
      noteblock_info := acc.noteblock_info }
  ticks.foldl
    (fun b entry =>
      match posLookup b.pos_map entry.pos with
      | some node_id =>
          let b := { b with scheduler :=
            b.scheduler.schedule_tick node_id entry.ticks_left entry.tick_priority }
          b.modifyNode node_id (fun n => { n with pending_tick := true })
      | none => b)
    b

/-! ## Circuit normalization (`passes/normalization.rs`) -/

/-- `get_constant_input`: `None` if any input of the link type is non-const,
else the strongest effective input `15.saturating_sub(ss)`. -/
def getConstantInput (g : CGraph) (idx : Nat) (lt : LinkType) : Option Nat :=
  let ins := g.incomingOfType idx lt
  if ins.all (fun e => (g.node e.src).ty = .constant) then
    some (ins.foldl (fun m e => max m (15 - e.ss)) 0)
  else none

/-- Clearing the `facing_diode` bit on a repeater or comparator source. -/
def clearFacingDiode (n : CompileNode) : CompileNode :=
  match n.ty with
  | .repeater delay _ => { n with ty := .repeater delay false }
  | .comparator mode farInput _ => { n with ty := .comparator mode farInput false }
  | _ => n

/-- `remove_incoming_edges`. -/
def removeIncomingOfType (g : CGraph) (idx : Nat) (lt : LinkType) : CGraph :=
  { g with edges := g.edges.map (fun e? =>
      match e? with
      | some e => if e.dst = idx && e.ty = lt then none else some e
      | none => none) }

/-- `convert_side_edges_to_default_edges`. -/
def sideEdgesToDefault (g : CGraph) (idx : Nat) : CGraph :=
  { g with edges := g.edges.map (fun e? =>
      match e? with
      | some e => if e.dst = idx && e.ty = .side then some { e with ty := .default } else some e
      | none => none) }

/-- `try_convert_comparator_to_torch` (`passes/normalization.rs`).  Note
that in the outgoing-edge loop the source reads
`graph[output_edge.source()].ty` — for an outgoing edge of `idx` the source
is `idx` itself. -/
def tryConvertComparatorToTorch (g : CGraph) (idx : Nat) : CGraph × Bool :=
  match (g.node idx).ty with
  | .comparator .subtract _ false =>
    match getConstantInput g idx .default with
    | none => (g, false)
    | some constant_input =>
      let sideEdges := g.incomingOfType idx .side
      if sideEdges.any (fun e => (g.node e.src).ty.isComparator) then (g, false)
      else
        let min_side_input_strength := sideEdges.foldl (fun m e => min m (15 - e.ss)) 15
        if min_side_input_strength < constant_input then (g, false)
        else if (g.outgoingEdges idx).any (fun e =>
            (constant_input ≠ 15 && (g.node e.src).ty.isComparator)
              || (constant_input < e.ss && e.ss ≤ 15)) then
          (g, false)
        else
          let g := removeIncomingOfType g idx .default
          let g := sideEdgesToDefault g idx
          let input_nodes := (g.incomingEdges idx).map (·.src)
          let torch_is_lit := input_nodes.all (fun j => (g.node j).state.output_strength = 0)
          let g := input_nodes.foldl
            (fun g j => g.setNodeRecord j (clearFacingDiode (g.node j))) g
          let old := g.node idx
          (g.setNodeRecord idx { old with ty := .torch, state := NodeState.simple torch_is_lit },
           true)
  | _ => (g, false)

/-! ## Coalesce pass (`passes/coalesce.rs`) -/

/-- `coalesce` (`passes/coalesce.rs`): splice all outgoing edges of `node`
into `into`, then delete `node`. -/
def coalesceInto (g : CGraph) (node into : Nat) : CGraph :=
  let outIds := (g.liveEdges.filter (fun p => p.2.src = node)).map (·.1)
  let g := outIds.foldl
    (fun g eid =>
      match g.edges.getD eid none with
      | some e => (g.removeEdge eid).addEdge into e.dst e.ty e.ss
      | none => g)
    g
  g.removeNode node

/-- One step of the `coalesce_outgoing` walk over the source's outgoing
edge ids (an edge a previous step removed is skipped, as the detached
walker would). -/
def coalesceStep (into_idx : Nat) (p : CGraph × Nat) (eid : Nat) : CGraph × Nat :=
  match p.1.edges.getD eid none with
  | none => p
  | some e =>
    if e.dst = into_idx then p
    else
      let dest := p.1.node e.dst
      let into := p.1.node into_idx
      if dest.ty = into.ty && dest.is_removable
          && (p.1.incomingEdges e.dst).length = 1 then
        (coalesceInto p.1 e.dst into_idx, p.2 + 1)
      else p

/-- `coalesce_outgoing`: walk the source's outgoing edges and coalesce every
sibling of equal type that is removable with total incoming degree 1. -/
def coalesceOutgoing (g : CGraph) (source_idx into_idx : Nat) : CGraph × Nat :=
  let ids := (g.liveEdges.filter (fun p => p.2.src = source_idx)).map (·.1)
  ids.foldl (coalesceStep into_idx) (g, 0)

/-- One step of `run_coalescing_iteration`, for one candidate slot `i`.
Candidates whose type is `Comparator` are skipped outright (source comment:
comparators depend on the link weight as well as the type), as are
candidates whose single incoming edge comes from a comparator. -/
def coalesceIterStep (p : CGraph × Nat) (i : Nat) : CGraph × Nat :=
  if !(p.1.containsNode i) then p
  else if (p.1.node i).ty.isComparator || !(p.1.node i).is_removable then p
  else
    match p.1.incomingEdges i with
    | [e] =>
      if e.ty ≠ .default then p
      else if (p.1.node e.src).ty.isComparator then p
      else
        ((coalesceOutgoing p.1 e.src i).1, p.2 + (coalesceOutgoing p.1 e.src i).2)
    | _ => p

/-- `run_coalescing_iteration`: one sweep over all node slots. -/
def runCoalescingIteration (g : CGraph) : CGraph × Nat :=
  (List.range g.nodes.length).foldl coalesceIterStep (g, 0)

/-! ## Series reduction (`passes/series_reduction.rs`) -/

/-- `Priority` of a pulse in the series-reduction profile. -/
inductive PPriority
  | high
  | normal
  deriving DecidableEq, Repr

/-- `Pulse`. -/
structure Pulse where
  signal : Bool
  duration : Nat
  priority : PPriority
  deriving DecidableEq, Repr

/-- `PulseProfile`: the total delay and the surviving
(input pulse ↦ output pulse) mapping. -/
structure PulseProfile where
  total_delay : Nat
  mapping : List (Pulse × Pulse)
  deriving DecidableEq, Repr

/-- `PulseProfile::new`: the identity mapping over the fixed test-input
family. -/
def PulseProfile.fresh : PulseProfile :=
  let idP := fun (p : Pulse) => (p, p)
  { total_delay := 0
    mapping :=
      [idP ⟨true, 1, .high⟩, idP ⟨false, 1, .high⟩] ++
        ([true, false].flatMap (fun s =>
          (List.range 4).map (fun d => idP ⟨s, d + 1, .normal⟩))) }

/-- `PulseProfile::add_torch`. -/
def PulseProfile.add_torch (p : PulseProfile) : PulseProfile :=
  { total_delay := p.total_delay + 1
    mapping := p.mapping.filterMap (fun q =>
      if q.2.priority = .high && q.2.duration ≤ 1 then none
      else some (q.1, { q.2 with signal := !q.2.signal })) }

/-- `PulseProfile::add_repeater`. -/
def PulseProfile.add_repeater (p : PulseProfile) (repeater_delay : Nat) : PulseProfile :=
  { total_delay := p.total_delay + repeater_delay
    mapping := p.mapping.filterMap (fun q =>
      if !q.2.signal && q.2.duration < repeater_delay then none
      else some (q.1,
        { signal := q.2.signal, duration := max q.2.duration repeater_delay,
          priority := .high }))}

/-- The chain-element alphabet `Type` of the pass. -/
inductive ChainType
  | torch
  | repeater (delay : Nat)
  deriving DecidableEq, Repr

/-- Apply one chain element to a profile. -/
def ChainType.apply (p : PulseProfile) : ChainType → PulseProfile
  | .torch => p.add_torch
  | .repeater d => p.add_repeater d

/-- The pulse profile of a chain of elements applied in list order. -/
def profileOfChain (c : List ChainType) : PulseProfile :=
  c.foldl ChainType.apply PulseProfile.fresh

/-- `Element`: a chain node with its graph index. -/
structure ChainElement where
  idx : Nat
  ty : ChainType
  deriving DecidableEq, Repr

/-- `get_chain_element`: torches and non-facing-diode repeaters. -/
def getChainElement (g : CGraph) (idx : Nat) : Option ChainElement :=
  match (g.node idx).ty with
  | .torch => some { idx, ty := .torch }
  | .repeater delay false => some { idx, ty := .repeater delay }
  | _ => none

/-- `get_single_input`: the unique default incoming edge's source. -/
def getSingleInput (g : CGraph) (idx : Nat) : Option Nat :=
  match g.incomingOfType idx .default with
  | [e] => some e.src
  | _ => none

/-- `get_single_output`: the unique default outgoing edge's target. -/
def getSingleOutput (g : CGraph) (idx : Nat) : Option Nat :=
  match (g.outgoingEdges idx).filter (fun e => e.ty = .default) with
  | [e] => some e.dst
  | _ => none

def inputDegree (g : CGraph) (idx : Nat) : Nat :=
  (g.incomingOfType idx .default).length

def sideInputDegree (g : CGraph) (idx : Nat) : Nat :=
  (g.incomingOfType idx .side).length

def outputDegree (g : CGraph) (idx : Nat) : Nat :=
  (g.outgoingEdges idx).length

/-- The forward (tail-direction) walk of `discover_chain`, collecting the
pushed elements in push order; fuelled, since the source loop would not
terminate on a cyclic chain. -/
def tailWalk (g : CGraph) : Nat → Nat → List ChainElement × Nat
  | 0, t => ([], t)
  | fuel + 1, t =>
    match getChainElement g t with
    | none => ([], t)
    | some el =>
      if sideInputDegree g t = 0 && inputDegree g t = 1 then
        match getSingleOutput g t with
        | some nt =>
          let r := tailWalk g fuel nt
          (el :: r.1, r.2)
        | none => ([], t)
      else ([], t)

/-- The backward (head-direction) walk of `discover_chain`; the source
pushes these elements at the **back** of the deque, so they are collected in
encounter order (closest to the start first). -/
def headWalk (g : CGraph) : Nat → Nat → List ChainElement × Nat
  | 0, h => ([], h)
  | fuel + 1, h =>
    match getChainElement g h with
    | none => ([], h)
    | some el =>
      if sideInputDegree g h = 0 && outputDegree g h = 1 then
        match getSingleInput g h with
        | some nh =>
          let r := headWalk g fuel nh
          (el :: r.1, r.2)
        | none => ([], h)
      else ([], h)

/-- `discover_chain`: from a start node, extend tailward then headward.  The
returned element list is in the deque's `make_contiguous` order: start
element, then the tailward elements, then the headward elements appended at
the back. -/
def discoverChain (g : CGraph) (idx : Nat) : Option (Nat × List ChainElement × Nat) :=
  if sideInputDegree g idx ≠ 0 || inputDegree g idx ≠ 1 || outputDegree g idx ≠ 1 then none
  else
    match getChainElement g idx, getSingleOutput g idx, getSingleInput g idx with
    | some el, some t0, some h0 =>
      let fuel := g.nodes.length + 1
      let tw := tailWalk g fuel t0
      let hw := headWalk g fuel h0
      some (hw.2, el :: tw.1 ++ hw.1, tw.2)
    | _, _, _ => none

/-- The BFS candidate alphabet. -/
def chainCandidates : List ChainType :=
  [.torch, .repeater 1, .repeater 2, .repeater 3, .repeater 4]

/-- `create_next` of `find_shortest_chain_with_profile`: apply the element,
prune on delay, mapping size and the seen set, and record the new profile as
seen. -/
def createNext (target : PulseProfile) (seen : List PulseProfile)
    (elems : List ChainType) (profile : PulseProfile) (elem : ChainType) :
    Option (List ChainType × PulseProfile) × List PulseProfile :=
  let profile := elem.apply profile
  if profile.total_delay > target.total_delay then (none, seen)
  else if profile.mapping.length < target.mapping.length then (none, seen)
  else if seen.contains profile then (none, seen)
  else (some (elems ++ [elem], profile), seen ++ [profile])

/-- Expanding one dequeued BFS state over the candidate alphabet, with the
source's early return on hitting the target profile. -/
def expandItem (target : PulseProfile) (elems : List ChainType) (profile : PulseProfile) :
    List PulseProfile → List ChainType →
      List (List ChainType × PulseProfile) × List PulseProfile × Option (List ChainType)
  | seen, [] => ([], seen, none)
  | seen, c :: cs =>
    match createNext target seen elems profile c with
    | (none, seen) => expandItem target elems profile seen cs
    | (some (ne, np), seen) =>
      if np = target then ([], seen, some ne)
      else
        let r := expandItem target elems profile seen cs
        ((ne, np) :: r.1, r.2.1, r.2.2)

/-- The BFS loop of `find_shortest_chain_with_profile`, fuelled by the
number of dequeue steps. -/
def bfsLoop (target : PulseProfile) :
    Nat → List (List ChainType × PulseProfile) → List PulseProfile → Option (List ChainType)
  | 0, _, _ => none
  | _ + 1, [], _ => none
  | fuel + 1, (elems, profile) :: rest, seen =>
    match expandItem target elems profile seen chainCandidates with
    | (items, seen, some found) =>
      let _ := items
      let _ := seen
      some found
    | (items, seen, none) => bfsLoop target fuel (rest ++ items) seen

/-- `find_shortest_chain_with_profile`. -/
def findShortestChain (fuel : Nat) (target : PulseProfile) : Option (List ChainType) :=
  bfsLoop target fuel [([], PulseProfile.fresh)] []

/-- `reduce_chain`: compute the profile of the discovered chain (in its
stored order), search for a strictly shorter chain with that exact profile,
and splice the replacement between head and tail.  The `expect` on the
search result is a panic branch never taken for sufficient fuel; it is
embedded as returning the graph unchanged. -/
def reduceChain (fuel : Nat) (g : CGraph) (chain : List ChainElement)
    (head_idx tail_idx : Nat) : CGraph :=
  let pulse_profile := (chain.map (·.ty)).foldl ChainType.apply PulseProfile.fresh
  if pulse_profile.total_delay = chain.length then g
  else if pulse_profile.total_delay = chain.length * 4 then g
  else
    match findShortestChain fuel pulse_profile with
    | none => g
    | some new_chain =>
      if new_chain.length ≥ chain.length then g
      else
        let g := chain.foldl (fun g el => g.removeNode el.idx) g
        let start : CGraph × Nat × Bool := (g, head_idx, (g.node head_idx).state.powered)
        let fin := new_chain.foldl
          (fun (acc : CGraph × Nat × Bool) elem =>
            let (g, head_idx, powered) := acc
            match elem with
            | .torch =>
              let powered := !powered
              let r := g.addNode
                { ty := .torch, block := none, state := NodeState.simple powered,
                  is_input := false, is_output := false }
              (r.1.addEdge head_idx r.2 .default 0, r.2, powered)
            | .repeater delay =>
              let r := g.addNode
                { ty := .repeater delay false, block := none, state := NodeState.simple powered,
                  is_input := false, is_output := false }
              (r.1.addEdge head_idx r.2 .default 0, r.2, powered))
          start
        fin.1.addEdge fin.2.1 tail_idx .default 0

/-- `SeriesReduction::run_pass`: discover all chains first, then reduce each
whose nodes are all still present. -/
def seriesReductionPass (fuel : Nat) (g : CGraph) : CGraph :=
  let chains := g.nodeIndices.flatMap (fun idx => (discoverChain g idx).toList)
  chains.foldl
    (fun g c =>
      let (head_idx, chain, tail_idx) := c
      if chain.any (fun el => !(g.containsNode el.idx)) then g
      else reduceChain fuel g chain head_idx tail_idx)
    g

/-! ## Concrete graphs and runs used by the claim theorems -/

/-- The number of incoming forward links of `t` with the given link type
whose source currently delivers attenuated signal strength `> 0`
(`src.output_power.saturating_sub(distance)`). -/
def deliveringCount (b : Backend) (t : Nat) (lt : LinkType) : Nat :=
  ((List.range b.nodes.length).map (fun i =>
    ((b.linksOf i).filter (fun l =>
      l.target = t && l.ty = lt && (b.nodeAt i).output_power - l.distance > 0)).length)).sum

/-- A backend with a single non-I/O node with block information and a
pending change, used to witness the flush frame conditions. -/
def flushWitnessBackend : Backend :=
  { nodes := [{ (default : Node) with changed := true, powered := true, output_power := 7 }]
    forward_links := [], analog_inputs := [], blocks := [some 3], pos_map := [(3, 0)]
    scheduler := TickScheduler.empty, events := [], noteblock_info := [] }

/-- Button → Lamp over one default edge of distance 0 (spec scenario 1). -/
def buttonLampGraph : CGraph :=
  { nodes := [
      some { ty := .button, block := some (10, 1), state := ⟨false, 0, false⟩,
             is_input := true, is_output := false },
      some { ty := .lamp, block := some (20, 2), state := ⟨false, 0, false⟩,
             is_input := false, is_output := true }]
    edges := [some { src := 0, dst := 1, ty := .default, ss := 0 }] }

/-- The button-lamp backend after pressing the button (`on_use_block` at the
button's position) and then `n` calls of `tick`. -/
def buttonLampAfter (n : Nat) : Backend :=
  (List.range n).foldl (fun b _ => tickB b)
    ((onUseBlock (compileB buttonLampGraph []) 10).toOption.getD default)

/-- Constant(15) −d0→ Comparator(Subtract): one analog node with one
incoming default edge. -/
def constCmpGraph : CGraph :=
  { nodes := [
      some { ty := .constant, block := none, state := ⟨true, 15, false⟩,
             is_input := false, is_output := false },
      some { ty := .comparator .subtract none false, block := none, state := ⟨false, 0, false⟩,
             is_input := false, is_output := false }]
    edges := [some { src := 0, dst := 1, ty := .default, ss := 0 }] }

/-- Lever (at position 7) −d0→ Comparator(Compare): toggling the lever
changes the delivered strength of the comparator's single incoming default
edge. -/
def leverCmpGraph : CGraph :=
  { nodes := [
      some { ty := .lever, block := some (7, 1), state := ⟨false, 0, false⟩,
             is_input := true, is_output := false },
      some { ty := .comparator .compare none false, block := none, state := ⟨false, 0, false⟩,
             is_input := false, is_output := false }]
    edges := [some { src := 0, dst := 1, ty := .default, ss := 0 }] }

/-- The lever-comparator backend right after toggling the lever on. -/
def leverCmpToggled : Backend :=
  (onUseBlock (compileB leverCmpGraph []) 7).toOption.getD default

/-- Normalization candidate: Constant(15) −d1→ Comparator(Subtract,
no far input, not facing a diode) −d0→ Lamp.  The effective constant input
is `15 − 1 = 14 ≠ 15`, no side inputs exist, and the single outgoing edge
leads to a Lamp with distance `0 ≤ 14`. -/
def normCandidateGraph : CGraph :=
  { nodes := [
      some { ty := .constant, block := none, state := ⟨true, 15, false⟩,
             is_input := false, is_output := false },
      some { ty := .comparator .subtract none false, block := none, state := ⟨false, 0, false⟩,
             is_input := false, is_output := false },
      some { ty := .lamp, block := none, state := ⟨false, 0, false⟩,
             is_input := false, is_output := true }]
    edges := [some { src := 0, dst := 1, ty := .default, ss := 1 },
              some { src := 1, dst := 2, ty := .default, ss := 0 }] }

/-- Coalesce candidate: a Lever with two default edges of equal distance 0
to two structurally identical removable Subtract comparators, each with
total incoming degree 1. -/
def cmpSiblingsGraph : CGraph :=
  { nodes := [
      some { ty := .lever, block := none, state := ⟨false, 0, false⟩,
             is_input := true, is_output := false },
      some { ty := .comparator .subtract none false, block := none, state := ⟨false, 0, false⟩,
             is_input := false, is_output := false },
      some { ty := .comparator .subtract none false, block := none, state := ⟨false, 0, false⟩,
             is_input := false, is_output := false }]
    edges := [some { src := 0, dst := 1, ty := .default, ss := 0 },
              some { src := 0, dst := 2, ty := .default, ss := 0 }] }

/-- Series-reduction graph.  The linear chain, head to tail, is
Lever(3) → Torch(1) → Repeater2(0) → Torch(2) → Lamp(4); node slot order
puts the middle repeater first, so `discover_chain` starting there stores
the chain as `[Repeater2, Torch(2), Torch(1)]` — not in head-to-tail
order. -/
def seriesChainGraph : CGraph :=
  { nodes := [
      some { ty := .repeater 2 false, block := none, state := ⟨false, 0, false⟩,
             is_input := false, is_output := false },
      some { ty := .torch, block := none, state := ⟨true, 15, false⟩,
             is_input := false, is_output := false },
      some { ty := .torch, block := none, state := ⟨true, 15, false⟩,
             is_input := false, is_output := false },
      some { ty := .lever, block := none, state := ⟨false, 0, false⟩,
             is_input := true, is_output := false },
      some { ty := .lamp, block := none, state := ⟨false, 0, false⟩,
             is_input := false, is_output := true }]
    edges := [some { src := 3, dst := 1, ty := .default, ss := 0 },
              some { src := 1, dst := 0, ty := .default, ss := 0 },
              some { src := 0, dst := 2, ty := .default, ss := 0 },
              some { src := 2, dst := 4, ty := .default, ss := 0 }] }

/-- The expected result of the series-reduction pass on
`seriesChainGraph`: the three chain nodes are deleted and a fresh
Repeater(2) → Repeater(2) chain is spliced between the lever and the
lamp. -/
def seriesChainReduced : CGraph :=
  { nodes := [
      none, none, none,
      some { ty := .lever, block := none, state := ⟨false, 0, false⟩,
             is_input := true, is_output := false },
      some { ty := .lamp, block := none, state := ⟨false, 0, false⟩,
             is_input := false, is_output := true },
      some { ty := .repeater 2 false, block := none, state := ⟨false, 0, false⟩,
             is_input := false, is_output := false },
      some { ty := .repeater 2 false, block := none, state := ⟨false, 0, false⟩,
             is_input := false, is_output := false }]
    edges := [
      none, none, none, none,
      some { src := 3, dst := 5, ty := .default, ss := 0 },
      some { src := 5, dst := 6, ty := .default, ss := 0 },
      some { src := 6, dst := 4, ty := .default, ss := 0 }] }

/-! ## Reachability and the input-aggregate invariants

The claims C2 and C8 quantify over "every public operation".  `ReachableB`
closes the compiled backend under the public operations (`tick`,
`on_use_block`, `set_pressure_plate`, `flush`; `inspect` does not change
state, and `reset` tears the backend down). -/

/-- Backends reachable from `b0` by public operations. -/
inductive ReachableB (b0 : Backend) : Backend → Prop
  | base : ReachableB b0 b0
  | tickOp {b} : ReachableB b0 b → ReachableB b0 (tickB b)
  | useOp {b b' pos} : ReachableB b0 b → onUseBlock b pos = .ok b' → ReachableB b0 b'
  | plateOp {b b' pos powered} : ReachableB b0 b → setPressurePlate b pos powered = .ok b' →
      ReachableB b0 b'
  | flushOp {b io_only} : ReachableB b0 b → ReachableB b0 (flushB b io_only).1

/-- Well-formedness of a compile graph, the precondition under which
`compile` completes without hitting its `MAX_INPUTS`/missing-block aborts
and all strengths are in range: every live edge joins live nodes with
attenuation ≤ 15, every output strength and far input is ≤ 15, and each
node has at most 255 incoming edges per link type. -/
def WFGraph (g : CGraph) : Prop :=
  (∀ p ∈ g.liveEdges, g.containsNode p.2.src = true ∧ g.containsNode p.2.dst = true
      ∧ p.2.ss ≤ 15)
  ∧ (∀ i < g.nodes.length, (g.node i).state.output_strength ≤ 15)
  ∧ (∀ i < g.nodes.length,
      (match (g.node i).ty with
        | .comparator _ farInput _ => farInput.getD 0 ≤ 15
        | _ => True))
  ∧ (∀ i < g.nodes.length, (g.incomingOfType i .default).length ≤ 255
      ∧ (g.incomingOfType i .side).length ≤ 255)

/-- The graph index of the dense backend node `t`. -/
def gIdx (G : CGraph) (t : Nat) : Nat := G.nodeIndices.getD t 0

/-- The reference output of source `i`: its current output power, except for
Wire nodes, whose output changes (in `update_node`) never propagate — their
deliveries stay recorded at the compile-time output, read from `b0`. -/
def srcRef (b0 b : Backend) (i : Nat) : Nat :=
  if (b.nodeAt i).ty = .wire then (b0.nodeAt i).output_power else (b.nodeAt i).output_power

/-- Does link `l` of source `i` deliver to `(t, lt)` a strength satisfying
`p`? -/
def critLink (b0 b : Backend) (i t : Nat) (lt : LinkType) (p : Nat → Bool)
    (l : ForwardLink) : Bool :=
  l.target = t && l.ty = lt && p (srcRef b0 b i - l.distance)

/-- The number of forward links into `(t, lt)` whose recorded delivery
satisfies `p`. -/
def linkCount (b0 b : Backend) (t : Nat) (lt : LinkType) (p : Nat → Bool) : Nat :=
  ((List.range b.nodes.length).map (fun i =>
    ((b.linksOf i).filter (critLink b0 b i t lt p)).length)).sum

/-- The total number of forward links into `(t, lt)`. -/
def linkTotal (b : Backend) (t : Nat) (lt : LinkType) : Nat :=
  ((List.range b.nodes.length).map (fun i =>
    ((b.linksOf i).filter (fun l => l.target = t && l.ty = lt)).length)).sum

/-- The strength a graph edge delivered at compile time. -/
def rec0G (G : CGraph) (e : CEdge) : Nat :=
  (G.node e.src).state.output_strength - e.ss

/-- The number of incoming graph edges of `(jt, lt)` whose source is a
Constant and whose compile-time delivery satisfies `p`.  Constants emit no
forward links, so their contribution to the input aggregates is fixed at
compile time. -/
def constCount (G : CGraph) (jt : Nat) (lt : LinkType) (p : Nat → Bool) : Nat :=
  (((G.incomingOfType jt lt).filter (fun e => (G.node e.src).ty = .constant)).filter
    (fun e => p (rec0G G e))).length

/-- Exactness of one histogram against an offset function `om` (the fixed
constant-edge contribution) and a link-counting function `cnt`. -/
def histOKGen (om cnt : (Nat → Bool) → Nat) (counts : List Nat) : Prop :=
  counts.length = 16
  ∧ (∀ v, 1 ≤ v → v ≤ 15 →
      counts.getD v 0 = om (fun x => decide (x = v)) + cnt (fun x => decide (x = v)))
  ∧ counts.getD 0 0 + (om (fun x => decide (x ≠ 0)) + cnt (fun x => decide (x ≠ 0))) = 255

/-- The per-node input-aggregate invariant of the direct backend, relative
to the compile graph `G` and the compiled backend `b0` (used only for the
frozen Wire reference outputs). -/
structure Inv (G : CGraph) (b0 b : Backend) : Prop where
  outLe : ∀ i, (b.nodeAt i).output_power ≤ 15
  refLe : ∀ i, (b0.nodeAt i).output_power ≤ 15
  farLe : ∀ i, (b.nodeAt i).ty = .comparator →
    (b.nodeAt i).get_comparator_properties.far_input ≤ 15
  inj : ∀ t1 t2, t1 < b.nodes.length → t2 < b.nodes.length →
    (b.nodeAt t1).ty.is_analog = true → (b.nodeAt t2).ty.is_analog = true → t1 ≠ t2 →
    (b.nodeAt t1).analog_input_idx ≠ (b.nodeAt t2).analog_input_idx
  idxLt : ∀ t, t < b.nodes.length → (b.nodeAt t).ty.is_analog = true →
    (b.nodeAt t).analog_input_idx < b.analog_inputs.length
  cap : ∀ t lt, t < b.nodes.length →
    constCount G (gIdx G t) lt (fun _ => true) + linkTotal b t lt ≤ 255
  hist : ∀ t, t < b.nodes.length → (b.nodeAt t).ty.is_analog = true →
    histOKGen (constCount G (gIdx G t) .default) (linkCount b0 b t .default)
      (b.analog_inputs.getD (b.nodeAt t).analog_input_idx default).ss_counts_default
    ∧ histOKGen (constCount G (gIdx G t) .side) (linkCount b0 b t .side)
      (b.analog_inputs.getD (b.nodeAt t).analog_input_idx default).ss_counts_side
  dig : ∀ t, t < b.nodes.length → (b.nodeAt t).ty.is_analog = false →
    (b.nodeAt t).digital_input.count_default =
      constCount G (gIdx G t) .default (fun x => decide (x ≠ 0))
        + linkCount b0 b t .default (fun x => decide (x ≠ 0))
    ∧ (b.nodeAt t).digital_input.count_side =
      constCount G (gIdx G t) .side (fun x => decide (x ≠ 0))
        + linkCount b0 b t .side (fun x => decide (x ≠ 0))

/-- Link counting while `set_node`'s forward-link loop is half done: the
processed prefix `done` of the source's links counts with the current
reference outputs, the unprocessed suffix `rest` still counts at the
source's former output `oldOut`, and every other source counts normally. -/
def linkCountMid (b0 b : Backend) (n oldOut : Nat) (done rest : List ForwardLink)
    (t : Nat) (lt : LinkType) (p : Nat → Bool) : Nat :=
  ((List.range b.nodes.length).map (fun i =>
    if i = n then 0 else ((b.linksOf i).filter (critLink b0 b i t lt p)).length)).sum
  + (done.filter (critLink b0 b n t lt p)).length
  + (rest.filter (fun l => l.target = t && l.ty = lt && p (oldOut - l.distance))).length

/-- The mid-loop version of `Inv`, with `linkCountMid` in place of
`linkCount`. -/
structure InvMid (G : CGraph) (b0 b : Backend) (n oldOut : Nat)
    (done rest : List ForwardLink) : Prop where
  outLe : ∀ i, (b.nodeAt i).output_power ≤ 15
  refLe : ∀ i, (b0.nodeAt i).output_power ≤ 15
  farLe : ∀ i, (b.nodeAt i).ty = .comparator →
    (b.nodeAt i).get_comparator_properties.far_input ≤ 15
  inj : ∀ t1 t2, t1 < b.nodes.length → t2 < b.nodes.length →
    (b.nodeAt t1).ty.is_analog = true → (b.nodeAt t2).ty.is_analog = true → t1 ≠ t2 →
    (b.nodeAt t1).analog_input_idx ≠ (b.nodeAt t2).analog_input_idx
  idxLt : ∀ t, t < b.nodes.length → (b.nodeAt t).ty.is_analog = true →
    (b.nodeAt t).analog_input_idx < b.analog_inputs.length
  cap : ∀ t lt, t < b.nodes.length →
    constCount G (gIdx G t) lt (fun _ => true) + linkTotal b t lt ≤ 255
  hist : ∀ t, t < b.nodes.length → (b.nodeAt t).ty.is_analog = true →
    histOKGen (constCount G (gIdx G t) .default)
      (linkCountMid b0 b n oldOut done rest t .default)
      (b.analog_inputs.getD (b.nodeAt t).analog_input_idx default).ss_counts_default
    ∧ histOKGen (constCount G (gIdx G t) .side)
      (linkCountMid b0 b n oldOut done rest t .side)
      (b.analog_inputs.getD (b.nodeAt t).analog_input_idx default).ss_counts_side
  dig : ∀ t, t < b.nodes.length → (b.nodeAt t).ty.is_analog = false →
    (b.nodeAt t).digital_input.count_default =
      constCount G (gIdx G t) .default (fun x => decide (x ≠ 0))
        + linkCountMid b0 b n oldOut done rest t .default (fun x => decide (x ≠ 0))
    ∧ (b.nodeAt t).digital_input.count_side =
      constCount G (gIdx G t) .side (fun x => decide (x ≠ 0))
        + linkCountMid b0 b n oldOut done rest t .side (fun x => decide (x ≠ 0))

/-- The structural skeleton the propagation engine never changes: the
forward-link array, the node count, the analog-input count, and each node's
type, link slice and analog index. -/
def preservesSkel (b b' : Backend) : Prop :=
  b'.forward_links = b.forward_links
  ∧ b'.nodes.length = b.nodes.length
  ∧ b'.analog_inputs.length = b.analog_inputs.length
  ∧ ∀ j, (b'.nodeAt j).ty = (b.nodeAt j).ty
      ∧ (b'.nodeAt j).fwd_link_begin = (b.nodeAt j).fwd_link_begin
      ∧ (b'.nodeAt j).fwd_link_count = (b.nodeAt j).fwd_link_count
      ∧ (b'.nodeAt j).analog_input_idx = (b.nodeAt j).analog_input_idx

/-- Skeleton preservation plus preservation of every non-Wire output power:
under these, all link counting functions are unchanged. -/
def preservesCounts (b b' : Backend) : Prop :=
  preservesSkel b b'
  ∧ ∀ j, (b.nodeAt j).ty ≠ .wire → (b'.nodeAt j).output_power = (b.nodeAt j).output_power

/-- What a call of `update_node` can do to the backend, as far as the input
aggregates are concerned: it never touches the forward links, the analog
inputs, any digital counter or any comparator's properties, and the only
output power it can change is a Wire's, set to that wire's current analog
aggregate. -/
def updLike (b b' : Backend) : Prop :=
  preservesSkel b b'
  ∧ b'.analog_inputs = b.analog_inputs
  ∧ (∀ j, (b'.nodeAt j).digital_input = (b.nodeAt j).digital_input)
  ∧ (∀ j, (b.nodeAt j).ty = .comparator →
      (b'.nodeAt j).type_specific_properties = (b.nodeAt j).type_specific_properties)
  ∧ (∀ j, (b'.nodeAt j).output_power = (b.nodeAt j).output_power
      ∨ ((b.nodeAt j).ty = .wire ∧ j < b.nodes.length ∧
          (b'.nodeAt j).output_power =
            (b.analog_inputs.getD (b.nodeAt j).analog_input_idx default).get))

/-! # Supporting lemmas -/

theorem getD_set_of_ne {α : Type} (l : List α) {i j : Nat} (v d : α) (h : j ≠ i) :
    (l.set i v).getD j d = l.getD j d := by
  simp [List.getD_eq_getElem?_getD, List.getElem?_set_ne (Ne.symm h)]

theorem getD_set_cases {α : Type} (l : List α) (i j : Nat) (v d : α) :
    (l.set i v).getD j d = if i = j ∧ i < l.length then v else l.getD j d := by
  simp only [List.getD_eq_getElem?_getD, List.getElem?_set]
  by_cases h1 : i = j
  · subst h1
    by_cases h2 : i < l.length
    · simp [h2]
    · rw [List.getElem?_eq_none (by omega)]
      simp [h2]
  · simp [h1]

theorem nodeAt_oob (b : Backend) (i : Nat) (h : b.nodes.length ≤ i) : b.nodeAt i = default := by
  unfold Backend.nodeAt
  rw [List.getD_eq_getElem?_getD, List.getElem?_eq_none h]
  rfl

/-! ### Flush frame lemmas -/

theorem flushStep_fst_blocks (io : Bool) (acc : Backend × List Nat) (i : Nat) :
    (flushStep io acc i).1.blocks = acc.1.blocks := by
  unfold flushStep
  rcases h : acc.1.blocks.getD i none with _ | pos <;> simp [h, Backend.modifyNode]

theorem modifyNode_nodeAt (b : Backend) (f : Node → Node) (i j : Nat) :
    (b.modifyNode i f).nodeAt j =
      if i = j ∧ i < b.nodes.length then f (b.nodeAt i) else b.nodeAt j := by
  unfold Backend.modifyNode Backend.nodeAt
  simp only
  rw [getD_set_cases]

theorem flushStep_nodeAt (io : Bool) (acc : Backend × List Nat) (i j : Nat) :
    (flushStep io acc i).1.nodeAt j =
      if i = j ∧ (acc.1.blocks.getD i none).isSome then
        { acc.1.nodeAt j with changed := false }
      else acc.1.nodeAt j := by
  unfold flushStep
  rcases h : acc.1.blocks.getD i none with _ | pos
  · simp [h]
  · simp only [h, Option.isSome_some, and_true]
    show (acc.1.modifyNode i _).nodeAt j = _
    rw [modifyNode_nodeAt]
    by_cases hij : i = j
    · subst hij
      by_cases hlen : i < acc.1.nodes.length
      · rw [if_pos ⟨rfl, hlen⟩, if_pos rfl]
      · have hd : acc.1.nodeAt i = default := nodeAt_oob _ _ (by omega)
        rw [if_neg (fun hc => hlen hc.2), if_pos rfl, hd]
        rfl
    · rw [if_neg (fun hc => hij hc.1), if_neg hij]

theorem flush_fold_nodeAt (io : Bool) (l : List Nat) (acc : Backend × List Nat) (j : Nat) :
    ((l.foldl (flushStep io) acc).1.nodeAt j) =
      if j ∈ l ∧ (acc.1.blocks.getD j none).isSome then
        { acc.1.nodeAt j with changed := false }
      else acc.1.nodeAt j := by
  induction l generalizing acc with
  | nil => simp
  | cons a as ih =>
    simp only [List.foldl_cons]
    rw [ih, flushStep_fst_blocks, flushStep_nodeAt]
    by_cases hP : (acc.1.blocks.getD j none).isSome
    · by_cases haj : a = j
      · subst haj
        by_cases has : a ∈ as
        · rw [if_pos ⟨has, hP⟩, if_pos ⟨rfl, hP⟩, if_pos ⟨List.mem_cons_self a as, hP⟩]
        · rw [if_neg (fun hc => has hc.1), if_pos ⟨rfl, hP⟩,
            if_pos ⟨List.mem_cons_self a as, hP⟩]
      · by_cases has : j ∈ as
        · rw [if_pos ⟨has, hP⟩, if_neg (fun hc => haj hc.1),
            if_pos ⟨List.mem_cons_of_mem a has, hP⟩]
        · have hRHS : ¬(j ∈ a :: as ∧ (acc.1.blocks.getD j none).isSome = true) := by
            intro hc
            rcases List.mem_cons.1 hc.1 with h | h
            · exact haj h.symm
            · exact has h
          rw [if_neg (fun hc => has hc.1), if_neg (fun hc => haj hc.1), if_neg hRHS]
    · by_cases haj : a = j
      · subst haj
        rw [if_neg (fun hc => hP hc.2), if_neg (fun hc => hP hc.2),
          if_neg (fun hc => hP hc.2)]
      · rw [if_neg (fun hc => hP hc.2), if_neg (fun hc => haj hc.1),
          if_neg (fun hc => hP hc.2)]

theorem flushStep_ioMarkedAt (io : Bool) (acc : Backend × List Nat) (i j : Nat) :
    ((flushStep io acc i).1.nodeAt j).ioMarked = (acc.1.nodeAt j).ioMarked := by
  rw [flushStep_nodeAt]
  split <;> rfl

theorem flush_fold_writes (l : List Nat) (acc : Backend × List Nat) (j : Nat)
    (hio : (acc.1.nodeAt j).ioMarked = false) (hjw : j ∉ acc.2) :
    j ∉ (l.foldl (flushStep true) acc).2 := by
  induction l generalizing acc with
  | nil => exact hjw
  | cons a as ih =>
    simp only [List.foldl_cons]
    refine ih (flushStep true acc a) ?_ ?_
    · rw [flushStep_ioMarkedAt]
      exact hio
    · unfold flushStep
      rcases h : acc.1.blocks.getD a none with _ | pos
      · exact hjw
      · simp only
        by_cases hc : (acc.1.nodeAt a).changed && (!true || (acc.1.nodeAt a).ioMarked)
        · simp only [hc, if_pos]
          intro hmem
          rcases List.mem_append.1 hmem with hm | hm
          · exact hjw hm
          · have hja : j = a := by simpa using hm
            subst hja
            simp [hio] at hc
        · simp only [hc, if_neg]
          exact hjw

/-! ### Coalesce preservation lemmas -/

theorem coalesceInto_nodes (g : CGraph) (node into j : Nat) (h : j ≠ node) :
    (coalesceInto g node into).nodes.getD j none = g.nodes.getD j none := by
  unfold coalesceInto
  have hfold : ∀ (ids : List Nat) (g0 : CGraph),
      (ids.foldl (fun g eid =>
        match g.edges.getD eid none with
        | some e => (g.removeEdge eid).addEdge into e.dst e.ty e.ss
        | none => g) g0).nodes = g0.nodes := by
    intro ids
    induction ids with
    | nil => intro g0; rfl
    | cons a as ih =>
      intro g0
      simp only [List.foldl_cons]
      rw [ih]
      rcases g0.edges.getD a none with _ | e <;> rfl
  show ((_ : CGraph).removeNode node).nodes.getD j none = _
  unfold CGraph.removeNode
  simp only
  rw [hfold, getD_set_of_ne _ _ _ h]

theorem coalesceOutgoing_preserves (g : CGraph) (src into j : Nat) (n : CompileNode)
    (hj : g.nodes.getD j none = some n) (hcmp : n.ty.isComparator = true)
    (hinto : (g.node into).ty.isComparator = false) :
    (coalesceOutgoing g src into).1.nodes.getD j none = some n := by
  unfold coalesceOutgoing
  have hfold : ∀ (ids : List Nat) (p : CGraph × Nat),
      p.1.nodes.getD j none = some n →
      (p.1.node into).ty.isComparator = false →
      ((ids.foldl (coalesceStep into) p).1.nodes.getD j none = some n) := by
    intro ids
    induction ids with
    | nil => intro p h1 _; exact h1
    | cons a as ih =>
      intro p h1 h2
      simp only [List.foldl_cons]
      refine ih _ ?_ ?_
      · unfold coalesceStep
        rcases he : p.1.edges.getD a none with _ | e
        · exact h1
        · simp only [he]
          by_cases hdst : e.dst = into
          · rw [if_pos hdst]
            exact h1
          · rw [if_neg hdst]
            by_cases hg : (p.1.node e.dst).ty = (p.1.node into).ty ∧
                (p.1.node e.dst).is_removable ∧ (p.1.incomingEdges e.dst).length = 1
            · have hjd : j ≠ e.dst := by
                intro hEq
                have hnode : p.1.node e.dst = n := by
                  unfold CGraph.node
                  rw [← hEq, h1]
                  rfl
                have hxx : (p.1.node into).ty.isComparator = true := by
                  rw [← hg.1, hnode]
                  exact hcmp
                rw [hxx] at h2
                exact absurd h2 (by decide)
              rw [if_pos (by simp [hg.1, hg.2.1, hg.2.2])]
              exact (coalesceInto_nodes p.1 e.dst into j hjd).trans h1
            · rw [if_neg (by simpa using fun h1' h2' h3' => hg ⟨h1', h2', h3'⟩)]
              exact h1
      · unfold coalesceStep
        rcases he : p.1.edges.getD a none with _ | e
        · exact h2
        · simp only [he]
          by_cases hdst : e.dst = into
          · rw [if_pos hdst]
            exact h2
          · rw [if_neg hdst]
            by_cases hg : (p.1.node e.dst).ty = (p.1.node into).ty ∧
                (p.1.node e.dst).is_removable ∧ (p.1.incomingEdges e.dst).length = 1
            · rw [if_pos (by simp [hg.1, hg.2.1, hg.2.2])]
              show ((coalesceInto p.1 e.dst into).node into).ty.isComparator = false
              unfold CGraph.node
              rw [coalesceInto_nodes p.1 e.dst into into (fun hEq => hdst hEq.symm)]
              exact h2
            · rw [if_neg (by simpa using fun h1' h2' h3' => hg ⟨h1', h2', h3'⟩)]
              exact h2
  exact hfold _ (g, 0) hj hinto

/-! ### Skeleton and counting congruence -/

theorem preservesSkel_refl (b : Backend) : preservesSkel b b :=
  ⟨rfl, rfl, rfl, fun _ => ⟨rfl, rfl, rfl, rfl⟩⟩

theorem preservesSkel_trans {a b c : Backend} (h1 : preservesSkel a b)
    (h2 : preservesSkel b c) : preservesSkel a c := by
  refine ⟨h2.1.trans h1.1, h2.2.1.trans h1.2.1, h2.2.2.1.trans h1.2.2.1, fun j => ?_⟩
  obtain ⟨x1, x2, x3, x4⟩ := h1.2.2.2 j
  obtain ⟨y1, y2, y3, y4⟩ := h2.2.2.2 j
  exact ⟨y1.trans x1, y2.trans x2, y3.trans x3, y4.trans x4⟩

theorem preservesCounts_refl (b : Backend) : preservesCounts b b :=
  ⟨preservesSkel_refl b, fun _ _ => rfl⟩

theorem preservesCounts_trans {a b c : Backend} (h1 : preservesCounts a b)
    (h2 : preservesCounts b c) : preservesCounts a c := by
  refine ⟨preservesSkel_trans h1.1 h2.1, fun j hj => ?_⟩
  rw [h2.2 j (by rw [(h1.1.2.2.2 j).1]; exact hj)]
  exact h1.2 j hj

theorem preservesSkel_linksOf {b b' : Backend} (h : preservesSkel b b') (j : Nat) :
    b'.linksOf j = b.linksOf j := by
  unfold Backend.linksOf
  rw [h.1, (h.2.2.2 j).2.1, (h.2.2.2 j).2.2.1]

theorem preservesCounts_srcRef (b0 : Backend) {b b' : Backend} (h : preservesCounts b b')
    (i : Nat) : srcRef b0 b' i = srcRef b0 b i := by
  unfold srcRef
  rw [(h.1.2.2.2 i).1]
  by_cases hw : (b.nodeAt i).ty = .wire
  · simp [hw]
  · simp [hw, h.2 i hw]

theorem preservesCounts_critLink (b0 : Backend) {b b' : Backend} (h : preservesCounts b b')
    (i t : Nat) (lt : LinkType) (p : Nat → Bool) :
    critLink b0 b' i t lt p = critLink b0 b i t lt p := by
  funext l
  unfold critLink
  rw [preservesCounts_srcRef b0 h i]

theorem preservesCounts_linkCount (b0 : Backend) {b b' : Backend} (h : preservesCounts b b')
    (t : Nat) (lt : LinkType) (p : Nat → Bool) :
    linkCount b0 b' t lt p = linkCount b0 b t lt p := by
  unfold linkCount
  rw [h.1.2.1]
  congr 1
  refine List.map_congr_left (fun i _ => ?_)
  rw [preservesSkel_linksOf h.1 i, preservesCounts_critLink b0 h i t lt p]

theorem preservesCounts_linkCountMid (b0 : Backend) {b b' : Backend} (h : preservesCounts b b')
    (n oldOut : Nat) (done rest : List ForwardLink) (t : Nat) (lt : LinkType) (p : Nat → Bool) :
    linkCountMid b0 b' n oldOut done rest t lt p = linkCountMid b0 b n oldOut done rest t lt p := by
  unfold linkCountMid
  rw [h.1.2.1, preservesCounts_critLink b0 h n t lt p]
  have hmap : (List.range b.nodes.length).map
        (fun i => if i = n then 0 else ((b'.linksOf i).filter (critLink b0 b' i t lt p)).length)
      = (List.range b.nodes.length).map
        (fun i => if i = n then 0 else ((b.linksOf i).filter (critLink b0 b i t lt p)).length) :=
    List.map_congr_left (fun i _ => by
      rw [preservesSkel_linksOf h.1 i, preservesCounts_critLink b0 h i t lt p])
  rw [hmap]

theorem preservesSkel_linkTotal {b b' : Backend} (h : preservesSkel b b') (t : Nat)
    (lt : LinkType) : linkTotal b' t lt = linkTotal b t lt := by
  unfold linkTotal
  rw [h.2.1]
  congr 1
  refine List.map_congr_left (fun i _ => ?_)
  rw [preservesSkel_linksOf h i]

theorem modifyNode_preservesSkel (b : Backend) (i : Nat) (f : Node → Node)
    (hf : (f (b.nodeAt i)).ty = (b.nodeAt i).ty
      ∧ (f (b.nodeAt i)).fwd_link_begin = (b.nodeAt i).fwd_link_begin
      ∧ (f (b.nodeAt i)).fwd_link_count = (b.nodeAt i).fwd_link_count
      ∧ (f (b.nodeAt i)).analog_input_idx = (b.nodeAt i).analog_input_idx) :
    preservesSkel b (b.modifyNode i f) := by
  refine ⟨rfl, by simp [Backend.modifyNode], rfl, fun j => ?_⟩
  rw [modifyNode_nodeAt]
  by_cases h : i = j ∧ i < b.nodes.length
  · rw [if_pos h, ← h.1]
    exact hf
  · rw [if_neg h]
    exact ⟨rfl, rfl, rfl, rfl⟩

theorem modifyAnalog_preservesSkel (b : Backend) (i : Nat) (f : AnalogInput → AnalogInput) :
    preservesSkel b (b.modifyAnalog i f) := by
  refine ⟨rfl, rfl, by simp [Backend.modifyAnalog], fun j => ⟨rfl, rfl, rfl, rfl⟩⟩

/-! ### Small list arithmetic -/

theorem elem_le_sum {l : List Nat} {x : Nat} (h : x ∈ l) : x ≤ l.sum := by
  induction l with
  | nil => cases h
  | cons a t ih =>
    rcases List.mem_cons.1 h with h1 | h1
    · subst h1
      simp [List.sum_cons]
    · have := ih h1
      simp [List.sum_cons]
      omega

theorem sum_ge_one_exists {l : List Nat} (h : 1 ≤ l.sum) : ∃ x ∈ l, 1 ≤ x := by
  induction l with
  | nil => simp at h
  | cons a t ih =>
    rcases Nat.eq_zero_or_pos a with h1 | h1
    · subst h1
      simp only [List.sum_cons, Nat.zero_add] at h
      obtain ⟨x, hx, hx1⟩ := ih h
      exact ⟨x, List.mem_cons_of_mem _ hx, hx1⟩
    · exact ⟨a, List.mem_cons_self _ _, h1⟩

theorem length_filter_mono {α : Type} {l : List α} {p q : α → Bool}
    (h : ∀ a, p a = true → q a = true) : (l.filter p).length ≤ (l.filter q).length := by
  induction l with
  | nil => simp
  | cons a t ih =>
    by_cases hp : p a = true
    · rw [List.filter_cons_of_pos hp, List.filter_cons_of_pos (h a hp)]
      simpa using ih
    · rw [List.filter_cons_of_neg (by simpa using hp)]
      by_cases hq : q a = true
      · rw [List.filter_cons_of_pos hq]
        simp
        omega
      · rw [List.filter_cons_of_neg (by simpa using hq)]
        exact ih

theorem sum_map_range_split (len n : Nat) (f : Nat → Nat) (hn : n < len) :
    ((List.range len).map f).sum =
      ((List.range len).map (fun i => if i = n then 0 else f i)).sum + f n := by
  induction len with
  | zero => omega
  | succ m ih =>
    rw [List.range_succ]
    by_cases hnm : n = m
    · subst hnm
      have : ∀ i ∈ List.range n, (if i = n then 0 else f i) = f i := by
        intro i hi
        rw [if_neg (by have := List.mem_range.1 hi; omega)]
      simp [List.map_append, List.sum_append, List.map_congr_left this]
    · have hlt : n < m := by omega
      have hmn : m ≠ n := fun hEq => hnm hEq.symm
      rw [List.map_append, List.map_append, List.sum_append, List.sum_append, ih hlt]
      simp [hmn]
      omega

/-! ### update_node effects -/

theorem updLike_refl (b : Backend) : updLike b b :=
  ⟨preservesSkel_refl b, rfl, fun _ => rfl, fun _ _ => rfl, fun _ => Or.inl rfl⟩

theorem updLike_trans {a b c : Backend} (h1 : updLike a b) (h2 : updLike b c) :
    updLike a c := by
  obtain ⟨s1, a1, d1, t1, o1⟩ := h1
  obtain ⟨s2, a2, d2, t2, o2⟩ := h2
  refine ⟨preservesSkel_trans s1 s2, a2.trans a1, fun j => (d2 j).trans (d1 j),
    fun j hj => ?_, fun j => ?_⟩
  · have hbj : (b.nodeAt j).ty = .comparator := by
      rw [(s1.2.2.2 j).1]
      exact hj
    exact (t2 j hbj).trans (t1 j hj)
  · rcases o2 j with h | ⟨hw, hlen, hv⟩
    · rcases o1 j with h' | ⟨hw', hlen', hv'⟩
      · exact Or.inl (h.trans h')
      · exact Or.inr ⟨hw', hlen', h.trans hv'⟩
    · right
      have hwa : (a.nodeAt j).ty = .wire := by
        rw [← (s1.2.2.2 j).1]
        exact hw
      refine ⟨hwa, by rw [← s1.2.1]; exact hlen, ?_⟩
      rw [hv, a1, (s1.2.2.2 j).2.2.2]

theorem updLike_preservesCounts {b b' : Backend} (h : updLike b b') : preservesCounts b b' := by
  refine ⟨h.1, fun j hj => ?_⟩
  rcases h.2.2.2.2 j with h' | ⟨hw, _, _⟩
  · exact h'
  · exact absurd hw hj

theorem updLike_modifyNode (b : Backend) (i : Nat) (f : Node → Node)
    (hf : (f (b.nodeAt i)).ty = (b.nodeAt i).ty
      ∧ (f (b.nodeAt i)).fwd_link_begin = (b.nodeAt i).fwd_link_begin
      ∧ (f (b.nodeAt i)).fwd_link_count = (b.nodeAt i).fwd_link_count
      ∧ (f (b.nodeAt i)).analog_input_idx = (b.nodeAt i).analog_input_idx
      ∧ (f (b.nodeAt i)).digital_input = (b.nodeAt i).digital_input
      ∧ (f (b.nodeAt i)).output_power = (b.nodeAt i).output_power
      ∧ ((b.nodeAt i).ty = .comparator →
          (f (b.nodeAt i)).type_specific_properties = (b.nodeAt i).type_specific_properties)) :
    updLike b (b.modifyNode i f) := by
  refine ⟨modifyNode_preservesSkel b i f ⟨hf.1, hf.2.1, hf.2.2.1, hf.2.2.2.1⟩, rfl,
    fun j => ?_, fun j hj => ?_, fun j => Or.inl ?_⟩
  · rw [modifyNode_nodeAt]
    by_cases h : i = j ∧ i < b.nodes.length
    · rw [if_pos h, ← h.1]
      exact hf.2.2.2.2.1
    · rw [if_neg h]
  · rw [modifyNode_nodeAt]
    by_cases h : i = j ∧ i < b.nodes.length
    · rw [if_pos h, ← h.1]
      exact hf.2.2.2.2.2.2 (h.1 ▸ hj)
    · rw [if_neg h]
  · rw [modifyNode_nodeAt]
    by_cases h : i = j ∧ i < b.nodes.length
    · rw [if_pos h, ← h.1]
      exact hf.2.2.2.2.2.1
    · rw [if_neg h]

theorem updLike_scheduler (b : Backend) (s : TickScheduler) :
    updLike b { b with scheduler := s } :=
  ⟨⟨rfl, rfl, rfl, fun _ => ⟨rfl, rfl, rfl, rfl⟩⟩, rfl, fun _ => rfl, fun _ _ => rfl,
    fun _ => Or.inl rfl⟩

theorem updLike_events (b : Backend) (ev : List Nat) :
    updLike b { b with events := ev } :=
  ⟨⟨rfl, rfl, rfl, fun _ => ⟨rfl, rfl, rfl, rfl⟩⟩, rfl, fun _ => rfl, fun _ _ => rfl,
    fun _ => Or.inl rfl⟩

theorem scheduleTickPending_updLike (b : Backend) (nid d : Nat) (pr : TickPriority) :
    updLike b (b.scheduleTickPending nid d pr) := by
  unfold Backend.scheduleTickPending
  exact updLike_trans
    (updLike_modifyNode b nid _ ⟨rfl, rfl, rfl, rfl, rfl, rfl, fun _ => rfl⟩)
    (updLike_scheduler _ _)

theorem setSimple_updLike (b : Backend) (nid : Nat) (v : Bool) :
    updLike b (b.modifyNode nid (fun n => n.setSimple v)) :=
  updLike_modifyNode b nid _ ⟨rfl, rfl, rfl, rfl, rfl, rfl, fun _ => rfl⟩

theorem updateNode_updLike (b : Backend) (nid : Nat) : updLike b (updateNode b nid) := by
  cases hty : (b.nodeAt nid).ty
  case wire =>
    have hwire : updLike b (b.modifyNode nid (fun n =>
        { n with
            output_power := (b.analog_inputs.getD (b.nodeAt nid).analog_input_idx default).get
            changed := true })) := by
      refine ⟨modifyNode_preservesSkel b nid _ ⟨rfl, rfl, rfl, rfl⟩, rfl, fun j => ?_,
        fun j hj => ?_, fun j => ?_⟩
      · rw [modifyNode_nodeAt]
        by_cases h : nid = j ∧ nid < b.nodes.length
        · rw [if_pos h, ← h.1]
        · rw [if_neg h]
      · rw [modifyNode_nodeAt]
        by_cases h : nid = j ∧ nid < b.nodes.length
        · rw [if_pos h, ← h.1]
        · rw [if_neg h]
      · rw [modifyNode_nodeAt]
        by_cases h : nid = j ∧ nid < b.nodes.length
        · right
          rw [if_pos h, ← h.1]
          exact ⟨hty, h.2, rfl⟩
        · rw [if_neg h]
          exact Or.inl rfl
    simp only [updateNode, hty]
    split
    · exact hwire
    · exact updLike_refl b
  case repeater =>
    simp only [updateNode, hty]
    have hmod : updLike b (b.modifyNode nid (fun n =>
        { n with
            type_specific_properties :=
              TSProps.rep { (b.nodeAt nid).get_repeater_properties with
                locked := (b.nodeAt nid).digital_input.get_side }
            changed := true })) := by
      refine updLike_modifyNode b nid _ ⟨rfl, rfl, rfl, rfl, rfl, rfl, fun hc => ?_⟩
      rw [hty] at hc
      cases hc
    repeat' split
    all_goals first
      | exact updLike_refl b
      | exact hmod
      | exact scheduleTickPending_updLike b nid _ _
      | exact updLike_trans hmod (scheduleTickPending_updLike _ nid _ _)
  case noteBlock =>
    simp only [updateNode, hty]
    repeat' split
    all_goals first
      | exact updLike_refl b
      | exact updLike_trans (setSimple_updLike b nid _) (updLike_events _ _)
  all_goals
    simp only [updateNode, hty]
    repeat' split
    all_goals first
      | exact updLike_refl b
      | exact scheduleTickPending_updLike b nid _ _
      | exact setSimple_updLike b nid _


/-! ### Aggregate bounds -/

theorem containsNode_lt {g : CGraph} {i : Nat} (h : g.containsNode i = true) :
    i < g.nodes.length := by
  by_contra hge
  unfold CGraph.containsNode at h
  rw [List.getD_eq_getElem?_getD, List.getElem?_eq_none (by omega)] at h
  simp at h

theorem srcRef_le {b0 b : Backend} (houts : ∀ i, (b.nodeAt i).output_power ≤ 15)
    (hrefs : ∀ i, (b0.nodeAt i).output_power ≤ 15) (i : Nat) : srcRef b0 b i ≤ 15 := by
  unfold srcRef
  by_cases h : (b.nodeAt i).ty = .wire
  · rw [if_pos h]
    exact hrefs i
  · rw [if_neg h]
    exact houts i

theorem WF_rec0_le {G : CGraph} (hwf : WFGraph G) (jt : Nat) (lt : LinkType) :
    ∀ e ∈ G.incomingOfType jt lt, rec0G G e ≤ 15 := by
  intro e he
  unfold CGraph.incomingOfType CGraph.incomingEdges at he
  obtain ⟨e', he', hee⟩ := List.mem_map.1 (List.mem_filter.1 he).1
  obtain ⟨hlive, _⟩ := List.mem_filter.1 he'
  subst hee
  have hsrc := (hwf.1 e' hlive).1
  have hlt := containsNode_lt hsrc
  have := hwf.2.1 e'.2.src hlt
  unfold rec0G
  omega

theorem constCount_witness {G : CGraph} {jt : Nat} {lt : LinkType}
    (hrec : ∀ e ∈ G.incomingOfType jt lt, rec0G G e ≤ 15)
    (h : 1 ≤ constCount G jt lt (fun x => decide (x ≠ 0))) :
    ∃ v, 1 ≤ v ∧ v ≤ 15 ∧ 1 ≤ constCount G jt lt (fun x => decide (x = v)) := by
  unfold constCount at h ⊢
  rcases hL : ((G.incomingOfType jt lt).filter
      (fun e => decide ((G.node e.src).ty = CNodeType.constant))).filter
      (fun e => decide (rec0G G e ≠ 0)) with _ | ⟨e, es⟩
  · rw [hL] at h
    simp at h
  · have hmem : e ∈ ((G.incomingOfType jt lt).filter
        (fun e => decide ((G.node e.src).ty = CNodeType.constant))).filter
        (fun e => decide (rec0G G e ≠ 0)) := by
      rw [hL]
      exact List.mem_cons_self _ _
    obtain ⟨hin, hnz⟩ := List.mem_filter.1 hmem
    have hnz' : rec0G G e ≠ 0 := by simpa using hnz
    have hle : rec0G G e ≤ 15 := hrec e (List.mem_filter.1 hin).1
    refine ⟨rec0G G e, by omega, hle, ?_⟩
    have : e ∈ ((G.incomingOfType jt lt).filter
        (fun e => decide ((G.node e.src).ty = CNodeType.constant))).filter
        (fun e' => decide (rec0G G e' = rec0G G e)) :=
      List.mem_filter.2 ⟨hin, by simp⟩
    exact List.length_pos_of_mem this

theorem linkCount_witness {b0 b : Backend} {t : Nat} {lt : LinkType}
    (hsrc : ∀ i, srcRef b0 b i ≤ 15)
    (h : 1 ≤ linkCount b0 b t lt (fun x => decide (x ≠ 0))) :
    ∃ v, 1 ≤ v ∧ v ≤ 15 ∧ 1 ≤ linkCount b0 b t lt (fun x => decide (x = v)) := by
  unfold linkCount at h ⊢
  obtain ⟨x, hx, hx1⟩ := sum_ge_one_exists h
  obtain ⟨i, hi, hfx⟩ := List.mem_map.1 hx
  rcases hL : (b.linksOf i).filter (critLink b0 b i t lt (fun x => decide (x ≠ 0)))
      with _ | ⟨l, ls⟩
  · rw [hL] at hfx
    simp at hfx
    omega
  · have hmem : l ∈ (b.linksOf i).filter (critLink b0 b i t lt (fun x => decide (x ≠ 0))) := by
      rw [hL]
      exact List.mem_cons_self _ _
    obtain ⟨hin, hcrit⟩ := List.mem_filter.1 hmem
    unfold critLink at hcrit
    rw [Bool.and_eq_true, Bool.and_eq_true] at hcrit
    obtain ⟨⟨htg, hty⟩, hnz⟩ := hcrit
    have hnz' : srcRef b0 b i - l.distance ≠ 0 := by simpa using hnz
    refine ⟨srcRef b0 b i - l.distance, by omega, le_trans (Nat.sub_le _ _) (hsrc i), ?_⟩
    have hterm : 1 ≤ ((b.linksOf i).filter
        (critLink b0 b i t lt (fun x => decide (x = srcRef b0 b i - l.distance)))).length := by
      refine List.length_pos_of_mem (List.mem_filter.2 ⟨hin, ?_⟩)
      unfold critLink
      rw [Bool.and_eq_true, Bool.and_eq_true]
      exact ⟨⟨htg, hty⟩, by simp⟩
    refine le_trans hterm (elem_le_sum ?_)
    exact List.mem_map_of_mem _ hi

theorem linkCountMid_witness {b0 b : Backend} {n oldOut : Nat}
    {done rest : List ForwardLink} {t : Nat} {lt : LinkType}
    (hsrc : ∀ i, srcRef b0 b i ≤ 15) (hold : oldOut ≤ 15)
    (h : 1 ≤ linkCountMid b0 b n oldOut done rest t lt (fun x => decide (x ≠ 0))) :
    ∃ v, 1 ≤ v ∧ v ≤ 15 ∧
      1 ≤ linkCountMid b0 b n oldOut done rest t lt (fun x => decide (x = v)) := by
  unfold linkCountMid at h ⊢
  simp only [] at h ⊢
  rcases Nat.lt_or_ge 0 (((List.range b.nodes.length).map (fun i =>
      if i = n then 0
      else ((b.linksOf i).filter (critLink b0 b i t lt (fun x => decide (x ≠ 0)))).length)).sum)
    with hA | hA
  · obtain ⟨x, hx, hx1⟩ := sum_ge_one_exists hA
    obtain ⟨i, hi, hfx⟩ := List.mem_map.1 hx
    by_cases hin : i = n
    · rw [if_pos hin] at hfx
      omega
    · rw [if_neg hin] at hfx
      rcases hL : (b.linksOf i).filter (critLink b0 b i t lt (fun x => decide (x ≠ 0)))
          with _ | ⟨l, ls⟩
      · rw [hL] at hfx
        simp at hfx
        omega
      · have hmem : l ∈ (b.linksOf i).filter (critLink b0 b i t lt (fun x => decide (x ≠ 0))) := by
          rw [hL]
          exact List.mem_cons_self _ _
        obtain ⟨hinl, hcrit⟩ := List.mem_filter.1 hmem
        unfold critLink at hcrit
        rw [Bool.and_eq_true, Bool.and_eq_true] at hcrit
        obtain ⟨⟨htg, htyl⟩, hnz⟩ := hcrit
        have hnz' : srcRef b0 b i - l.distance ≠ 0 := by simpa using hnz
        refine ⟨srcRef b0 b i - l.distance, by omega,
          le_trans (Nat.sub_le _ _) (hsrc i), ?_⟩
        have hterm : 1 ≤ ((b.linksOf i).filter
            (critLink b0 b i t lt (fun x => decide (x = srcRef b0 b i - l.distance)))).length := by
          refine List.length_pos_of_mem (List.mem_filter.2 ⟨hinl, ?_⟩)
          unfold critLink
          rw [Bool.and_eq_true, Bool.and_eq_true]
          exact ⟨⟨htg, htyl⟩, by simp⟩
        have hterm2 : ((b.linksOf i).filter
            (critLink b0 b i t lt (fun x => decide (x = srcRef b0 b i - l.distance)))).length ≤
            ((List.range b.nodes.length).map (fun i' =>
              if i' = n then 0
              else ((b.linksOf i').filter
                (critLink b0 b i' t lt
                  (fun x => decide (x = srcRef b0 b i - l.distance)))).length)).sum := by
          have : (if i = n then 0
              else ((b.linksOf i).filter
                (critLink b0 b i t lt
                  (fun x => decide (x = srcRef b0 b i - l.distance)))).length)
              ∈ (List.range b.nodes.length).map (fun i' =>
                if i' = n then 0
                else ((b.linksOf i').filter
                  (critLink b0 b i' t lt
                    (fun x => decide (x = srcRef b0 b i - l.distance)))).length) :=
            List.mem_map_of_mem _ hi
          have hh := elem_le_sum this
          rw [if_neg hin] at hh
          exact hh
        omega
  · rcases Nat.lt_or_ge 0 ((done.filter
        (critLink b0 b n t lt (fun x => decide (x ≠ 0)))).length) with hB | hB
    · rcases hL : done.filter (critLink b0 b n t lt (fun x => decide (x ≠ 0)))
          with _ | ⟨l, ls⟩
      · rw [hL] at hB
        simp at hB
      · have hmem : l ∈ done.filter (critLink b0 b n t lt (fun x => decide (x ≠ 0))) := by
          rw [hL]
          exact List.mem_cons_self _ _
        obtain ⟨hinl, hcrit⟩ := List.mem_filter.1 hmem
        unfold critLink at hcrit
        rw [Bool.and_eq_true, Bool.and_eq_true] at hcrit
        obtain ⟨⟨htg, htyl⟩, hnz⟩ := hcrit
        have hnz' : srcRef b0 b n - l.distance ≠ 0 := by simpa using hnz
        refine ⟨srcRef b0 b n - l.distance, by omega,
          le_trans (Nat.sub_le _ _) (hsrc n), ?_⟩
        have hterm : 1 ≤ (done.filter
            (critLink b0 b n t lt (fun x => decide (x = srcRef b0 b n - l.distance)))).length := by
          refine List.length_pos_of_mem (List.mem_filter.2 ⟨hinl, ?_⟩)
          unfold critLink
          rw [Bool.and_eq_true, Bool.and_eq_true]
          exact ⟨⟨htg, htyl⟩, by simp⟩
        omega
    · have hC : 1 ≤ (rest.filter (fun l =>
          l.target = t && l.ty = lt && decide (oldOut - l.distance ≠ 0))).length := by
        omega
      rcases hL : rest.filter (fun l =>
          l.target = t && l.ty = lt && decide (oldOut - l.distance ≠ 0)) with _ | ⟨l, ls⟩
      · rw [hL] at hC
        simp at hC
      · have hmem : l ∈ rest.filter (fun l =>
            l.target = t && l.ty = lt && decide (oldOut - l.distance ≠ 0)) := by
          rw [hL]
          exact List.mem_cons_self _ _
        obtain ⟨hinl, hcrit⟩ := List.mem_filter.1 hmem
        rw [Bool.and_eq_true, Bool.and_eq_true] at hcrit
        obtain ⟨⟨htg, htyl⟩, hnz⟩ := hcrit
        have hnz' : oldOut - l.distance ≠ 0 := by simpa using hnz
        refine ⟨oldOut - l.distance, by omega, le_trans (Nat.sub_le _ _) hold, ?_⟩
        have hterm : 1 ≤ (rest.filter (fun l' =>
            l'.target = t && l'.ty = lt && decide (oldOut - l'.distance = oldOut - l.distance))).length := by
          refine List.length_pos_of_mem (List.mem_filter.2 ⟨hinl, ?_⟩)
          rw [Bool.and_eq_true, Bool.and_eq_true]
          exact ⟨⟨htg, htyl⟩, by simp⟩
        omega

theorem histOKGen_exists_nonzero
    {om cnt : (Nat → Bool) → Nat} {counts : List Nat} (hok : histOKGen om cnt counts)
    (hom : 1 ≤ om (fun x => decide (x ≠ 0)) →
      ∃ v, 1 ≤ v ∧ v ≤ 15 ∧ 1 ≤ om (fun x => decide (x = v)))
    (hcnt : 1 ≤ cnt (fun x => decide (x ≠ 0)) →
      ∃ v, 1 ≤ v ∧ v ≤ 15 ∧ 1 ≤ cnt (fun x => decide (x = v))) :
    ∃ v, v < 16 ∧ counts.getD v 0 ≠ 0 := by
  rcases Nat.eq_zero_or_pos (counts.getD 0 0) with h0 | h0
  · have hsum := hok.2.2
    rw [h0] at hsum
    rcases Nat.lt_or_ge 0 (om (fun x => decide (x ≠ 0))) with h1 | h1
    · obtain ⟨v, hv1, hv15, hv⟩ := hom h1
      refine ⟨v, by omega, ?_⟩
      rw [hok.2.1 v hv1 hv15]
      omega
    · obtain ⟨v, hv1, hv15, hv⟩ := hcnt (by omega)
      refine ⟨v, by omega, ?_⟩
      rw [hok.2.1 v hv1 hv15]
      omega
  · exact ⟨0, by omega, by omega⟩

theorem ssAggregate_le_of_nonzero {counts : List Nat}
    (h : ∃ v, v < 16 ∧ counts.getD v 0 ≠ 0) : ssAggregate counts ≤ 15 := by
  obtain ⟨v, hv, hnz⟩ := h
  unfold ssAggregate
  have hmem : v ∈ (List.range 16).filter (fun i => decide (counts.getD i 0 ≠ 0)) :=
    List.mem_filter.2 ⟨List.mem_range.2 hv, by simpa using hnz⟩
  rcases hmax : ((List.range 16).filter (fun i => decide (counts.getD i 0 ≠ 0))).max?
      with _ | m
  · rw [List.max?_eq_none_iff] at hmax
    rw [hmax] at hmem
    cases hmem
  · have hm := List.max?_mem (fun a b => max_choice a b) hmax
    have := List.mem_range.1 (List.mem_filter.1 hm).1
    simp only [hmax]
    omega

theorem Inv_aggregate_le {G : CGraph} {b0 b : Backend} (hwf : WFGraph G)
    (hInv : Inv G b0 b) {t : Nat} (ht : t < b.nodes.length)
    (han : (b.nodeAt t).ty.is_analog = true) :
    (b.analog_inputs.getD (b.nodeAt t).analog_input_idx default).get ≤ 15
    ∧ (b.analog_inputs.getD (b.nodeAt t).analog_input_idx default).get_side ≤ 15 := by
  have hsrc := srcRef_le hInv.outLe hInv.refLe
  obtain ⟨hd, hs⟩ := hInv.hist t ht han
  constructor
  · exact ssAggregate_le_of_nonzero (histOKGen_exists_nonzero hd
      (fun h => constCount_witness (WF_rec0_le hwf _ _) h)
      (fun h => linkCount_witness hsrc h))
  · exact ssAggregate_le_of_nonzero (histOKGen_exists_nonzero hs
      (fun h => constCount_witness (WF_rec0_le hwf _ _) h)
      (fun h => linkCount_witness hsrc h))

theorem InvMid_aggregate_le {G : CGraph} {b0 b : Backend} {n oldOut : Nat}
    {done rest : List ForwardLink} (hwf : WFGraph G)
    (hInv : InvMid G b0 b n oldOut done rest) (hold : oldOut ≤ 15) {t : Nat}
    (ht : t < b.nodes.length) (han : (b.nodeAt t).ty.is_analog = true) :
    (b.analog_inputs.getD (b.nodeAt t).analog_input_idx default).get ≤ 15
    ∧ (b.analog_inputs.getD (b.nodeAt t).analog_input_idx default).get_side ≤ 15 := by
  have hsrc := srcRef_le hInv.outLe hInv.refLe
  obtain ⟨hd, hs⟩ := hInv.hist t ht han
  constructor
  · exact ssAggregate_le_of_nonzero (histOKGen_exists_nonzero hd
      (fun h => constCount_witness (WF_rec0_le hwf _ _) h)
      (fun h => linkCountMid_witness hsrc hold h))
  · exact ssAggregate_le_of_nonzero (histOKGen_exists_nonzero hs
      (fun h => constCount_witness (WF_rec0_le hwf _ _) h)
      (fun h => linkCountMid_witness hsrc hold h))

theorem Inv_transport_updLike {G : CGraph} {b0 b b' : Backend} (hwf : WFGraph G)
    (h : updLike b b') (hInv : Inv G b0 b) : Inv G b0 b' := by
  have hpc := updLike_preservesCounts h
  have hty : ∀ j, (b'.nodeAt j).ty = (b.nodeAt j).ty := fun j => (h.1.2.2.2 j).1
  have hidx : ∀ j, (b'.nodeAt j).analog_input_idx = (b.nodeAt j).analog_input_idx :=
    fun j => (h.1.2.2.2 j).2.2.2
  have hlen : b'.nodes.length = b.nodes.length := h.1.2.1
  refine ⟨?_, hInv.refLe, ?_, ?_, ?_, ?_, ?_, ?_⟩
  · intro i
    rcases h.2.2.2.2 i with ho | ⟨hw, hil, hv⟩
    · rw [ho]
      exact hInv.outLe i
    · rw [hv]
      exact (Inv_aggregate_le hwf hInv hil (by rw [hw]; rfl)).1
  · intro i hcmp
    have hcb : (b.nodeAt i).ty = .comparator := by rw [← hty i]; exact hcmp
    unfold Node.get_comparator_properties
    rw [h.2.2.2.1 i hcb]
    exact hInv.farLe i hcb
  · intro t1 t2 h1 h2 ha1 ha2 hne
    rw [hidx t1, hidx t2]
    refine hInv.inj t1 t2 (by omega) (by omega) ?_ ?_ hne
    · rw [← hty t1]; exact ha1
    · rw [← hty t2]; exact ha2
  · intro t ht han
    rw [hidx t, h.1.2.2.1]
    exact hInv.idxLt t (by omega) (by rw [← hty t]; exact han)
  · intro t lt ht
    rw [preservesSkel_linkTotal h.1]
    exact hInv.cap t lt (by omega)
  · intro t ht han
    have hcnt : ∀ lt, linkCount b0 b' t lt = linkCount b0 b t lt :=
      fun lt => funext (fun p => preservesCounts_linkCount b0 hpc t lt p)
    rw [hidx t, h.2.1, hcnt .default, hcnt .side]
    exact hInv.hist t (by omega) (by rw [← hty t]; exact han)
  · intro t ht han
    have hcnt : ∀ lt p, linkCount b0 b' t lt p = linkCount b0 b t lt p :=
      fun lt p => preservesCounts_linkCount b0 hpc t lt p
    rw [h.2.2.1 t, hcnt, hcnt]
    exact hInv.dig t (by omega) (by rw [← hty t]; exact han)

theorem InvMid_transport_updLike {G : CGraph} {b0 b b' : Backend} {n oldOut : Nat}
    {done rest : List ForwardLink} (hwf : WFGraph G) (hold : oldOut ≤ 15)
    (h : updLike b b') (hInv : InvMid G b0 b n oldOut done rest) :
    InvMid G b0 b' n oldOut done rest := by
  have hpc := updLike_preservesCounts h
  have hty : ∀ j, (b'.nodeAt j).ty = (b.nodeAt j).ty := fun j => (h.1.2.2.2 j).1
  have hidx : ∀ j, (b'.nodeAt j).analog_input_idx = (b.nodeAt j).analog_input_idx :=
    fun j => (h.1.2.2.2 j).2.2.2
  have hlen : b'.nodes.length = b.nodes.length := h.1.2.1
  refine ⟨?_, hInv.refLe, ?_, ?_, ?_, ?_, ?_, ?_⟩
  · intro i
    rcases h.2.2.2.2 i with ho | ⟨hw, hil, hv⟩
    · rw [ho]
      exact hInv.outLe i
    · rw [hv]
      exact (InvMid_aggregate_le hwf hInv hold hil (by rw [hw]; rfl)).1
  · intro i hcmp
    have hcb : (b.nodeAt i).ty = .comparator := by rw [← hty i]; exact hcmp
    unfold Node.get_comparator_properties
    rw [h.2.2.2.1 i hcb]
    exact hInv.farLe i hcb
  · intro t1 t2 h1 h2 ha1 ha2 hne
    rw [hidx t1, hidx t2]
    refine hInv.inj t1 t2 (by omega) (by omega) ?_ ?_ hne
    · rw [← hty t1]; exact ha1
    · rw [← hty t2]; exact ha2
  · intro t ht han
    rw [hidx t, h.1.2.2.1]
    exact hInv.idxLt t (by omega) (by rw [← hty t]; exact han)
  · intro t lt ht
    rw [preservesSkel_linkTotal h.1]
    exact hInv.cap t lt (by omega)
  · intro t ht han
    have hcnt : ∀ lt, linkCountMid b0 b' n oldOut done rest t lt
        = linkCountMid b0 b n oldOut done rest t lt :=
      fun lt => funext (fun p => preservesCounts_linkCountMid b0 hpc n oldOut done rest t lt p)
    rw [hidx t, h.2.1, hcnt .default, hcnt .side]
    exact hInv.hist t (by omega) (by rw [← hty t]; exact han)
  · intro t ht han
    have hcnt : ∀ lt p, linkCountMid b0 b' n oldOut done rest t lt p
        = linkCountMid b0 b n oldOut done rest t lt p :=
      fun lt p => preservesCounts_linkCountMid b0 hpc n oldOut done rest t lt p
    rw [h.2.2.1 t, hcnt, hcnt]
    exact hInv.dig t (by omega) (by rw [← hty t]; exact han)

/-! ### Histogram and counter arithmetic -/

theorem bucketMove_length (counts : List Nat) (o np : Nat) :
    (bucketMove counts o np).length = counts.length := by
  unfold bucketMove
  simp [List.length_set]

theorem bucketMove_getD_old {counts : List Nat} {o np : Nat} (hlen : counts.length = 16)
    (ho : o < 16) (hne : o ≠ np) (hpos : 1 ≤ counts.getD o 0) (hcap : counts.getD o 0 ≤ 255) :
    (bucketMove counts o np).getD o 0 = counts.getD o 0 - 1 := by
  unfold bucketMove
  rw [getD_set_of_ne _ _ _ hne, getD_set_cases, if_pos ⟨rfl, by omega⟩]
  omega

theorem bucketMove_getD_new {counts : List Nat} {o np : Nat} (hlen : counts.length = 16)
    (hnp : np < 16) (hne : np ≠ o) (hcap : counts.getD np 0 ≤ 254) :
    (bucketMove counts o np).getD np 0 = counts.getD np 0 + 1 := by
  unfold bucketMove
  have h1 : (counts.set o ((counts.getD o 0 + 255) % 256)).getD np 0 = counts.getD np 0 :=
    getD_set_of_ne _ _ _ hne
  rw [getD_set_cases, if_pos ⟨rfl, by rw [List.length_set]; omega⟩, h1]
  omega

theorem bucketMove_getD_other {counts : List Nat} {o np v : Nat} (hvo : v ≠ o)
    (hvnp : v ≠ np) : (bucketMove counts o np).getD v 0 = counts.getD v 0 := by
  unfold bucketMove
  rw [getD_set_of_ne _ _ _ hvnp, getD_set_of_ne _ _ _ hvo]

theorem digSet_default_true (d : DigitalInput) (hcap : d.count_default ≤ 254) :
    (d.set .default true).count_default = d.count_default + 1
    ∧ (d.set .default true).count_side = d.count_side := by
  unfold DigitalInput.set
  exact ⟨by simp; omega, rfl⟩

theorem digSet_default_false (d : DigitalInput) (hpos : 1 ≤ d.count_default)
    (hcap : d.count_default ≤ 255) :
    (d.set .default false).count_default = d.count_default - 1
    ∧ (d.set .default false).count_side = d.count_side := by
  unfold DigitalInput.set
  exact ⟨by simp; omega, rfl⟩

theorem digSet_side_true (d : DigitalInput) (hcap : d.count_side ≤ 254) :
    (d.set .side true).count_side = d.count_side + 1
    ∧ (d.set .side true).count_default = d.count_default := by
  unfold DigitalInput.set
  exact ⟨by simp; omega, rfl⟩

theorem digSet_side_false (d : DigitalInput) (hpos : 1 ≤ d.count_side)
    (hcap : d.count_side ≤ 255) :
    (d.set .side false).count_side = d.count_side - 1
    ∧ (d.set .side false).count_default = d.count_default := by
  unfold DigitalInput.set
  exact ⟨by simp; omega, rfl⟩

/-! ### Mid-count decomposition -/

theorem midCount_cons_rest (b0 b : Backend) (n oldOut : Nat)
    (done rest : List ForwardLink) (l : ForwardLink) (t : Nat) (lt : LinkType)
    (p : Nat → Bool) :
    linkCountMid b0 b n oldOut done (l :: rest) t lt p =
      linkCountMid b0 b n oldOut done rest t lt p
        + (if l.target = t ∧ l.ty = lt ∧ p (oldOut - l.distance) = true then 1 else 0) := by
  unfold linkCountMid
  rw [List.filter_cons]
  by_cases hc : (l.target = t ∧ l.ty = lt ∧ p (oldOut - l.distance) = true)
  · rw [if_pos hc, if_pos (by simp [hc.1, hc.2.1, hc.2.2])]
    simp only [List.length_cons]
    omega
  · rw [if_neg hc, if_neg (by
      intro hb
      rw [Bool.and_eq_true, Bool.and_eq_true] at hb
      exact hc ⟨by simpa using hb.1.1, by simpa using hb.1.2, hb.2⟩)]
    omega

theorem midCount_append_done (b0 b : Backend) (n oldOut : Nat)
    (done rest : List ForwardLink) (l : ForwardLink) (t : Nat) (lt : LinkType)
    (p : Nat → Bool) :
    linkCountMid b0 b n oldOut (done ++ [l]) rest t lt p =
      linkCountMid b0 b n oldOut done rest t lt p
        + (if critLink b0 b n t lt p l = true then 1 else 0) := by
  unfold linkCountMid
  rw [List.filter_append]
  by_cases hc : critLink b0 b n t lt p l = true
  · rw [if_pos hc, List.filter_cons, if_pos hc]
    simp only [List.length_append, List.length_cons, List.filter_nil, List.length_nil]
    omega
  · rw [if_neg hc, List.filter_cons, if_neg hc]
    simp only [List.length_append, List.filter_nil, List.length_nil]
    omega

theorem midCount_le_total {b0 b : Backend} {n oldOut : Nat}
    {done rest : List ForwardLink} {t : Nat} {lt : LinkType} (p : Nat → Bool)
    (hslice : b.linksOf n = done ++ rest) (hn : n < b.nodes.length) :
    linkCountMid b0 b n oldOut done rest t lt p ≤ linkTotal b t lt := by
  unfold linkCountMid linkTotal
  rw [sum_map_range_split b.nodes.length n
    (fun i => ((b.linksOf i).filter (fun l => l.target = t && l.ty = lt)).length) hn]
  have h1 : ((List.range b.nodes.length).map (fun i =>
      if i = n then 0 else ((b.linksOf i).filter (critLink b0 b i t lt p)).length)).sum
      ≤ ((List.range b.nodes.length).map (fun i =>
      if i = n then 0
      else ((b.linksOf i).filter (fun l => l.target = t && l.ty = lt)).length)).sum := by
    refine List.sum_le_sum (fun i _ => ?_)
    by_cases hi : i = n
    · simp [hi]
    · simp only [hi, if_neg, if_false]
      refine length_filter_mono (fun a ha => ?_)
      unfold critLink at ha
      rw [Bool.and_eq_true, Bool.and_eq_true] at ha
      rw [Bool.and_eq_true]
      exact ha.1
  have h2 : (done.filter (critLink b0 b n t lt p)).length
      ≤ (done.filter (fun l => l.target = t && l.ty = lt)).length :=
    length_filter_mono (fun a ha => by
      unfold critLink at ha
      rw [Bool.and_eq_true, Bool.and_eq_true] at ha
      rw [Bool.and_eq_true]
      exact ha.1)
  have h3 : (rest.filter (fun l => l.target = t && l.ty = lt && p (oldOut - l.distance))).length
      ≤ (rest.filter (fun l => l.target = t && l.ty = lt)).length :=
    length_filter_mono (fun a ha => by
      rw [Bool.and_eq_true, Bool.and_eq_true] at ha
      rw [Bool.and_eq_true]
      exact ha.1)
  have h4 : ((b.linksOf n).filter (fun l => l.target = t && l.ty = lt)).length
      = (done.filter (fun l => l.target = t && l.ty = lt)).length
        + (rest.filter (fun l => l.target = t && l.ty = lt)).length := by
    rw [hslice, List.filter_append, List.length_append]
  omega

theorem midCount_succ_le_total {b0 b : Backend} {n oldOut : Nat}
    {done rest : List ForwardLink} {l : ForwardLink} {t : Nat} {lt : LinkType}
    (p : Nat → Bool) (hslice : b.linksOf n = done ++ l :: rest) (hn : n < b.nodes.length)
    (htg : l.target = t) (hty : l.ty = lt) :
    linkCountMid b0 b n oldOut done rest t lt p + 1 ≤ linkTotal b t lt := by
  unfold linkCountMid linkTotal
  rw [sum_map_range_split b.nodes.length n
    (fun i => ((b.linksOf i).filter (fun l => l.target = t && l.ty = lt)).length) hn]
  have h1 : ((List.range b.nodes.length).map (fun i =>
      if i = n then 0 else ((b.linksOf i).filter (critLink b0 b i t lt p)).length)).sum
      ≤ ((List.range b.nodes.length).map (fun i =>
      if i = n then 0
      else ((b.linksOf i).filter (fun l => l.target = t && l.ty = lt)).length)).sum := by
    refine List.sum_le_sum (fun i _ => ?_)
    by_cases hi : i = n
    · simp [hi]
    · simp only [hi, if_neg, if_false]
      refine length_filter_mono (fun a ha => ?_)
      unfold critLink at ha
      rw [Bool.and_eq_true, Bool.and_eq_true] at ha
      rw [Bool.and_eq_true]
      exact ha.1
  have h2 : (done.filter (critLink b0 b n t lt p)).length
      ≤ (done.filter (fun l => l.target = t && l.ty = lt)).length :=
    length_filter_mono (fun a ha => by
      unfold critLink at ha
      rw [Bool.and_eq_true, Bool.and_eq_true] at ha
      rw [Bool.and_eq_true]
      exact ha.1)
  have h3 : (rest.filter (fun l => l.target = t && l.ty = lt && p (oldOut - l.distance))).length
      ≤ (rest.filter (fun l => l.target = t && l.ty = lt)).length :=
    length_filter_mono (fun a ha => by
      rw [Bool.and_eq_true, Bool.and_eq_true] at ha
      rw [Bool.and_eq_true]
      exact ha.1)
  have h4 : ((b.linksOf n).filter (fun l => l.target = t && l.ty = lt)).length
      = (done.filter (fun l => l.target = t && l.ty = lt)).length
        + (rest.filter (fun l => l.target = t && l.ty = lt)).length + 1 := by
    rw [hslice, List.filter_append, List.length_append, List.filter_cons,
      if_pos (by rw [Bool.and_eq_true]; exact ⟨by simp [htg], by simp [hty]⟩)]
    simp only [List.length_cons]
    omega
  omega

theorem constCount_mono (G : CGraph) (jt : Nat) (lt : LinkType) (p : Nat → Bool) :
    constCount G jt lt p ≤ constCount G jt lt (fun _ => true) := by
  unfold constCount
  exact length_filter_mono (fun a _ => by simp)

theorem InvMid_recount {G : CGraph} {b0 b : Backend} {n oldOut : Nat}
    {d1 r1 d2 r2 : List ForwardLink}
    (hcnt : ∀ t lt p, linkCountMid b0 b n oldOut d2 r2 t lt p
      = linkCountMid b0 b n oldOut d1 r1 t lt p)
    (h : InvMid G b0 b n oldOut d1 r1) : InvMid G b0 b n oldOut d2 r2 := by
  refine ⟨h.outLe, h.refLe, h.farLe, h.inj, h.idxLt, h.cap, ?_, ?_⟩
  · intro t ht han
    have h1 : linkCountMid b0 b n oldOut d2 r2 t .default
        = linkCountMid b0 b n oldOut d1 r1 t .default := funext (fun p => hcnt t .default p)
    have h2 : linkCountMid b0 b n oldOut d2 r2 t .side
        = linkCountMid b0 b n oldOut d1 r1 t .side := funext (fun p => hcnt t .side p)
    rw [h1, h2]
    exact h.hist t ht han
  · intro t ht han
    rw [hcnt, hcnt]
    exact h.dig t ht han

theorem modifyAnalog_getD_self (b : Backend) (i : Nat) (f : AnalogInput → AnalogInput)
    (h : i < b.analog_inputs.length) :
    (b.modifyAnalog i f).analog_inputs.getD i default = f (b.analog_inputs.getD i default) := by
  unfold Backend.modifyAnalog
  simp only
  rw [getD_set_cases, if_pos ⟨rfl, h⟩]

theorem modifyAnalog_getD_ne (b : Backend) (i j : Nat) (f : AnalogInput → AnalogInput)
    (h : j ≠ i) :
    (b.modifyAnalog i f).analog_inputs.getD j default = b.analog_inputs.getD j default := by
  unfold Backend.modifyAnalog
  simp only
  rw [getD_set_of_ne _ _ _ h]

/-- The reference output of the non-wire source `n` is its current output
power. -/
theorem srcRef_of_not_wire {b0 b : Backend} {n : Nat} (h : (b.nodeAt n).ty ≠ .wire) :
    srcRef b0 b n = (b.nodeAt n).output_power := by
  unfold srcRef
  rw [if_neg h]

/-- The two step bits agree when the attenuated old and new powers agree. -/
theorem midStep_recount {b0 b : Backend} {n oldOut newOut : Nat}
    (hnw : (b.nodeAt n).ty ≠ .wire) (hout : (b.nodeAt n).output_power = newOut)
    {done rest : List ForwardLink} {l : ForwardLink}
    (hop : oldOut - l.distance = newOut - l.distance) (t : Nat) (lt : LinkType)
    (p : Nat → Bool) :
    linkCountMid b0 b n oldOut (done ++ [l]) rest t lt p
      = linkCountMid b0 b n oldOut done (l :: rest) t lt p := by
  rw [midCount_append_done, midCount_cons_rest]
  have hsr : srcRef b0 b n = newOut := by rw [srcRef_of_not_wire hnw, hout]
  by_cases hc : l.target = t ∧ l.ty = lt ∧ p (oldOut - l.distance) = true
  · rw [if_pos hc, if_pos (by
      unfold critLink
      rw [Bool.and_eq_true, Bool.and_eq_true, hsr, ← hop]
      exact ⟨⟨by simp [hc.1], by simp [hc.2.1]⟩, hc.2.2⟩)]
  · rw [if_neg hc, if_neg (by
      intro hb
      unfold critLink at hb
      rw [Bool.and_eq_true, Bool.and_eq_true, hsr, ← hop] at hb
      exact hc ⟨by simpa using hb.1.1, by simpa using hb.1.2, hb.2⟩)]

/-- The step bits vanish when the link does not address `(t, lt)`. -/
theorem midStep_recount_of_ne {b0 b : Backend} {n oldOut : Nat}
    {done rest : List ForwardLink} {l : ForwardLink} {t : Nat} {lt : LinkType}
    (hne : ¬(l.target = t ∧ l.ty = lt)) (p : Nat → Bool) :
    linkCountMid b0 b n oldOut (done ++ [l]) rest t lt p
      = linkCountMid b0 b n oldOut done (l :: rest) t lt p := by
  rw [midCount_append_done, midCount_cons_rest]
  rw [if_neg (by
    intro hb
    unfold critLink at hb
    rw [Bool.and_eq_true, Bool.and_eq_true] at hb
    exact hne ⟨by simpa using hb.1.1, by simpa using hb.1.2⟩),
    if_neg (fun hc => hne ⟨hc.1, hc.2.1⟩)]

/-- One histogram update of `AnalogInput::set` keeps the histogram exact
when the link counting moves the same link from the old to the new
delivered strength. -/
theorem histShift {om : (Nat → Bool) → Nat} {counts : List Nat}
    {midBase midOld midNew : (Nat → Bool) → Nat} {op np : Nat}
    (hOld : ∀ p, midOld p = midBase p + (if p op = true then 1 else 0))
    (hNew : ∀ p, midNew p = midBase p + (if p np = true then 1 else 0))
    (hok : histOKGen om midOld counts)
    (hop : op ≠ np) (hople : op ≤ 15) (hnple : np ≤ 15)
    (hcapOld : ∀ p, om p + midOld p ≤ 255)
    (hcapBase : ∀ p, om p + midBase p + 1 ≤ 255) :
    histOKGen om midNew (bucketMove counts op np) := by
  have hlen : counts.length = 16 := hok.1
  refine ⟨by rw [bucketMove_length, hlen], ?_, ?_⟩
  · intro v hv1 hv15
    by_cases hvop : v = op
    · subst hvop
      have hOldv := hOld (fun x => decide (x = v))
      rw [if_pos (by simp)] at hOldv
      have hbv := hok.2.1 v hv1 hv15
      have hpos : 1 ≤ counts.getD v 0 := by omega
      have hcap : counts.getD v 0 ≤ 255 := by
        have := hcapOld (fun x => decide (x = v))
        omega
      rw [bucketMove_getD_old hlen (by omega) hop hpos hcap]
      have hNewv := hNew (fun x => decide (x = v))
      rw [if_neg (by simp [Ne.symm hop])] at hNewv
      omega
    · by_cases hvnp : v = np
      · subst hvnp
        have hOldv := hOld (fun x => decide (x = v))
        rw [if_neg (by simp [hop])] at hOldv
        have hbv := hok.2.1 v hv1 hv15
        have hcap : counts.getD v 0 ≤ 254 := by
          have h1 := hcapBase (fun x => decide (x = v))
          omega
        rw [bucketMove_getD_new hlen (by omega) (Ne.symm hop) hcap]
        have hNewv := hNew (fun x => decide (x = v))
        rw [if_pos (by simp)] at hNewv
        omega
      · rw [bucketMove_getD_other hvop hvnp]
        have hOldv := hOld (fun x => decide (x = v))
        rw [if_neg (by simp; exact fun h => hvop h.symm)] at hOldv
        have hNewv := hNew (fun x => decide (x = v))
        rw [if_neg (by simp; exact fun h => hvnp h.symm)] at hNewv
        have hbv := hok.2.1 v hv1 hv15
        omega
  · have hb0 := hok.2.2
    have hOldnz := hOld (fun x => decide (x ≠ 0))
    have hNewnz := hNew (fun x => decide (x ≠ 0))
    rcases Nat.eq_zero_or_pos op with hop0 | hop0
    · subst hop0
      have hnp0 : np ≠ 0 := fun h => hop h.symm
      rw [if_neg (by simp)] at hOldnz
      rw [if_pos (by simpa using hnp0)] at hNewnz
      have hpos : 1 ≤ counts.getD 0 0 := by
        have h1 := hcapBase (fun x => decide (x ≠ 0))
        omega
      have hcap : counts.getD 0 0 ≤ 255 := by
        have h1 := hcapOld (fun x => decide (x ≠ 0))
        omega
      rw [bucketMove_getD_old hlen (by omega) (fun h => hop h) hpos hcap]
      omega
    · rcases Nat.eq_zero_or_pos np with hnp0 | hnp0
      · subst hnp0
        rw [if_pos (by simp; omega)] at hOldnz
        rw [if_neg (by simp)] at hNewnz
        have hcap : counts.getD 0 0 ≤ 254 := by omega
        rw [bucketMove_getD_new hlen (by omega) (fun h => hop h.symm) hcap]
        omega
      · rw [if_pos (by simp; omega)] at hOldnz
        rw [if_pos (by simp; omega)] at hNewnz
        rw [bucketMove_getD_other (by omega) (by omega)]
        omega

theorem analogSet_default_d (a : AnalogInput) (o np : Nat) :
    (a.set .default o np).ss_counts_default = bucketMove a.ss_counts_default o np := rfl

theorem analogSet_default_s (a : AnalogInput) (o np : Nat) :
    (a.set .default o np).ss_counts_side = a.ss_counts_side := rfl

theorem analogSet_side_d (a : AnalogInput) (o np : Nat) :
    (a.set .side o np).ss_counts_default = a.ss_counts_default := rfl

theorem analogSet_side_s (a : AnalogInput) (o np : Nat) :
    (a.set .side o np).ss_counts_side = bucketMove a.ss_counts_side o np := rfl

theorem modifyAnalog_analog_length (b : Backend) (i : Nat) (f : AnalogInput → AnalogInput) :
    (b.modifyAnalog i f).analog_inputs.length = b.analog_inputs.length := by
  unfold Backend.modifyAnalog
  simp

theorem modifyAnalog_preservesCounts (b : Backend) (i : Nat)
    (f : AnalogInput → AnalogInput) : preservesCounts b (b.modifyAnalog i f) :=
  ⟨modifyAnalog_preservesSkel b i f, fun _ _ => rfl⟩

/-- Moving link `l` from the unprocessed suffix into `rest` costs the old
delivered-strength bit. -/
theorem midCount_old_eq {b0 b : Backend} {n oldOut op : Nat}
    {done rest : List ForwardLink} {l : ForwardLink}
    (hopdef : op = oldOut - l.distance) (p : Nat → Bool) :
    linkCountMid b0 b n oldOut done (l :: rest) l.target l.ty p
      = linkCountMid b0 b n oldOut done rest l.target l.ty p
        + (if p op = true then 1 else 0) := by
  rw [midCount_cons_rest, hopdef]
  by_cases hp : p (oldOut - l.distance) = true
  · rw [if_pos ⟨rfl, rfl, hp⟩, if_pos hp]
  · rw [if_neg (fun hc => hp hc.2.2), if_neg hp]

/-- Appending link `l` to the processed prefix adds the new
delivered-strength bit. -/
theorem midCount_new_eq {b0 b : Backend} {n oldOut newOut np : Nat}
    (hnw : (b.nodeAt n).ty ≠ .wire) (hout : (b.nodeAt n).output_power = newOut)
    {done rest : List ForwardLink} {l : ForwardLink}
    (hnpdef : np = newOut - l.distance) (p : Nat → Bool) :
    linkCountMid b0 b n oldOut (done ++ [l]) rest l.target l.ty p
      = linkCountMid b0 b n oldOut done rest l.target l.ty p
        + (if p np = true then 1 else 0) := by
  rw [midCount_append_done, hnpdef]
  have hcrit : critLink b0 b n l.target l.ty p l = p (newOut - l.distance) := by
    unfold critLink
    rw [srcRef_of_not_wire hnw, hout]
    simp
  rw [hcrit]

/-- The digital branch of one `process_link` iteration: the boundary change
increments or decrements the target's counter of the link's type, exactly
matching the recount. -/
theorem processLink_digital_mid {G : CGraph} {b0 b b2 : Backend}
    {n oldOut newOut op np : Nat}
    (hnw : (b.nodeAt n).ty ≠ .wire) (hout : (b.nodeAt n).output_power = newOut)
    {done rest : List ForwardLink} {l : ForwardLink}
    (hopdef : op = oldOut - l.distance) (hnpdef : np = newOut - l.distance)
    (hslice : b.linksOf n = done ++ l :: rest) (hn : n < b.nodes.length)
    (hne0 : decide (op ≠ 0) ≠ decide (np ≠ 0))
    (han : (b.nodeAt l.target).ty.is_analog = false)
    (hb2 : b2 = b.modifyNode l.target (fun nd =>
      { nd with digital_input := nd.digital_input.set l.ty (decide (np ≠ 0)) }))
    (hmid : InvMid G b0 b n oldOut done (l :: rest)) :
    InvMid G b0 b2 n oldOut (done ++ [l]) rest := by
  have hskel : preservesSkel b b2 := by
    rw [hb2]
    exact modifyNode_preservesSkel b l.target _ ⟨rfl, rfl, rfl, rfl⟩
  have hFields : ∀ j, (b2.nodeAt j).ty = (b.nodeAt j).ty
      ∧ (b2.nodeAt j).output_power = (b.nodeAt j).output_power
      ∧ (b2.nodeAt j).analog_input_idx = (b.nodeAt j).analog_input_idx
      ∧ (b2.nodeAt j).type_specific_properties = (b.nodeAt j).type_specific_properties := by
    intro j
    rw [hb2, modifyNode_nodeAt]
    by_cases h : l.target = j ∧ l.target < b.nodes.length
    · rw [if_pos h, ← h.1]
      exact ⟨rfl, rfl, rfl, rfl⟩
    · rw [if_neg h]
      exact ⟨rfl, rfl, rfl, rfl⟩
  have hpc : preservesCounts b b2 := ⟨hskel, fun j _ => (hFields j).2.1⟩
  have hNlen : b2.nodes.length = b.nodes.length := hskel.2.1
  have hAlen : b2.analog_inputs.length = b.analog_inputs.length := hskel.2.2.1
  have hAin : b2.analog_inputs = b.analog_inputs := by rw [hb2]; exact rfl
  have hcntF : ∀ d r t lt, linkCountMid b0 b2 n oldOut d r t lt
      = linkCountMid b0 b n oldOut d r t lt :=
    fun d r t lt => funext (fun p => preservesCounts_linkCountMid b0 hpc n oldOut d r t lt p)
  refine ⟨?_, hmid.refLe, ?_, ?_, ?_, ?_, ?_, ?_⟩
  · intro i
    rw [(hFields i).2.1]
    exact hmid.outLe i
  · intro i hcmp
    have hcb : (b.nodeAt i).ty = .comparator := by rw [← (hFields i).1]; exact hcmp
    unfold Node.get_comparator_properties
    rw [(hFields i).2.2.2]
    exact hmid.farLe i hcb
  · intro t1 t2 h1 h2 ha1 ha2 hne
    rw [hNlen] at h1 h2
    rw [(hFields t1).1] at ha1
    rw [(hFields t2).1] at ha2
    rw [(hFields t1).2.2.1, (hFields t2).2.2.1]
    exact hmid.inj t1 t2 h1 h2 ha1 ha2 hne
  · intro t ht hA
    rw [hNlen] at ht
    rw [(hFields t).1] at hA
    rw [(hFields t).2.2.1, hAlen]
    exact hmid.idxLt t ht hA
  · intro t lt ht
    rw [hNlen] at ht
    rw [preservesSkel_linkTotal hskel]
    exact hmid.cap t lt ht
  · intro t ht hA
    rw [hNlen] at ht
    rw [(hFields t).1] at hA
    rw [(hFields t).2.2.1, hAin]
    rw [hcntF, hcntF]
    have hta : t ≠ l.target := by
      intro h
      rw [h] at hA
      rw [hA] at han
      exact absurd han (by decide)
    have hstepd : ∀ p, linkCountMid b0 b n oldOut (done ++ [l]) rest t .default p
        = linkCountMid b0 b n oldOut done (l :: rest) t .default p :=
      fun p => midStep_recount_of_ne (fun hc => hta hc.1.symm) p
    have hsteps : ∀ p, linkCountMid b0 b n oldOut (done ++ [l]) rest t .side p
        = linkCountMid b0 b n oldOut done (l :: rest) t .side p :=
      fun p => midStep_recount_of_ne (fun hc => hta hc.1.symm) p
    rw [funext hstepd, funext hsteps]
    exact hmid.hist t ht hA
  · intro t ht hA
    rw [hNlen] at ht
    rw [(hFields t).1] at hA
    rw [hcntF, hcntF]
    by_cases hteq : t = l.target
    · subst hteq
      have hAtT : b2.nodeAt l.target = { b.nodeAt l.target with digital_input := (b.nodeAt l.target).digital_input.set l.ty (decide (np ≠ 0)) } := by
        rw [hb2, modifyNode_nodeAt, if_pos ⟨rfl, ht⟩]
      rw [hAtT]
      have hproj : ({ b.nodeAt l.target with digital_input := (b.nodeAt l.target).digital_input.set l.ty (decide (np ≠ 0)) } : Node).digital_input
          = (b.nodeAt l.target).digital_input.set l.ty (decide (np ≠ 0)) := rfl
      rw [hproj]
      obtain ⟨hd, hs⟩ := hmid.dig l.target ht hA
      cases hLT : l.ty with
      | default =>
        have hOldP := @midCount_old_eq b0 b n oldOut op done rest l hopdef
          (fun x => decide (x ≠ 0))
        have hNewP := @midCount_new_eq b0 b n oldOut newOut np hnw hout done rest l hnpdef
          (fun x => decide (x ≠ 0))
        rw [hLT] at hOldP hNewP
        have hmono := constCount_mono G (gIdx G l.target) .default (fun x => decide (x ≠ 0))
        have hsucc := @midCount_succ_le_total b0 b n oldOut done rest l l.target
          LinkType.default (fun x => decide (x ≠ 0)) hslice hn rfl hLT
        have hcap := hmid.cap l.target .default ht
        have hsides : linkCountMid b0 b n oldOut (done ++ [l]) rest l.target .side
              (fun x => decide (x ≠ 0))
            = linkCountMid b0 b n oldOut done (l :: rest) l.target .side
              (fun x => decide (x ≠ 0)) :=
          midStep_recount_of_ne (fun hc => LinkType.noConfusion (hLT.symm.trans hc.2))
            (fun x => decide (x ≠ 0))
        by_cases hopz : op = 0
        · have hnpz : np ≠ 0 := by
            intro h
            rw [hopz, h] at hne0
            exact hne0 rfl
          rw [if_neg (by simp [hopz])] at hOldP
          rw [if_pos (by simp [hnpz])] at hNewP
          have hvt : decide (np ≠ 0) = true := by simp [hnpz]
          rw [hvt]
          obtain ⟨h1, h2⟩ := digSet_default_true ((b.nodeAt l.target).digital_input) (by omega)
          refine ⟨?_, ?_⟩
          · rw [h1, hd]
            omega
          · rw [h2, hs, hsides]
        · have hnpz : np = 0 := by
            by_contra hnp
            rw [(by simp [hopz] : decide (op ≠ 0) = true),
              (by simp [hnp] : decide (np ≠ 0) = true)] at hne0
            exact hne0 rfl
          rw [if_pos (by simp [hopz])] at hOldP
          rw [if_neg (by simp [hnpz])] at hNewP
          have hvt : decide (np ≠ 0) = false := by simp [hnpz]
          rw [hvt]
          obtain ⟨h1, h2⟩ := digSet_default_false ((b.nodeAt l.target).digital_input)
            (by omega) (by omega)
          refine ⟨?_, ?_⟩
          · rw [h1, hd]
            omega
          · rw [h2, hs, hsides]
      | side =>
        have hOldP := @midCount_old_eq b0 b n oldOut op done rest l hopdef
          (fun x => decide (x ≠ 0))
        have hNewP := @midCount_new_eq b0 b n oldOut newOut np hnw hout done rest l hnpdef
          (fun x => decide (x ≠ 0))
        rw [hLT] at hOldP hNewP
        have hmono := constCount_mono G (gIdx G l.target) .side (fun x => decide (x ≠ 0))
        have hsucc := @midCount_succ_le_total b0 b n oldOut done rest l l.target
          LinkType.side (fun x => decide (x ≠ 0)) hslice hn rfl hLT
        have hcap := hmid.cap l.target .side ht
        have hsided : linkCountMid b0 b n oldOut (done ++ [l]) rest l.target .default
              (fun x => decide (x ≠ 0))
            = linkCountMid b0 b n oldOut done (l :: rest) l.target .default
              (fun x => decide (x ≠ 0)) :=
          midStep_recount_of_ne (fun hc => LinkType.noConfusion (hLT.symm.trans hc.2))
            (fun x => decide (x ≠ 0))
        by_cases hopz : op = 0
        · have hnpz : np ≠ 0 := by
            intro h
            rw [hopz, h] at hne0
            exact hne0 rfl
          rw [if_neg (by simp [hopz])] at hOldP
          rw [if_pos (by simp [hnpz])] at hNewP
          have hvt : decide (np ≠ 0) = true := by simp [hnpz]
          rw [hvt]
          obtain ⟨h1, h2⟩ := digSet_side_true ((b.nodeAt l.target).digital_input) (by omega)
          refine ⟨?_, ?_⟩
          · rw [h2, hd, hsided]
          · rw [h1, hs]
            omega
        · have hnpz : np = 0 := by
            by_contra hnp
            rw [(by simp [hopz] : decide (op ≠ 0) = true),
              (by simp [hnp] : decide (np ≠ 0) = true)] at hne0
            exact hne0 rfl
          rw [if_pos (by simp [hopz])] at hOldP
          rw [if_neg (by simp [hnpz])] at hNewP
          have hvt : decide (np ≠ 0) = false := by simp [hnpz]
          rw [hvt]
          obtain ⟨h1, h2⟩ := digSet_side_false ((b.nodeAt l.target).digital_input)
            (by omega) (by omega)
          refine ⟨?_, ?_⟩
          · rw [h2, hd, hsided]
          · rw [h1, hs]
            omega
    · have hta : t ≠ l.target := hteq
      have hAtj : (b2.nodeAt t).digital_input = (b.nodeAt t).digital_input := by
        rw [hb2, modifyNode_nodeAt, if_neg (fun hc => hta hc.1.symm)]
      rw [hAtj]
      have hstepd : linkCountMid b0 b n oldOut (done ++ [l]) rest t .default
            (fun x => decide (x ≠ 0))
          = linkCountMid b0 b n oldOut done (l :: rest) t .default (fun x => decide (x ≠ 0)) :=
        midStep_recount_of_ne (fun hc => hta hc.1.symm) (fun x => decide (x ≠ 0))
      have hsteps : linkCountMid b0 b n oldOut (done ++ [l]) rest t .side
            (fun x => decide (x ≠ 0))
          = linkCountMid b0 b n oldOut done (l :: rest) t .side (fun x => decide (x ≠ 0)) :=
        midStep_recount_of_ne (fun hc => hta hc.1.symm) (fun x => decide (x ≠ 0))
      rw [hstepd, hsteps]
      exact hmid.dig t ht hA

/-- The analog branch of one `process_link` iteration: moving the link's
delivery from its old to its new bucket in the target's histogram advances
the mid-loop invariant by exactly this link. -/
theorem processLink_analog_mid {G : CGraph} {b0 b b2 : Backend}
    {n oldOut newOut op np : Nat} (hold : oldOut ≤ 15)
    (hnw : (b.nodeAt n).ty ≠ .wire) (hout : (b.nodeAt n).output_power = newOut)
    {done rest : List ForwardLink} {l : ForwardLink}
    (hopdef : op = oldOut - l.distance) (hnpdef : np = newOut - l.distance)
    (hslice : b.linksOf n = done ++ l :: rest) (hn : n < b.nodes.length)
    (hop : op ≠ np) (hnple : np ≤ 15)
    (han : (b.nodeAt l.target).ty.is_analog = true)
    (hb2 : b2 = b.modifyAnalog (b.nodeAt l.target).analog_input_idx
      (fun a => a.set l.ty op np))
    (hmid : InvMid G b0 b n oldOut done (l :: rest)) :
    InvMid G b0 b2 n oldOut (done ++ [l]) rest := by
  have ht0 : l.target < b.nodes.length := by
    by_contra hge
    rw [nodeAt_oob b l.target (by omega)] at han
    exact absurd han (by decide)
  have hidxLt : (b.nodeAt l.target).analog_input_idx < b.analog_inputs.length :=
    hmid.idxLt l.target ht0 han
  have hAt : ∀ j, b2.nodeAt j = b.nodeAt j := by
    rw [hb2]; exact fun j => rfl
  have hNlen : b2.nodes.length = b.nodes.length := by rw [hb2]; exact rfl
  have hAlen : b2.analog_inputs.length = b.analog_inputs.length := by
    rw [hb2, modifyAnalog_analog_length]
  have hGetSelf : b2.analog_inputs.getD ((b.nodeAt l.target).analog_input_idx) default
      = (b.analog_inputs.getD ((b.nodeAt l.target).analog_input_idx) default).set l.ty op np := by
    rw [hb2, modifyAnalog_getD_self _ _ _ hidxLt]
  have hGetNe : ∀ j, j ≠ (b.nodeAt l.target).analog_input_idx →
      b2.analog_inputs.getD j default = b.analog_inputs.getD j default := by
    intro j hj
    rw [hb2, modifyAnalog_getD_ne _ _ _ _ hj]
  have hpc : preservesCounts b b2 := by
    rw [hb2]; exact modifyAnalog_preservesCounts b _ _
  have hcntF : ∀ d r t lt, linkCountMid b0 b2 n oldOut d r t lt
      = linkCountMid b0 b n oldOut d r t lt :=
    fun d r t lt => funext (fun p => preservesCounts_linkCountMid b0 hpc n oldOut d r t lt p)
  have hTot : ∀ t lt, linkTotal b2 t lt = linkTotal b t lt :=
    fun t lt => preservesSkel_linkTotal hpc.1 t lt
  have hsr : srcRef b0 b n = newOut := by rw [srcRef_of_not_wire hnw, hout]
  have hople : op ≤ 15 := by omega
  have hOldEq : ∀ p, linkCountMid b0 b n oldOut done (l :: rest) l.target l.ty p
      = linkCountMid b0 b n oldOut done rest l.target l.ty p
        + (if p op = true then 1 else 0) := by
    intro p
    rw [midCount_cons_rest, hopdef]
    by_cases hp : p (oldOut - l.distance) = true
    · rw [if_pos ⟨rfl, rfl, hp⟩, if_pos hp]
    · rw [if_neg (fun hc => hp hc.2.2), if_neg hp]
  have hNewEq : ∀ p, linkCountMid b0 b n oldOut (done ++ [l]) rest l.target l.ty p
      = linkCountMid b0 b n oldOut done rest l.target l.ty p
        + (if p np = true then 1 else 0) := by
    intro p
    rw [midCount_append_done, hnpdef]
    have hcrit : critLink b0 b n l.target l.ty p l = p (newOut - l.distance) := by
      unfold critLink
      rw [hsr]
      simp
    rw [hcrit]
  have hcapOld : ∀ p, constCount G (gIdx G l.target) l.ty p
      + linkCountMid b0 b n oldOut done (l :: rest) l.target l.ty p ≤ 255 := by
    intro p
    have h1 := constCount_mono G (gIdx G l.target) l.ty p
    have h2 := @midCount_le_total b0 b n oldOut done (l :: rest) l.target l.ty p hslice hn
    have h3 := hmid.cap l.target l.ty ht0
    omega
  have hcapBase : ∀ p, constCount G (gIdx G l.target) l.ty p
      + linkCountMid b0 b n oldOut done rest l.target l.ty p + 1 ≤ 255 := by
    intro p
    have h1 := constCount_mono G (gIdx G l.target) l.ty p
    have h2 := @midCount_succ_le_total b0 b n oldOut done rest l l.target l.ty p hslice hn rfl rfl
    have h3 := hmid.cap l.target l.ty ht0
    omega
  refine ⟨?_, hmid.refLe, ?_, ?_, ?_, ?_, ?_, ?_⟩
  · intro i
    rw [hAt i]
    exact hmid.outLe i
  · intro i h
    rw [hAt i] at h ⊢
    exact hmid.farLe i h
  · intro t1 t2 h1 h2 ha1 ha2 hne
    rw [hNlen] at h1 h2
    rw [hAt t1] at ha1
    rw [hAt t2] at ha2
    rw [hAt t1, hAt t2]
    exact hmid.inj t1 t2 h1 h2 ha1 ha2 hne
  · intro t ht hA
    rw [hNlen] at ht
    rw [hAt t] at hA ⊢
    rw [hAlen]
    exact hmid.idxLt t ht hA
  · intro t lt ht
    rw [hNlen] at ht
    rw [hTot t lt]
    exact hmid.cap t lt ht
  · intro t ht hA
    rw [hNlen] at ht
    rw [hAt t] at hA ⊢
    rw [hcntF, hcntF]
    by_cases hteq : t = l.target
    · subst hteq
      rw [hGetSelf]
      cases hLT : l.ty with
      | default =>
        rw [hLT] at hOldEq hNewEq hcapOld hcapBase
        rw [analogSet_default_d, analogSet_default_s]
        constructor
        · exact histShift hOldEq hNewEq (hmid.hist l.target ht hA).1 hop hople hnple
            hcapOld hcapBase
        · have hstep : ∀ p, linkCountMid b0 b n oldOut (done ++ [l]) rest l.target .side p
              = linkCountMid b0 b n oldOut done (l :: rest) l.target .side p :=
            fun p => midStep_recount_of_ne
              (fun hc => LinkType.noConfusion (hLT.symm.trans hc.2)) p
          rw [funext hstep]
          exact (hmid.hist l.target ht hA).2
      | side =>
        rw [hLT] at hOldEq hNewEq hcapOld hcapBase
        rw [analogSet_side_d, analogSet_side_s]
        constructor
        · have hstep : ∀ p, linkCountMid b0 b n oldOut (done ++ [l]) rest l.target .default p
              = linkCountMid b0 b n oldOut done (l :: rest) l.target .default p :=
            fun p => midStep_recount_of_ne
              (fun hc => LinkType.noConfusion (hLT.symm.trans hc.2)) p
          rw [funext hstep]
          exact (hmid.hist l.target ht hA).1
        · exact histShift hOldEq hNewEq (hmid.hist l.target ht hA).2 hop hople hnple
            hcapOld hcapBase
    · have hidxne : (b.nodeAt t).analog_input_idx ≠ (b.nodeAt l.target).analog_input_idx :=
        hmid.inj t l.target ht ht0 hA han hteq
      rw [hGetNe _ hidxne]
      have hstepd : ∀ p, linkCountMid b0 b n oldOut (done ++ [l]) rest t .default p
          = linkCountMid b0 b n oldOut done (l :: rest) t .default p :=
        fun p => midStep_recount_of_ne (fun hc => hteq hc.1.symm) p
      have hsteps : ∀ p, linkCountMid b0 b n oldOut (done ++ [l]) rest t .side p
          = linkCountMid b0 b n oldOut done (l :: rest) t .side p :=
        fun p => midStep_recount_of_ne (fun hc => hteq hc.1.symm) p
      rw [funext hstepd, funext hsteps]
      exact hmid.hist t ht hA
  · intro t ht hA
    rw [hNlen] at ht
    rw [hAt t] at hA ⊢
    rw [hcntF, hcntF]
    have hta : t ≠ l.target := by
      intro h
      rw [h] at hA
      rw [hA] at han
      exact absurd han (by decide)
    have hstepd : ∀ p, linkCountMid b0 b n oldOut (done ++ [l]) rest t .default p
        = linkCountMid b0 b n oldOut done (l :: rest) t .default p :=
      fun p => midStep_recount_of_ne (fun hc => hta hc.1.symm) p
    have hsteps : ∀ p, linkCountMid b0 b n oldOut (done ++ [l]) rest t .side p
        = linkCountMid b0 b n oldOut done (l :: rest) t .side p :=
      fun p => midStep_recount_of_ne (fun hc => hta hc.1.symm) p
    rw [hstepd, hsteps]
    exact hmid.dig t ht hA

/-- `process_link` written as nested conditionals (pure unfolding). -/
theorem processLink_eq (oldP newP : Nat) (b : Backend) (l : ForwardLink) :
    processLink oldP newP b l =
      if oldP - l.distance = newP - l.distance then b
      else if (b.nodeAt l.target).ty.is_analog then
        updateNode (b.modifyAnalog (b.nodeAt l.target).analog_input_idx
          (fun a => a.set l.ty (oldP - l.distance) (newP - l.distance))) l.target
      else if (decide (oldP - l.distance ≠ 0)) = (decide (newP - l.distance ≠ 0)) then b
      else updateNode (b.modifyNode l.target
        (fun nd => { nd with digital_input := nd.digital_input.set l.ty (decide (newP - l.distance ≠ 0)) })) l.target := rfl

/-- One full iteration of `set_node`'s forward-link loop preserves the
mid-loop invariant, moving the processed link into the prefix. -/
theorem processLink_mid {G : CGraph} {b0 b : Backend} (hwf : WFGraph G)
    {n oldOut newOut : Nat} (hold : oldOut ≤ 15) (hnew : newOut ≤ 15)
    (hnw : (b.nodeAt n).ty ≠ .wire) (hout : (b.nodeAt n).output_power = newOut)
    {done rest : List ForwardLink} {l : ForwardLink}
    (hslice : b.linksOf n = done ++ l :: rest) (hn : n < b.nodes.length)
    (hmid : InvMid G b0 b n oldOut done (l :: rest)) :
    InvMid G b0 (processLink oldOut newOut b l) n oldOut (done ++ [l]) rest := by
  rw [processLink_eq]
  by_cases h1 : oldOut - l.distance = newOut - l.distance
  · rw [if_pos h1]
    exact InvMid_recount (fun t lt p => midStep_recount hnw hout h1 t lt p) hmid
  · rw [if_neg h1]
    by_cases h2 : (b.nodeAt l.target).ty.is_analog = true
    · rw [if_pos h2]
      refine InvMid_transport_updLike hwf hold (updateNode_updLike _ _) ?_
      exact processLink_analog_mid hold hnw hout rfl rfl hslice hn h1 (by omega) h2 rfl hmid
    · rw [if_neg h2]
      have han : (b.nodeAt l.target).ty.is_analog = false := by
        simp at h2
        exact h2
      by_cases h3 : decide (oldOut - l.distance ≠ 0) = decide (newOut - l.distance ≠ 0)
      · rw [if_pos h3]
        refine ⟨hmid.outLe, hmid.refLe, hmid.farLe, hmid.inj, hmid.idxLt, hmid.cap, ?_, ?_⟩
        · intro t ht hA
          have hta : t ≠ l.target := by
            intro h
            rw [h] at hA
            rw [hA] at han
            exact absurd han (by decide)
          have hstepd : ∀ p, linkCountMid b0 b n oldOut (done ++ [l]) rest t .default p
              = linkCountMid b0 b n oldOut done (l :: rest) t .default p :=
            fun p => midStep_recount_of_ne (fun hc => hta hc.1.symm) p
          have hsteps : ∀ p, linkCountMid b0 b n oldOut (done ++ [l]) rest t .side p
              = linkCountMid b0 b n oldOut done (l :: rest) t .side p :=
            fun p => midStep_recount_of_ne (fun hc => hta hc.1.symm) p
          rw [funext hstepd, funext hsteps]
          exact hmid.hist t ht hA
        · intro t ht hA
          by_cases hteq : t = l.target
          · subst hteq
            obtain ⟨hd, hs⟩ := hmid.dig l.target ht hA
            have hOldP := @midCount_old_eq b0 b n oldOut (oldOut - l.distance) done rest l rfl
              (fun x => decide (x ≠ 0))
            have hNewP := @midCount_new_eq b0 b n oldOut newOut (newOut - l.distance) hnw hout
              done rest l rfl (fun x => decide (x ≠ 0))
            rw [h3] at hOldP
            cases hLT : l.ty with
            | default =>
              rw [hLT] at hOldP hNewP
              have hsides : linkCountMid b0 b n oldOut (done ++ [l]) rest l.target .side
                    (fun x => decide (x ≠ 0))
                  = linkCountMid b0 b n oldOut done (l :: rest) l.target .side
                    (fun x => decide (x ≠ 0)) :=
                midStep_recount_of_ne (fun hc => LinkType.noConfusion (hLT.symm.trans hc.2))
                  (fun x => decide (x ≠ 0))
              refine ⟨?_, ?_⟩
              · rw [hd]
                omega
              · rw [hs, hsides]
            | side =>
              rw [hLT] at hOldP hNewP
              have hsided : linkCountMid b0 b n oldOut (done ++ [l]) rest l.target .default
                    (fun x => decide (x ≠ 0))
                  = linkCountMid b0 b n oldOut done (l :: rest) l.target .default
                    (fun x => decide (x ≠ 0)) :=
                midStep_recount_of_ne (fun hc => LinkType.noConfusion (hLT.symm.trans hc.2))
                  (fun x => decide (x ≠ 0))
              refine ⟨?_, ?_⟩
              · rw [hd, hsided]
              · rw [hs]
                omega
          · have hstepd : linkCountMid b0 b n oldOut (done ++ [l]) rest t .default
                  (fun x => decide (x ≠ 0))
                = linkCountMid b0 b n oldOut done (l :: rest) t .default
                  (fun x => decide (x ≠ 0)) :=
              midStep_recount_of_ne (fun hc => hteq hc.1.symm) (fun x => decide (x ≠ 0))
            have hsteps : linkCountMid b0 b n oldOut (done ++ [l]) rest t .side
                  (fun x => decide (x ≠ 0))
                = linkCountMid b0 b n oldOut done (l :: rest) t .side
                  (fun x => decide (x ≠ 0)) :=
              midStep_recount_of_ne (fun hc => hteq hc.1.symm) (fun x => decide (x ≠ 0))
            rw [hstepd, hsteps]
            exact hmid.dig t ht hA
      · rw [if_neg h3]
        refine InvMid_transport_updLike hwf hold (updateNode_updLike _ _) ?_
        exact processLink_digital_mid hnw hout rfl rfl hslice hn h3 han rfl hmid

/-- `List.set` past the length is the identity. -/
theorem set_past_length {α : Type} (l : List α) (n : Nat) (a : α) (h : l.length ≤ n) :
    l.set n a = l := by
  induction l generalizing n with
  | nil => rfl
  | cons x xs ih =>
    cases n with
    | zero => simp at h
    | succ m =>
      simp only [List.set]
      rw [ih m (by simp [List.length_cons] at h; omega)]

/-- Splitting the full link count at one source. -/
theorem linkCount_split {b0 b : Backend} {n : Nat} (hn : n < b.nodes.length)
    (t : Nat) (lt : LinkType) (p : Nat → Bool) :
    linkCount b0 b t lt p
      = ((List.range b.nodes.length).map (fun i => if i = n then 0
          else ((b.linksOf i).filter (critLink b0 b i t lt p)).length)).sum
        + ((b.linksOf n).filter (critLink b0 b n t lt p)).length := by
  unfold linkCount
  rw [sum_map_range_split b.nodes.length n
    (fun i => ((b.linksOf i).filter (critLink b0 b i t lt p)).length) hn]

/-- The other-sources summand of `linkCountMid` is insensitive to a change
of the excluded source's record. -/
theorem midSum_congr {b0 b b1 : Backend} {n : Nat} (hskel : preservesSkel b b1)
    (houts : ∀ j, j ≠ n → (b1.nodeAt j).output_power = (b.nodeAt j).output_power)
    (t : Nat) (lt : LinkType) (p : Nat → Bool) :
    ((List.range b1.nodes.length).map (fun i => if i = n then 0
        else ((b1.linksOf i).filter (critLink b0 b1 i t lt p)).length)).sum
      = ((List.range b.nodes.length).map (fun i => if i = n then 0
        else ((b.linksOf i).filter (critLink b0 b i t lt p)).length)).sum := by
  rw [hskel.2.1]
  refine congrArg List.sum (List.map_congr_left (fun i _ => ?_))
  by_cases hi : i = n
  · rw [if_pos hi, if_pos hi]
  · rw [if_neg hi, if_neg hi, preservesSkel_linksOf hskel i]
    have hsr : srcRef b0 b1 i = srcRef b0 b i := by
      unfold srcRef
      rw [(hskel.2.2.2 i).1, houts i hi]
    have hcl : critLink b0 b1 i t lt p = critLink b0 b i t lt p := by
      funext l
      unfold critLink
      rw [hsr]
    rw [hcl]

/-- Entering `set_node`'s loop: with nothing processed, the mid count of the
updated backend equals the full count of the original backend. -/
theorem midCount_entry {b0 b b1 : Backend} {n oldOut : Nat}
    (hty : (b.nodeAt n).ty ≠ .wire) (hold : (b.nodeAt n).output_power = oldOut)
    (hn : n < b.nodes.length) (hskel : preservesSkel b b1)
    (houts : ∀ j, j ≠ n → (b1.nodeAt j).output_power = (b.nodeAt j).output_power)
    (t : Nat) (lt : LinkType) (p : Nat → Bool) :
    linkCountMid b0 b1 n oldOut [] (b.linksOf n) t lt p = linkCount b0 b t lt p := by
  unfold linkCountMid
  rw [List.filter_nil, midSum_congr hskel houts t lt p, linkCount_split hn t lt p]
  have hpred : (fun l : ForwardLink => l.target = t && l.ty = lt && p (oldOut - l.distance))
      = critLink b0 b n t lt p := by
    funext l
    unfold critLink
    rw [srcRef_of_not_wire hty, hold]
  rw [hpred]
  simp only [List.length_nil]
  omega

/-- Leaving `set_node`'s loop: with everything processed, the mid count
equals the full count of the final backend. -/
theorem midCount_exit {b0 b : Backend} {n oldOut : Nat} {done : List ForwardLink}
    (hdone : b.linksOf n = done) (hn : n < b.nodes.length)
    (t : Nat) (lt : LinkType) (p : Nat → Bool) :
    linkCountMid b0 b n oldOut done [] t lt p = linkCount b0 b t lt p := by
  unfold linkCountMid
  rw [List.filter_nil, linkCount_split hn t lt p, ← hdone]
  simp only [List.length_nil]
  omega

/-- `process_link` never touches the skeleton or a non-Wire output. -/
theorem processLink_preservesCounts (oldP newP : Nat) (b : Backend) (l : ForwardLink) :
    preservesCounts b (processLink oldP newP b l) := by
  rw [processLink_eq]
  by_cases h1 : oldP - l.distance = newP - l.distance
  · rw [if_pos h1]
    exact preservesCounts_refl b
  · rw [if_neg h1]
    by_cases h2 : (b.nodeAt l.target).ty.is_analog = true
    · rw [if_pos h2]
      exact preservesCounts_trans (modifyAnalog_preservesCounts b _ _)
        (updLike_preservesCounts (updateNode_updLike _ _))
    · rw [if_neg h2]
      by_cases h3 : decide (oldP - l.distance ≠ 0) = decide (newP - l.distance ≠ 0)
      · rw [if_pos h3]
        exact preservesCounts_refl b
      · rw [if_neg h3]
        refine preservesCounts_trans ?_ (updLike_preservesCounts (updateNode_updLike _ _))
        refine ⟨modifyNode_preservesSkel b l.target _ ⟨rfl, rfl, rfl, rfl⟩, ?_⟩
        intro j hj
        rw [modifyNode_nodeAt]
        by_cases hc : l.target = j ∧ l.target < b.nodes.length
        · rw [if_pos hc, ← hc.1]
        · rw [if_neg hc]

theorem fold_processLink_preservesCounts (oldP newP : Nat) :
    ∀ (ls : List ForwardLink) (b : Backend),
      preservesCounts b (ls.foldl (processLink oldP newP) b) := by
  intro ls
  induction ls with
  | nil => exact fun b => preservesCounts_refl b
  | cons l tail ih =>
    intro b
    exact preservesCounts_trans (processLink_preservesCounts oldP newP b l)
      (ih (processLink oldP newP b l))

/-- The whole forward-link loop of `set_node` preserves the mid-loop
invariant, processing the remaining suffix. -/
theorem fold_processLink_mid {G : CGraph} {b0 : Backend} (hwf : WFGraph G)
    {n oldOut newOut : Nat} (hold : oldOut ≤ 15) (hnew : newOut ≤ 15) :
    ∀ (rest done : List ForwardLink) (b : Backend),
      (b.nodeAt n).ty ≠ .wire → (b.nodeAt n).output_power = newOut →
      b.linksOf n = done ++ rest → n < b.nodes.length →
      InvMid G b0 b n oldOut done rest →
      InvMid G b0 (rest.foldl (processLink oldOut newOut) b) n oldOut (done ++ rest) [] := by
  intro rest
  induction rest with
  | nil =>
    intro done b hnw hout hslice hn hmid
    rw [List.append_nil]
    exact hmid
  | cons l tail ih =>
    intro done b hnw hout hslice hn hmid
    have hstep := processLink_mid hwf hold hnew hnw hout hslice hn hmid
    have hpc := processLink_preservesCounts oldOut newOut b l
    have hnw2 : ((processLink oldOut newOut b l).nodeAt n).ty ≠ .wire := by
      rw [(hpc.1.2.2.2 n).1]
      exact hnw
    have hout2 : ((processLink oldOut newOut b l).nodeAt n).output_power = newOut := by
      rw [hpc.2 n hnw]
      exact hout
    have hslice2 : (processLink oldOut newOut b l).linksOf n = (done ++ [l]) ++ tail := by
      rw [preservesSkel_linksOf hpc.1 n, hslice]
      simp
    have hn2 : n < (processLink oldOut newOut b l).nodes.length := by
      rw [hpc.1.2.1]
      exact hn
    have hres := ih (done ++ [l]) (processLink oldOut newOut b l) hnw2 hout2 hslice2 hn2 hstep
    rw [List.append_assoc] at hres
    exact hres

/-- `set_node` written as the explicit fold over the node's links. -/
theorem setNode_eq (b : Backend) (nid : Nat) (pw : Bool) (npow : Nat) :
    setNode b nid pw npow
      = ((b.modifyNode nid (fun nd => { nd with changed := true, powered := pw, output_power := npow })).linksOf nid).foldl
          (processLink (b.nodeAt nid).output_power npow)
          (b.modifyNode nid (fun nd => { nd with changed := true, powered := pw, output_power := npow })) := rfl

/-- Committing the source's new output power turns the whole-backend
invariant into the mid-loop invariant with nothing yet processed. -/
theorem setNode_entry_mid {G : CGraph} {b0 b b1 : Backend} {nid npow : Nat} {pw : Bool}
    (hn : nid < b.nodes.length) (hnp : npow ≤ 15)
    (hty : (b.nodeAt nid).ty ≠ .wire)
    (hb1 : b1 = b.modifyNode nid (fun nd => { nd with changed := true, powered := pw, output_power := npow }))
    (hInv : Inv G b0 b) :
    InvMid G b0 b1 nid ((b.nodeAt nid).output_power) [] (b1.linksOf nid) := by
  have hskel1 : preservesSkel b b1 := by
    rw [hb1]
    exact modifyNode_preservesSkel b nid _ ⟨rfl, rfl, rfl, rfl⟩
  have houts1 : ∀ j, j ≠ nid → (b1.nodeAt j).output_power = (b.nodeAt j).output_power := by
    intro j hj
    rw [hb1, modifyNode_nodeAt, if_neg (fun hc => hj hc.1.symm)]
  have hout1 : (b1.nodeAt nid).output_power = npow := by
    rw [hb1, modifyNode_nodeAt, if_pos ⟨rfl, hn⟩]
  have hdig1 : ∀ j, (b1.nodeAt j).digital_input = (b.nodeAt j).digital_input := by
    intro j
    rw [hb1, modifyNode_nodeAt]
    by_cases hc : nid = j ∧ nid < b.nodes.length
    · rw [if_pos hc, ← hc.1]
    · rw [if_neg hc]
  have htsp1 : ∀ j, (b1.nodeAt j).type_specific_properties
      = (b.nodeAt j).type_specific_properties := by
    intro j
    rw [hb1, modifyNode_nodeAt]
    by_cases hc : nid = j ∧ nid < b.nodes.length
    · rw [if_pos hc, ← hc.1]
    · rw [if_neg hc]
  have hain1 : b1.analog_inputs = b.analog_inputs := by
    rw [hb1]; exact rfl
  have hcn : ∀ t lt, linkCountMid b0 b1 nid ((b.nodeAt nid).output_power) [] (b.linksOf nid) t lt
      = linkCount b0 b t lt :=
    fun t lt => funext (fun p => midCount_entry hty rfl hn hskel1 houts1 t lt p)
  refine ⟨?_, hInv.refLe, ?_, ?_, ?_, ?_, ?_, ?_⟩
  · intro i
    by_cases hi : i = nid
    · rw [hi, hout1]
      exact hnp
    · rw [houts1 i hi]
      exact hInv.outLe i
  · intro i hcmp
    rw [(hskel1.2.2.2 i).1] at hcmp
    unfold Node.get_comparator_properties
    rw [htsp1 i]
    exact hInv.farLe i hcmp
  · intro t1 t2 h1 h2 ha1 ha2 hne
    rw [hskel1.2.1] at h1 h2
    rw [(hskel1.2.2.2 t1).1] at ha1
    rw [(hskel1.2.2.2 t2).1] at ha2
    rw [(hskel1.2.2.2 t1).2.2.2, (hskel1.2.2.2 t2).2.2.2]
    exact hInv.inj t1 t2 h1 h2 ha1 ha2 hne
  · intro t ht hA
    rw [hskel1.2.1] at ht
    rw [(hskel1.2.2.2 t).1] at hA
    rw [(hskel1.2.2.2 t).2.2.2, hskel1.2.2.1]
    exact hInv.idxLt t ht hA
  · intro t lt ht
    rw [hskel1.2.1] at ht
    rw [preservesSkel_linkTotal hskel1]
    exact hInv.cap t lt ht
  · intro t ht hA
    rw [hskel1.2.1] at ht
    rw [(hskel1.2.2.2 t).1] at hA
    rw [(hskel1.2.2.2 t).2.2.2, hain1, preservesSkel_linksOf hskel1 nid]
    rw [hcn, hcn]
    exact hInv.hist t ht hA
  · intro t ht hA
    rw [hskel1.2.1] at ht
    rw [(hskel1.2.2.2 t).1] at hA
    rw [hdig1 t, preservesSkel_linksOf hskel1 nid]
    rw [hcn, hcn]
    exact hInv.dig t ht hA

/-- `DirectBackend::set_node` preserves the input-aggregate invariant
whenever the committed node is not a Wire and the new power is a valid
signal strength.  (Wires never call `set_node` on themselves: their
output changes happen in `update_node` and propagate nowhere.) -/
theorem setNode_inv {G : CGraph} {b0 b : Backend} (hwf : WFGraph G)
    {nid : Nat} {pw : Bool} {npow : Nat} (hnp : npow ≤ 15)
    (hty : (b.nodeAt nid).ty ≠ .wire)
    (hInv : Inv G b0 b) : Inv G b0 (setNode b nid pw npow) := by
  rw [setNode_eq]
  by_cases hn : nid < b.nodes.length
  · have hmid0 := @setNode_entry_mid G b0 b _ nid npow pw hn hnp hty rfl hInv
    have hskel1 : preservesSkel b (b.modifyNode nid (fun nd => { nd with changed := true, powered := pw, output_power := npow })) :=
      modifyNode_preservesSkel b nid _ ⟨rfl, rfl, rfl, rfl⟩
    have hout1 : ((b.modifyNode nid (fun nd => { nd with changed := true, powered := pw, output_power := npow })).nodeAt nid).output_power = npow := by
      rw [modifyNode_nodeAt, if_pos ⟨rfl, hn⟩]
    have hnw1 : ((b.modifyNode nid (fun nd => { nd with changed := true, powered := pw, output_power := npow })).nodeAt nid).ty ≠ .wire := by
      rw [(hskel1.2.2.2 nid).1]
      exact hty
    have hn1 : nid < (b.modifyNode nid (fun nd => { nd with changed := true, powered := pw, output_power := npow })).nodes.length := by
      rw [hskel1.2.1]
      exact hn
    have hmidf := fold_processLink_mid hwf (hInv.outLe nid) hnp
      ((b.modifyNode nid (fun nd => { nd with changed := true, powered := pw, output_power := npow })).linksOf nid) []
      (b.modifyNode nid (fun nd => { nd with changed := true, powered := pw, output_power := npow }))
      hnw1 hout1 (List.nil_append _).symm hn1 hmid0
    rw [List.nil_append] at hmidf
    have hpcf := fold_processLink_preservesCounts ((b.nodeAt nid).output_power) npow
      ((b.modifyNode nid (fun nd => { nd with changed := true, powered := pw, output_power := npow })).linksOf nid)
      (b.modifyNode nid (fun nd => { nd with changed := true, powered := pw, output_power := npow }))
    have hnf : nid < (((b.modifyNode nid (fun nd => { nd with changed := true, powered := pw, output_power := npow })).linksOf nid).foldl
        (processLink (b.nodeAt nid).output_power npow)
        (b.modifyNode nid (fun nd => { nd with changed := true, powered := pw, output_power := npow }))).nodes.length := by
      rw [hpcf.1.2.1]
      exact hn1
    have hdone : (((b.modifyNode nid (fun nd => { nd with changed := true, powered := pw, output_power := npow })).linksOf nid).foldl
        (processLink (b.nodeAt nid).output_power npow)
        (b.modifyNode nid (fun nd => { nd with changed := true, powered := pw, output_power := npow }))).linksOf nid
        = (b.modifyNode nid (fun nd => { nd with changed := true, powered := pw, output_power := npow })).linksOf nid :=
      preservesSkel_linksOf hpcf.1 nid
    have hcx : ∀ t lt, linkCountMid b0
        (((b.modifyNode nid (fun nd => { nd with changed := true, powered := pw, output_power := npow })).linksOf nid).foldl
          (processLink (b.nodeAt nid).output_power npow)
          (b.modifyNode nid (fun nd => { nd with changed := true, powered := pw, output_power := npow })))
        nid ((b.nodeAt nid).output_power)
        ((b.modifyNode nid (fun nd => { nd with changed := true, powered := pw, output_power := npow })).linksOf nid) [] t lt
      = linkCount b0
        (((b.modifyNode nid (fun nd => { nd with changed := true, powered := pw, output_power := npow })).linksOf nid).foldl
          (processLink (b.nodeAt nid).output_power npow)
          (b.modifyNode nid (fun nd => { nd with changed := true, powered := pw, output_power := npow }))) t lt :=
      fun t lt => funext (fun p => midCount_exit hdone hnf t lt p)
    refine ⟨hmidf.outLe, hmidf.refLe, hmidf.farLe, hmidf.inj, hmidf.idxLt, hmidf.cap, ?_, ?_⟩
    · intro t ht hA
      rw [← hcx, ← hcx]
      exact hmidf.hist t ht hA
    · intro t ht hA
      rw [← hcx, ← hcx]
      exact hmidf.dig t ht hA
  · have hset : b.modifyNode nid (fun nd => { nd with changed := true, powered := pw, output_power := npow }) = b := by
      unfold Backend.modifyNode
      rw [set_past_length _ _ _ (by omega)]
    rw [hset]
    have hlinks : b.linksOf nid = [] := by
      unfold Backend.linksOf
      rw [nodeAt_oob b nid (by omega)]
      rfl
    rw [hlinks]
    exact hInv

theorem boolToSS_le (v : Bool) : boolToSS v ≤ 15 := by
  cases v <;> decide

theorem calc_comp_le {mode : ComparatorMode} {i s : Nat} (hi : i ≤ 15) :
    calculate_comparator_output mode i s ≤ 15 := by
  cases mode <;> simp only [calculate_comparator_output] <;> split <;> omega

/-- `tick_node` preserves the input-aggregate invariant. -/
theorem tickNode_inv {G : CGraph} {b0 b : Backend} (hwf : WFGraph G) (nid : Nat)
    (hInv : Inv G b0 b) : Inv G b0 (tickNode b nid) := by
  have hpend : updLike b (b.modifyNode nid (fun n => { n with pending_tick := false })) :=
    updLike_modifyNode b nid _ ⟨rfl, rfl, rfl, rfl, rfl, rfl, fun _ => rfl⟩
  have hInv1 := Inv_transport_updLike hwf hpend hInv
  cases hty : ((b.modifyNode nid (fun n => { n with pending_tick := false })).nodeAt nid).ty
  case repeater =>
    simp only [tickNode, hty]
    repeat' split
    all_goals first
      | exact hInv1
      | exact setNode_inv hwf (by omega) (by rw [hty]; decide) hInv1
      | exact setNode_inv hwf (by omega)
          (by rw [((scheduleTickPending_updLike _ nid _ _).1.2.2.2 nid).1, hty]; decide)
          (Inv_transport_updLike hwf (scheduleTickPending_updLike _ nid _ _) hInv1)
  case torch =>
    simp only [tickNode, hty]
    repeat' split
    all_goals first
      | exact hInv1
      | exact setNode_inv hwf (boolToSS_le _) (by rw [hty]; decide) hInv1
  case comparator =>
    simp only [tickNode, hty]
    have hn1 : nid < (b.modifyNode nid (fun n => { n with pending_tick := false })).nodes.length := by
      by_contra hge
      rw [nodeAt_oob _ nid (by omega)] at hty
      exact absurd hty (by decide)
    repeat' split
    all_goals first
      | exact hInv1
      | exact setNode_inv hwf (calc_comp_le (hInv1.farLe nid hty)) (by rw [hty]; decide) hInv1
      | exact setNode_inv hwf
          (calc_comp_le ((Inv_aggregate_le hwf hInv1 hn1 (by rw [hty]; rfl)).1))
          (by rw [hty]; decide) hInv1
  case lamp =>
    simp only [tickNode, hty]
    split
    · exact setNode_inv hwf (by omega) (by rw [hty]; decide) hInv1
    · exact hInv1
  case button =>
    simp only [tickNode, hty]
    split
    · exact setNode_inv hwf (by omega) (by rw [hty]; decide) hInv1
    · exact hInv1
  all_goals simp only [tickNode, hty]
  all_goals exact hInv1

theorem fold_tickNode_inv {G : CGraph} {b0 : Backend} (hwf : WFGraph G) :
    ∀ (ls : List Nat) (b : Backend), Inv G b0 b → Inv G b0 (ls.foldl tickNode b) := by
  intro ls
  induction ls with
  | nil => exact fun b h => h
  | cons x t ih => exact fun b h => ih (tickNode b x) (tickNode_inv hwf x h)

/-- `tick` preserves the input-aggregate invariant. -/
theorem tickB_inv {G : CGraph} {b0 b : Backend} (hwf : WFGraph G)
    (hInv : Inv G b0 b) : Inv G b0 (tickB b) := by
  have h1 : Inv G b0 { b with scheduler := (b.scheduler.queues_this_tick).2 } :=
    Inv_transport_updLike hwf (updLike_scheduler b _) hInv
  have h2 := fold_tickNode_inv hwf ((b.scheduler.queues_this_tick).1.drainList)
    { b with scheduler := (b.scheduler.queues_this_tick).2 } h1
  exact Inv_transport_updLike hwf (updLike_scheduler _ _) h2

/-- `on_use_block` preserves the input-aggregate invariant on success. -/
theorem onUseBlock_inv {G : CGraph} {b0 b b' : Backend} (hwf : WFGraph G) {pos : Nat}
    (hok : onUseBlock b pos = .ok b') (hInv : Inv G b0 b) : Inv G b0 b' := by
  cases hlook : posLookup b.pos_map pos with
  | none =>
    simp only [onUseBlock, hlook] at hok
    exact Except.noConfusion hok
  | some nid =>
    cases hty2 : (b.nodeAt nid).ty
    all_goals simp only [onUseBlock, hlook, hty2] at hok
    case button =>
      split at hok
      · injection hok with h2
        subst h2
        exact hInv
      · injection hok with h2
        subst h2
        have htyS : ((b.scheduleTick nid 10 TickPriority.normal).nodeAt nid).ty
            = NodeType.button := hty2
        exact setNode_inv hwf (by omega) (by rw [htyS]; decide)
          (Inv_transport_updLike hwf (updLike_scheduler b _) hInv)
    case lever =>
      injection hok with h2
      subst h2
      exact setNode_inv hwf (boolToSS_le _) (by rw [hty2]; decide) hInv
    all_goals injection hok with h2
    all_goals subst h2
    all_goals exact hInv

/-- `set_pressure_plate` preserves the input-aggregate invariant on
success. -/
theorem setPressurePlate_inv {G : CGraph} {b0 b b' : Backend} (hwf : WFGraph G)
    {pos : Nat} {pw : Bool} (hok : setPressurePlate b pos pw = .ok b')
    (hInv : Inv G b0 b) : Inv G b0 b' := by
  cases hlook : posLookup b.pos_map pos with
  | none =>
    simp only [setPressurePlate, hlook] at hok
    exact Except.noConfusion hok
  | some nid =>
    cases hty2 : (b.nodeAt nid).ty
    all_goals simp only [setPressurePlate, hlook, hty2] at hok
    case pressurePlate =>
      injection hok with h2
      subst h2
      exact setNode_inv hwf (boolToSS_le _) (by rw [hty2]; decide) hInv
    all_goals injection hok with h2
    all_goals subst h2
    all_goals exact hInv

theorem flushStep_updLike (io : Bool) (acc : Backend × List Nat) (i : Nat) :
    updLike acc.1 (flushStep io acc i).1 := by
  unfold flushStep
  rcases h : acc.1.blocks.getD i none with _ | pos
  · simp only [h]
    exact updLike_refl acc.1
  · simp only [h]
    exact updLike_modifyNode acc.1 i _ ⟨rfl, rfl, rfl, rfl, rfl, rfl, fun _ => rfl⟩

theorem fold_flushStep_inv {G : CGraph} {b0 : Backend} (hwf : WFGraph G) (io : Bool) :
    ∀ (ls : List Nat) (acc : Backend × List Nat), Inv G b0 acc.1 →
      Inv G b0 ((ls.foldl (flushStep io) acc).1) := by
  intro ls
  induction ls with
  | nil => exact fun acc h => h
  | cons x t ih =>
    exact fun acc h => ih (flushStep io acc x)
      (Inv_transport_updLike hwf (flushStep_updLike io acc x) h)

/-- `flush` preserves the input-aggregate invariant. -/
theorem flushB_inv {G : CGraph} {b0 b : Backend} (hwf : WFGraph G) (io : Bool)
    (hInv : Inv G b0 b) : Inv G b0 (flushB b io).1 := by
  have h1 : Inv G b0 ({ b with events := [] } : Backend) :=
    Inv_transport_updLike hwf (updLike_events b []) hInv
  exact fold_flushStep_inv hwf io (List.range b.nodes.length)
    ({ b with events := [] }, []) h1

/-- Every backend reachable by public operations satisfies the invariant,
provided the initial backend does. -/
theorem ReachableB_inv {G : CGraph} {b0 : Backend} (hwf : WFGraph G)
    (hbase : Inv G b0 b0) : ∀ {b : Backend}, ReachableB b0 b → Inv G b0 b := by
  intro b hreach
  induction hreach with
  | base => exact hbase
  | tickOp _ ih => exact tickB_inv hwf ih
  | useOp _ hok ih => exact onUseBlock_inv hwf hok ih
  | plateOp _ hok ih => exact setPressurePlate_inv hwf hok ih
  | flushOp _ ih => exact flushB_inv hwf _ ih

/-! ### Compile-time characterization -/

/-- The backend node type a graph node lowers to (`ty_props.1` of
`compile_node`). -/
def lowerTy : CNodeType → NodeType
  | .repeater _ _ => .repeater
  | .torch => .torch
  | .comparator _ _ _ => .comparator
  | .lamp => .lamp
  | .button => .button
  | .lever => .lever
  | .pressurePlate => .pressurePlate
  | .trapdoor => .trapdoor
  | .wire => .wire
  | .constant => .constant
  | .noteBlock _ _ => .noteBlock

/-- The packed type-specific properties, given the noteblock-info index. -/
def lowerTSP (n : CompileNode) (nb : Nat) : TSProps :=
  match n.ty with
  | .repeater delay facingDiode =>
      .rep { delay, facing_diode := facingDiode, locked := n.state.repeater_locked }
  | .comparator mode farInput facingDiode =>
      .cmp { mode, has_far_input := farInput.isSome, far_input := farInput.getD 0,
             facing_diode := facingDiode }
  | .noteBlock _ _ => .nb nb
  | _ => .blank

/-- The packed record `compile_node` emits for graph node `j`, given the
array lengths at the moment of lowering. -/
def packedNode (g : CGraph) (dense : Nat → Nat) (j fb ab nb : Nat) : Node :=
  { ty := lowerTy (g.node j).ty
    type_specific_properties := lowerTSP (g.node j) nb
    powered := (g.node j).state.powered
    ioMarked := (g.node j).is_input || (g.node j).is_output
    changed := false
    pending_tick := false
    output_power := (g.node j).state.output_strength
    digital_input := (compiledInputs g j).1
    fwd_link_begin := fb
    fwd_link_count := (compiledOutLinks g dense j).length
    analog_input_idx := if (lowerTy (g.node j).ty).is_analog then ab else 0 }

/-- The forward links emitted for a list of graph nodes, in order. -/
def linksConcat (g : CGraph) (dense : Nat → Nat) : List Nat → List ForwardLink
  | [] => []
  | j :: t => compiledOutLinks g dense j ++ linksConcat g dense t

/-- How many of the listed graph nodes lower to an analog-input type. -/
def analogPrefix (g : CGraph) (L : List Nat) : Nat :=
  (L.filter (fun j => (lowerTy (g.node j).ty).is_analog)).length

/-- How many of the listed graph nodes are noteblocks. -/
def nbPrefix (g : CGraph) (L : List Nat) : Nat :=
  (L.filter (fun j => (g.node j).ty.discr = 10)).length

/-- One `compile_node` step, written out. -/
theorem compileNode_eq (g : CGraph) (j : Nat) (dense : Nat → Nat) (acc : CompileAcc) :
    compileNode g j dense acc =
      { nodes := acc.nodes
          ++ [packedNode g dense j acc.forward_links.length acc.analog_inputs.length
                acc.noteblock_info.length]
        forward_links := acc.forward_links ++ compiledOutLinks g dense j
        analog_inputs := if (lowerTy (g.node j).ty).is_analog then
            acc.analog_inputs ++ [(compiledInputs g j).2] else acc.analog_inputs
        noteblock_info := match (g.node j).ty with
          | .noteBlock instrument note =>
              acc.noteblock_info ++ [(((g.node j).block.getD (0, 0)).1, instrument, note)]
          | _ => acc.noteblock_info } := by
  cases hty : (g.node j).ty <;>
    simp [compileNode, packedNode, lowerTy, lowerTSP, hty, NodeType.is_analog]

theorem getD_append_left {α : Type} (l1 l2 : List α) (k : Nat) (d : α) (h : k < l1.length) :
    (l1 ++ l2).getD k d = l1.getD k d := by
  rw [List.getD_eq_getElem?_getD, List.getD_eq_getElem?_getD, List.getElem?_append, if_pos h]

theorem getD_append_self {α : Type} (l : List α) (x : α) (d : α) :
    (l ++ [x]).getD l.length d = x := by
  rw [List.getD_eq_getElem?_getD, List.getElem?_append_right (Nat.le_refl _)]
  simp

/-- Complete characterization of the `compile_node` fold: array lengths,
the concatenated link and analog arrays, and every packed record. -/
theorem compile_fold_spec (g : CGraph) (dense : Nat → Nat) :
    ∀ (L : List Nat) (acc : CompileAcc),
      (L.foldl (fun a j => compileNode g j dense a) acc).nodes.length
          = acc.nodes.length + L.length
      ∧ (L.foldl (fun a j => compileNode g j dense a) acc).forward_links
          = acc.forward_links ++ linksConcat g dense L
      ∧ (L.foldl (fun a j => compileNode g j dense a) acc).analog_inputs
          = acc.analog_inputs
            ++ (L.filter (fun j => (lowerTy (g.node j).ty).is_analog)).map
                (fun j => (compiledInputs g j).2)
      ∧ (L.foldl (fun a j => compileNode g j dense a) acc).noteblock_info.length
          = acc.noteblock_info.length + nbPrefix g L
      ∧ (∀ k, k < acc.nodes.length →
          (L.foldl (fun a j => compileNode g j dense a) acc).nodes.getD k default
            = acc.nodes.getD k default)
      ∧ (∀ k, k < L.length →
          (L.foldl (fun a j => compileNode g j dense a) acc).nodes.getD
              (acc.nodes.length + k) default
            = packedNode g dense (L.getD k 0)
                (acc.forward_links.length + (linksConcat g dense (L.take k)).length)
                (acc.analog_inputs.length + analogPrefix g (L.take k))
                (acc.noteblock_info.length + nbPrefix g (L.take k))) := by
  intro L
  induction L with
  | nil =>
    intro acc
    exact ⟨by simp, by simp [linksConcat], by simp, by simp [nbPrefix],
      fun k hk => rfl, fun k hk => absurd hk (by simp)⟩
  | cons j t ih =>
    intro acc
    obtain ⟨ih1, ih2, ih3, ih4, ih5, ih6⟩ := ih (compileNode g j dense acc)
    have hstep := compileNode_eq g j dense acc
    have hlen : (compileNode g j dense acc).nodes.length = acc.nodes.length + 1 := by
      rw [hstep]; simp
    have hfw : (compileNode g j dense acc).forward_links
        = acc.forward_links ++ compiledOutLinks g dense j := by rw [hstep]
    have hfwlen : (compileNode g j dense acc).forward_links.length
        = acc.forward_links.length + (compiledOutLinks g dense j).length := by
      rw [hfw]; simp
    have han : (compileNode g j dense acc).analog_inputs
        = if (lowerTy (g.node j).ty).is_analog then
            acc.analog_inputs ++ [(compiledInputs g j).2] else acc.analog_inputs := by
      rw [hstep]
    have hanlen : (compileNode g j dense acc).analog_inputs.length
        = acc.analog_inputs.length + (if (lowerTy (g.node j).ty).is_analog then 1 else 0) := by
      rw [han]
      split <;> simp
    have hnblen : (compileNode g j dense acc).noteblock_info.length
        = acc.noteblock_info.length + (if (g.node j).ty.discr = 10 then 1 else 0) := by
      rw [hstep]
      cases hty : (g.node j).ty <;> simp [CNodeType.discr, hty]
    refine ⟨?_, ?_, ?_, ?_, ?_, ?_⟩
    · rw [List.foldl_cons, ih1, hlen, List.length_cons]
      omega
    · rw [List.foldl_cons, ih2, hfw, List.append_assoc]
      rfl
    · rw [List.foldl_cons, ih3, han]
      simp only [List.filter_cons]
      by_cases hA : (lowerTy (g.node j).ty).is_analog = true
      · rw [if_pos hA, if_pos hA, List.map_cons, List.append_assoc]
        rfl
      · rw [if_neg hA, if_neg hA]
    · rw [List.foldl_cons, ih4, hnblen]
      simp only [nbPrefix, List.filter_cons]
      by_cases hB : (g.node j).ty.discr = 10
      · simp [hB]
        omega
      · simp [hB]
    · intro k hk
      rw [List.foldl_cons, ih5 k (by rw [hlen]; omega)]
      exact getD_append_left _ _ _ _ hk
    · intro k hk
      rw [List.foldl_cons]
      cases k with
      | zero =>
        have hg0 : (j :: t).getD 0 0 = j := rfl
        simp only [Nat.add_zero, List.take_zero, linksConcat, analogPrefix, nbPrefix,
          List.filter_nil, List.length_nil, hg0]
        rw [ih5 acc.nodes.length (by rw [hlen]; omega)]
        have hL : (compileNode g j dense acc).nodes.getD acc.nodes.length default
            = packedNode g dense j acc.forward_links.length acc.analog_inputs.length
                acc.noteblock_info.length := by
          rw [hstep]
          exact getD_append_self _ _ _
        rw [hL]
      | succ kp =>
        have hk2 : kp < t.length := by
          rw [List.length_cons] at hk
          omega
        have hidx : acc.nodes.length + (kp + 1) = (compileNode g j dense acc).nodes.length + kp := by
          rw [hlen]; omega
        rw [hidx, ih6 kp hk2]
        have e0 : (j :: t).getD (kp + 1) 0 = t.getD kp 0 := rfl
        have e1 : acc.forward_links.length + (linksConcat g dense ((j :: t).take (kp + 1))).length
            = (compileNode g j dense acc).forward_links.length
              + (linksConcat g dense (t.take kp)).length := by
          rw [hfwlen, List.take_succ_cons]
          simp only [linksConcat, List.length_append]
          omega
        have e2 : acc.analog_inputs.length + analogPrefix g ((j :: t).take (kp + 1))
            = (compileNode g j dense acc).analog_inputs.length + analogPrefix g (t.take kp) := by
          rw [hanlen, List.take_succ_cons]
          simp only [analogPrefix, List.filter_cons]
          by_cases hA : (lowerTy (g.node j).ty).is_analog = true
          · simp [hA]
            omega
          · simp [hA]
        have e3 : acc.noteblock_info.length + nbPrefix g ((j :: t).take (kp + 1))
            = (compileNode g j dense acc).noteblock_info.length + nbPrefix g (t.take kp) := by
          rw [hnblen, List.take_succ_cons]
          simp only [nbPrefix, List.filter_cons]
          by_cases hB : (g.node j).ty.discr = 10
          · simp [hB]
            omega
          · simp [hB]
        rw [e0, e1, e2, e3]

theorem take_append_len {α : Type} (l1 l2 : List α) : (l1 ++ l2).take l1.length = l1 := by
  induction l1 with
  | nil => rfl
  | cons x xs ih => simp [List.take_succ_cons, ih]

theorem drop_append_len {α : Type} (l1 l2 : List α) (n : Nat) :
    (l1 ++ l2).drop (l1.length + n) = l2.drop n := by
  induction l1 with
  | nil => simp
  | cons x xs ih =>
    rw [List.cons_append, List.length_cons]
    have : xs.length + 1 + n = (xs.length + n) + 1 := by omega
    rw [this, List.drop_succ_cons, ih]

/-- Extracting one node's link slice from the concatenated link array. -/
theorem linksConcat_extract (g : CGraph) (dense : Nat → Nat) :
    ∀ (L : List Nat) (k : Nat), k < L.length →
      ((linksConcat g dense L).drop ((linksConcat g dense (L.take k)).length)).take
          (compiledOutLinks g dense (L.getD k 0)).length
        = compiledOutLinks g dense (L.getD k 0) := by
  intro L
  induction L with
  | nil => intro k hk; simp at hk
  | cons j t ih =>
    intro k hk
    cases k with
    | zero =>
      simp only [List.take_zero, linksConcat, List.length_nil, List.drop_zero]
      have hg : (j :: t).getD 0 0 = j := rfl
      rw [hg]
      exact take_append_len _ _
    | succ kp =>
      have hk2 : kp < t.length := by
        rw [List.length_cons] at hk
        omega
      have hg : (j :: t).getD (kp + 1) 0 = t.getD kp 0 := rfl
      rw [hg, List.take_succ_cons]
      simp only [linksConcat, List.length_append]
      rw [drop_append_len]
      exact ih kp hk2

theorem map_range_getD {α β : Type} (f : α → β) (d : α) :
    ∀ (l : List α), (List.range l.length).map (fun i => f (l.getD i d)) = l.map f := by
  intro l
  induction l with
  | nil => rfl
  | cons x xs ih =>
    have hcomp : ((fun i => f ((x :: xs).getD i d)) ∘ fun i => i + 1)
        = (fun i => f (xs.getD i d)) := by
      funext i
      rfl
    rw [List.length_cons, List.range_succ_eq_map, List.map_cons, List.map_map, hcomp, ih]
    rfl

/-- Counting a disjoint union of predicates splits. -/
theorem length_filter_disjoint {α : Type} (A B : α → Bool)
    (hd : ∀ x, ¬(A x = true ∧ B x = true)) :
    ∀ (l : List α), (l.filter (fun x => A x || B x)).length
      = (l.filter A).length + (l.filter B).length := by
  intro l
  induction l with
  | nil => rfl
  | cons x xs ih =>
    rw [List.filter_cons, List.filter_cons, List.filter_cons]
    by_cases hA : A x = true
    · rw [if_pos (by simp [hA]), if_pos hA, if_neg (by
        intro hB
        exact hd x ⟨hA, hB⟩)]
      simp only [List.length_cons]
      omega
    · by_cases hB : B x = true
      · rw [if_pos (by simp [hB]), if_neg hA, if_pos hB]
        simp only [List.length_cons]
        omega
      · rw [if_neg (by simp [hA, hB]), if_neg hA, if_neg hB]
        exact ih

/-- `insertByKey` is a permutation of consing. -/
theorem insertByKey_perm (key : CEdge → Nat) (x : CEdge) :
    ∀ (l : List CEdge), (insertByKey key x l).Perm (x :: l) := by
  intro l
  induction l with
  | nil => exact List.Perm.refl _
  | cons y ys ih =>
    unfold insertByKey
    split
    · exact List.Perm.refl _
    · exact (List.Perm.cons y ih).trans (List.Perm.swap x y ys)

theorem sortByKey_fold_perm (key : CEdge → Nat) :
    ∀ (l acc : List CEdge), (l.foldl (fun a x => insertByKey key x a) acc).Perm (acc ++ l) := by
  intro l
  induction l with
  | nil => intro acc; simp
  | cons x xs ih =>
    intro acc
    rw [List.foldl_cons]
    refine (ih (insertByKey key x acc)).trans
      ((List.Perm.append_right xs (insertByKey_perm key x acc)).trans ?_)
    rw [List.cons_append]
    exact List.perm_middle.symm

theorem sortByKey_perm (key : CEdge → Nat) (l : List CEdge) : (sortByKey key l).Perm l := by
  unfold sortByKey
  have := sortByKey_fold_perm key l []
  simpa using this

theorem flatMap_congr_mem {α β : Type} :
    ∀ (l : List α) (f h : α → List β), (∀ x ∈ l, f x = h x) → l.flatMap f = l.flatMap h := by
  intro l
  induction l with
  | nil => intro f h _; rfl
  | cons x xs ih =>
    intro f h hc
    rw [List.flatMap_cons, List.flatMap_cons, hc x (by simp),
      ih f h (fun y hy => hc y (by simp [hy]))]

/-- Grouping a list by key and flattening the groups permutes the list. -/
theorem flatMap_filter_perm (f : CEdge → Nat) :
    ∀ (keys : List Nat) (l : List CEdge), keys.Nodup → (∀ x ∈ l, f x ∈ keys) →
      (keys.flatMap (fun k => l.filter (fun x => f x = k))).Perm l := by
  intro keys
  induction keys with
  | nil =>
    intro l _ hall
    cases l with
    | nil => exact List.Perm.refl _
    | cons x xs => exact absurd (hall x (by simp)) (by simp)
  | cons k ks ih =>
    intro l hnd hall
    rw [List.flatMap_cons]
    have hknot : k ∉ ks := (List.nodup_cons.mp hnd).1
    have hfun : ∀ k' ∈ ks, l.filter (fun x => f x = k')
        = (l.filter (fun x => !(decide (f x = k)))).filter (fun x => f x = k') := by
      intro k' hk'
      rw [List.filter_filter]
      refine (List.filter_congr (fun x _ => ?_)).symm
      have hkk : k' ≠ k := fun hq => hknot (hq ▸ hk')
      by_cases h : f x = k'
      · simp [h, hkk]
      · simp [h]
    have hflat := flatMap_congr_mem ks (fun k' => l.filter (fun x => f x = k'))
      (fun k' => (l.filter (fun x => !(decide (f x = k)))).filter (fun x => f x = k')) hfun
    rw [hflat]
    refine (List.Perm.append_left _ (ih (l.filter (fun x => !(decide (f x = k))))
      ((List.nodup_cons.mp hnd).2) ?_)).trans ?_
    · intro x hx
      have hmem := List.mem_filter.mp hx
      have hin := hall x hmem.1
      have hne : f x ≠ k := by
        intro hq
        rw [hq] at hmem
        simp at hmem
      rcases List.mem_cons.mp hin with h | h
      · exact absurd h hne
      · exact h
    · exact List.filter_append_perm _ l

/-- `sorted_by_key` + group-by-discriminant + flatten permutes the edge
list. -/
theorem sortGroupOutgoing_perm (g : CGraph) (dense : Nat → Nat) (edges : List CEdge) :
    (sortGroupOutgoing g dense edges).Perm edges := by
  simp only [sortGroupOutgoing]
  refine (flatMap_filter_perm (fun e => (g.node e.dst).ty.discr) _ _ (List.nodup_dedup _)
    ?_).trans (sortByKey_perm _ _)
  intro x hx
  rw [List.mem_dedup]
  exact List.mem_map_of_mem _ hx

theorem nodeIndices_nodup (g : CGraph) : g.nodeIndices.Nodup :=
  (List.nodup_range _).filter _

theorem mem_nodeIndices {g : CGraph} {j : Nat} :
    j ∈ g.nodeIndices ↔ g.containsNode j = true := by
  unfold CGraph.nodeIndices CGraph.containsNode
  rw [List.mem_filter, List.mem_range]
  constructor
  · exact fun h => by simpa using h.2
  · intro h
    refine ⟨?_, by simpa using h⟩
    by_contra hge
    rw [List.getD_eq_getElem?_getD, List.getElem?_eq_none (by omega)] at h
    simp at h

theorem getD_append_right_zero {α : Type} (l1 l2 : List α) (d : α) :
    (l1 ++ l2).getD l1.length d = l2.getD 0 d := by
  rw [List.getD_eq_getElem?_getD, List.getD_eq_getElem?_getD,
    List.getElem?_append_right (Nat.le_refl _)]
  simp

theorem take_succ_getD {α : Type} (d : α) :
    ∀ (l : List α) (k : Nat), k < l.length → l.take (k + 1) = l.take k ++ [l.getD k d] := by
  intro l
  induction l with
  | nil => intro k hk; simp at hk
  | cons x xs ih =>
    intro k hk
    cases k with
    | zero => rfl
    | succ kp =>
      rw [List.take_succ_cons, List.take_succ_cons, ih kp (by rw [List.length_cons] at hk; omega)]
      rfl

/-- The dense renumbering of `compile`. -/
def denseOf (g : CGraph) : Nat → Nat := fun j => g.nodeIndices.indexOf j

/-- The accumulator after lowering every live node. -/
def compiledAcc (g : CGraph) : CompileAcc :=
  g.nodeIndices.foldl (fun acc j => compileNode g j (denseOf g) acc)
    { nodes := [], forward_links := [], analog_inputs := [], noteblock_info := [] }

/-- The compiled backend before the initial ticks are scheduled. -/
def compiledBase (g : CGraph) : Backend :=
  { nodes := (compiledAcc g).nodes
    forward_links := (compiledAcc g).forward_links
    analog_inputs := (compiledAcc g).analog_inputs
    blocks := g.nodeIndices.map (fun j => (g.node j).block.map (·.1))
    pos_map := (List.range (g.nodeIndices.map (fun j => (g.node j).block.map (·.1))).length).foldl
      (fun m i =>
        match (g.nodeIndices.map (fun j => (g.node j).block.map (·.1))).getD i none with
        | some pos => posMapInsert m pos i
        | none => m) []
    scheduler := TickScheduler.empty
    events := []
    noteblock_info := (compiledAcc g).noteblock_info }

/-- `compile` is the initial-tick fold over the lowered backend. -/
theorem compileB_eq (g : CGraph) (ticks : List TickEntry) :
    compileB g ticks = ticks.foldl
      (fun b entry =>
        match posLookup b.pos_map entry.pos with
        | some node_id =>
            ({ b with scheduler := b.scheduler.schedule_tick node_id entry.ticks_left entry.tick_priority } : Backend).modifyNode node_id (fun n => { n with pending_tick := true })
        | none => b)
      (compiledBase g) := rfl

theorem compiledBase_nodes_length (g : CGraph) :
    (compiledBase g).nodes.length = g.nodeIndices.length := by
  have h := (compile_fold_spec g (denseOf g) g.nodeIndices
    { nodes := [], forward_links := [], analog_inputs := [], noteblock_info := [] }).1
  simpa using h

theorem compiledBase_forward_links (g : CGraph) :
    (compiledBase g).forward_links = linksConcat g (denseOf g) g.nodeIndices := by
  have h := (compile_fold_spec g (denseOf g) g.nodeIndices
    { nodes := [], forward_links := [], analog_inputs := [], noteblock_info := [] }).2.1
  simpa using h

theorem compiledBase_analogs (g : CGraph) :
    (compiledBase g).analog_inputs
      = (g.nodeIndices.filter (fun j => (lowerTy (g.node j).ty).is_analog)).map
          (fun j => (compiledInputs g j).2) := by
  have h := (compile_fold_spec g (denseOf g) g.nodeIndices
    { nodes := [], forward_links := [], analog_inputs := [], noteblock_info := [] }).2.2.1
  simpa using h

theorem compiledBase_nodeAt (g : CGraph) (t : Nat) (ht : t < g.nodeIndices.length) :
    (compiledBase g).nodeAt t
      = packedNode g (denseOf g) (g.nodeIndices.getD t 0)
          ((linksConcat g (denseOf g) (g.nodeIndices.take t)).length)
          (analogPrefix g (g.nodeIndices.take t))
          (nbPrefix g (g.nodeIndices.take t)) := by
  have hbr : (compiledBase g).nodeAt t
      = (g.nodeIndices.foldl (fun a j => compileNode g j (denseOf g) a)
          { nodes := [], forward_links := [], analog_inputs := [], noteblock_info := [] }).nodes.getD
          t default := rfl
  rw [hbr]
  have h := (compile_fold_spec g (denseOf g) g.nodeIndices
    { nodes := [], forward_links := [], analog_inputs := [], noteblock_info := [] }).2.2.2.2.2
    t ht
  simpa using h

theorem compiledBase_linksOf (g : CGraph) (t : Nat) (ht : t < g.nodeIndices.length) :
    (compiledBase g).linksOf t
      = compiledOutLinks g (denseOf g) (g.nodeIndices.getD t 0) := by
  unfold Backend.linksOf
  rw [compiledBase_nodeAt g t ht]
  have hb : (packedNode g (denseOf g) (g.nodeIndices.getD t 0)
      ((linksConcat g (denseOf g) (g.nodeIndices.take t)).length)
      (analogPrefix g (g.nodeIndices.take t))
      (nbPrefix g (g.nodeIndices.take t))).fwd_link_begin
      = (linksConcat g (denseOf g) (g.nodeIndices.take t)).length := rfl
  have hc : (packedNode g (denseOf g) (g.nodeIndices.getD t 0)
      ((linksConcat g (denseOf g) (g.nodeIndices.take t)).length)
      (analogPrefix g (g.nodeIndices.take t))
      (nbPrefix g (g.nodeIndices.take t))).fwd_link_count
      = (compiledOutLinks g (denseOf g) (g.nodeIndices.getD t 0)).length := rfl
  rw [hb, hc, compiledBase_forward_links]
  exact linksConcat_extract g (denseOf g) g.nodeIndices t ht

theorem indexOf_lt_of_mem {l : List Nat} {j : Nat} (h : j ∈ l) : l.indexOf j < l.length :=
  List.indexOf_lt_length.mpr h

theorem getD_indexOf {l : List Nat} {j : Nat} (h : j ∈ l) : l.getD (l.indexOf j) 0 = j := by
  rw [List.getD_eq_getElem _ _ (indexOf_lt_of_mem h)]
  exact List.getElem_indexOf (indexOf_lt_of_mem h)

theorem indexOf_getD {l : List Nat} (hnd : l.Nodup) {t : Nat} (ht : t < l.length) :
    l.indexOf (l.getD t 0) = t := by
  rw [List.getD_eq_getElem _ _ ht]
  have hmem : l[t] ∈ l := List.getElem_mem ht
  have h1 : l.indexOf l[t] < l.length := indexOf_lt_of_mem hmem
  have h2 : l[l.indexOf l[t]] = l[t] := List.getElem_indexOf h1
  exact (List.Nodup.getElem_inj_iff hnd).mp h2

theorem denseOf_eq_iff {g : CGraph} {d t : Nat} (hd : d ∈ g.nodeIndices)
    (ht : t < g.nodeIndices.length) :
    denseOf g d = t ↔ d = g.nodeIndices.getD t 0 := by
  constructor
  · intro h
    rw [← h]
    exact (getD_indexOf hd).symm
  · intro h
    rw [h]
    exact indexOf_getD (nodeIndices_nodup g) ht

theorem analogPrefix_append (g : CGraph) (L1 L2 : List Nat) :
    analogPrefix g (L1 ++ L2) = analogPrefix g L1 + analogPrefix g L2 := by
  unfold analogPrefix
  rw [List.filter_append, List.length_append]

theorem analogPrefix_succ (g : CGraph) (L : List Nat) (k : Nat) (hk : k < L.length) :
    analogPrefix g (L.take (k + 1))
      = analogPrefix g (L.take k)
        + (if (lowerTy (g.node (L.getD k 0)).ty).is_analog = true then 1 else 0) := by
  rw [take_succ_getD 0 L k hk, analogPrefix_append]
  unfold analogPrefix
  simp only [List.filter_cons, List.filter_nil]
  split <;> simp

theorem analogPrefix_mono (g : CGraph) (L : List Nat) (a b : Nat) (hab : a ≤ b)
    (hb : b ≤ L.length) : analogPrefix g (L.take a) ≤ analogPrefix g (L.take b) := by
  have key : ∀ n, a + n ≤ L.length →
      analogPrefix g (L.take a) ≤ analogPrefix g (L.take (a + n)) := by
    intro n
    induction n with
    | zero => intro _; exact Nat.le_refl _
    | succ m ihm =>
      intro hlen
      have h1 := ihm (by omega)
      have heq : a + (m + 1) = (a + m) + 1 := by omega
      rw [heq, analogPrefix_succ g L (a + m) (by omega)]
      omega
  have hn := key (b - a) (by omega)
  have heq : a + (b - a) = b := by omega
  rw [heq] at hn
  exact hn

theorem analogPrefix_lt_of_analog (g : CGraph) (L : List Nat) (t : Nat) (ht : t < L.length)
    (hA : (lowerTy (g.node (L.getD t 0)).ty).is_analog = true) :
    analogPrefix g (L.take t) < analogPrefix g L := by
  have h1 := analogPrefix_succ g L t ht
  rw [if_pos hA] at h1
  have h2 := analogPrefix_mono g L (t + 1) L.length (by omega) (Nat.le_refl _)
  rw [List.take_length] at h2
  omega

theorem analogPrefix_strict (g : CGraph) (L : List Nat) (t1 t2 : Nat) (h12 : t1 < t2)
    (h2 : t2 ≤ L.length)
    (hA : (lowerTy (g.node (L.getD t1 0)).ty).is_analog = true) :
    analogPrefix g (L.take t1) < analogPrefix g (L.take t2) := by
  have h1 := analogPrefix_succ g L t1 (by omega)
  rw [if_pos hA] at h1
  have h3 := analogPrefix_mono g L (t1 + 1) t2 (by omega) h2
  omega

theorem compiledBase_analog_getD (g : CGraph) (t : Nat) (ht : t < g.nodeIndices.length)
    (hA : (lowerTy (g.node (g.nodeIndices.getD t 0)).ty).is_analog = true) :
    (compiledBase g).analog_inputs.getD (analogPrefix g (g.nodeIndices.take t)) default
      = (compiledInputs g (g.nodeIndices.getD t 0)).2 := by
  rw [compiledBase_analogs]
  have hsplit : g.nodeIndices = g.nodeIndices.take t
      ++ g.nodeIndices.getD t 0 :: g.nodeIndices.drop (t + 1) := by
    conv_lhs => rw [← List.take_append_drop t g.nodeIndices]
    congr 1
    rw [List.getD_eq_getElem _ _ ht]
    exact List.drop_eq_getElem_cons ht
  have hidx : analogPrefix g (g.nodeIndices.take t)
      = (((g.nodeIndices.take t).filter (fun j => (lowerTy (g.node j).ty).is_analog)).map
          (fun j => (compiledInputs g j).2)).length := by
    simp [analogPrefix]
  have hlist : (g.nodeIndices.filter (fun j => (lowerTy (g.node j).ty).is_analog)).map
        (fun j => (compiledInputs g j).2)
      = ((g.nodeIndices.take t).filter (fun j => (lowerTy (g.node j).ty).is_analog)).map
          (fun j => (compiledInputs g j).2)
        ++ (compiledInputs g (g.nodeIndices.getD t 0)).2
          :: ((g.nodeIndices.drop (t + 1)).filter
              (fun j => (lowerTy (g.node j).ty).is_analog)).map
            (fun j => (compiledInputs g j).2) := by
    conv_lhs => rw [hsplit]
    rw [List.filter_append, List.map_append]
    simp only [List.filter_cons]
    rw [if_pos hA, List.map_cons]
  rw [hlist, hidx, getD_append_right_zero]
  rfl

/-- The count of edges of one link type whose compile-time delivery
satisfies `p`. -/
def edgeCnt (g : CGraph) (E : List CEdge) (lt : LinkType) (p : Nat → Bool) : Nat :=
  (E.filter (fun e => e.ty = lt && p (rec0G g e))).length

theorem edgeCnt_cons (g : CGraph) (e : CEdge) (E : List CEdge) (lt : LinkType)
    (p : Nat → Bool) :
    edgeCnt g (e :: E) lt p
      = edgeCnt g E lt p + (if e.ty = lt ∧ p (rec0G g e) = true then 1 else 0) := by
  unfold edgeCnt
  rw [List.filter_cons]
  by_cases hc : e.ty = lt ∧ p (rec0G g e) = true
  · rw [if_pos (by simp [hc.1, hc.2]), if_pos hc, List.length_cons]
  · rw [if_neg (by
      intro hb
      rw [Bool.and_eq_true] at hb
      exact hc ⟨by simpa using hb.1, hb.2⟩), if_neg hc]
    omega

/-- The incoming-edge aggregation loop of `compile_node`, from an arbitrary
starting state. -/
def inputsFold (g : CGraph) (E : List CEdge) (d : DigitalInput) (a : AnalogInput) :
    DigitalInput × AnalogInput :=
  E.foldl (fun (p : DigitalInput × AnalogInput) e =>
    let ss := (g.node e.src).state.output_strength - e.ss
    if ss ≠ 0 then (p.1.set e.ty true, p.2.set e.ty 0 ss) else p) (d, a)

theorem compiledInputs_eq_inputsFold (g : CGraph) (j : Nat) :
    compiledInputs g j = inputsFold g (g.incomingEdges j) ⟨0, 0⟩ AnalogInput.dflt := rfl

theorem inputsFold_cons (g : CGraph) (e : CEdge) (E : List CEdge) (d : DigitalInput)
    (a : AnalogInput) :
    inputsFold g (e :: E) d a
      = if (g.node e.src).state.output_strength - e.ss ≠ 0 then
          inputsFold g E (d.set e.ty true)
            (a.set e.ty 0 ((g.node e.src).state.output_strength - e.ss))
        else inputsFold g E d a := by
  simp only [inputsFold, List.foldl_cons]
  split <;> rfl

theorem bucketMoveZero_facts {counts : List Nat} {ss : Nat} (hlen : counts.length = 16)
    (hss1 : 1 ≤ ss) (hss15 : ss ≤ 15) (h0pos : 1 ≤ counts.getD 0 0)
    (h0cap : counts.getD 0 0 ≤ 255) (hsscap : counts.getD ss 0 ≤ 254) :
    (bucketMove counts 0 ss).length = 16
    ∧ (bucketMove counts 0 ss).getD 0 0 = counts.getD 0 0 - 1
    ∧ (bucketMove counts 0 ss).getD ss 0 = counts.getD ss 0 + 1
    ∧ ∀ v, v ≠ 0 → v ≠ ss → (bucketMove counts 0 ss).getD v 0 = counts.getD v 0 := by
  refine ⟨by rw [bucketMove_length, hlen], ?_, ?_, ?_⟩
  · exact bucketMove_getD_old hlen (by omega) (by omega) h0pos h0cap
  · exact bucketMove_getD_new hlen (by omega) (by omega) hsscap
  · intro v hv0 hvs
    exact bucketMove_getD_other hv0 hvs

/-- Complete characterization of the incoming-edge aggregation: counters
count the nonzero deliveries, buckets count deliveries per strength, and
ghost mass leaves bucket 0, all without u8 wrap when the per-type edge
counts fit in a byte. -/
theorem inputsFold_spec (g : CGraph) :
    ∀ (E : List CEdge) (d : DigitalInput) (a : AnalogInput),
      (∀ e ∈ E, rec0G g e ≤ 15) →
      a.ss_counts_default.length = 16 →
      a.ss_counts_side.length = 16 →
      d.count_default + edgeCnt g E .default (fun x => decide (x ≠ 0)) ≤ 255 →
      d.count_side + edgeCnt g E .side (fun x => decide (x ≠ 0)) ≤ 255 →
      (∀ v, 1 ≤ v → v ≤ 15 →
        a.ss_counts_default.getD v 0 + edgeCnt g E .default (fun x => decide (x = v)) ≤ 255) →
      (∀ v, 1 ≤ v → v ≤ 15 →
        a.ss_counts_side.getD v 0 + edgeCnt g E .side (fun x => decide (x = v)) ≤ 255) →
      edgeCnt g E .default (fun x => decide (x ≠ 0)) ≤ a.ss_counts_default.getD 0 0 →
      edgeCnt g E .side (fun x => decide (x ≠ 0)) ≤ a.ss_counts_side.getD 0 0 →
      a.ss_counts_default.getD 0 0 ≤ 255 →
      a.ss_counts_side.getD 0 0 ≤ 255 →
      ((inputsFold g E d a).1.count_default
          = d.count_default + edgeCnt g E .default (fun x => decide (x ≠ 0)))
      ∧ ((inputsFold g E d a).1.count_side
          = d.count_side + edgeCnt g E .side (fun x => decide (x ≠ 0)))
      ∧ (inputsFold g E d a).2.ss_counts_default.length = 16
      ∧ (inputsFold g E d a).2.ss_counts_side.length = 16
      ∧ (∀ v, 1 ≤ v → v ≤ 15 →
          (inputsFold g E d a).2.ss_counts_default.getD v 0
            = a.ss_counts_default.getD v 0 + edgeCnt g E .default (fun x => decide (x = v)))
      ∧ (∀ v, 1 ≤ v → v ≤ 15 →
          (inputsFold g E d a).2.ss_counts_side.getD v 0
            = a.ss_counts_side.getD v 0 + edgeCnt g E .side (fun x => decide (x = v)))
      ∧ (inputsFold g E d a).2.ss_counts_default.getD 0 0
          = a.ss_counts_default.getD 0 0 - edgeCnt g E .default (fun x => decide (x ≠ 0))
      ∧ (inputsFold g E d a).2.ss_counts_side.getD 0 0
          = a.ss_counts_side.getD 0 0 - edgeCnt g E .side (fun x => decide (x ≠ 0)) := by
  intro E
  induction E with
  | nil =>
    intro d a _ hlD hlS _ _ _ _ _ _ _ _
    exact ⟨by simp [inputsFold, edgeCnt], by simp [inputsFold, edgeCnt],
      by simpa [inputsFold] using hlD, by simpa [inputsFold] using hlS,
      fun v _ _ => by simp [inputsFold, edgeCnt],
      fun v _ _ => by simp [inputsFold, edgeCnt],
      by simp [inputsFold, edgeCnt], by simp [inputsFold, edgeCnt]⟩
  | cons e E ih =>
    intro d a hb hlD hlS hcapDd hcapDs hbD hbS h0D h0S hc0D hc0S
    have hbtail : ∀ x ∈ E, rec0G g x ≤ 15 := fun x hx => hb x (by simp [hx])
    have hrec15 : rec0G g e ≤ 15 := hb e (by simp)
    have hcd := edgeCnt_cons g e E .default (fun x => decide (x ≠ 0))
    have hcs := edgeCnt_cons g e E .side (fun x => decide (x ≠ 0))
    have hcvD := fun v => edgeCnt_cons g e E .default (fun x => decide (x = v))
    have hcvS := fun v => edgeCnt_cons g e E .side (fun x => decide (x = v))
    by_cases hss : (g.node e.src).state.output_strength - e.ss ≠ 0
    · have hssr : rec0G g e ≠ 0 := hss
      have hssr1 : 1 ≤ rec0G g e := by
        have := hssr
        omega
      cases hty : e.ty with
      | default =>
        have hstep : inputsFold g (e :: E) d a
            = inputsFold g E (d.set .default true)
                (a.set .default 0 ((g.node e.src).state.output_strength - e.ss)) := by
          rw [inputsFold_cons, if_pos hss, hty]
        have hbitd : edgeCnt g (e :: E) .default (fun x => decide (x ≠ 0))
            = edgeCnt g E .default (fun x => decide (x ≠ 0)) + 1 := by
          rw [hcd, if_pos ⟨hty, decide_eq_true hssr⟩]
        have hbits : edgeCnt g (e :: E) .side (fun x => decide (x ≠ 0))
            = edgeCnt g E .side (fun x => decide (x ≠ 0)) := by
          rw [hcs, if_neg (fun hcon => LinkType.noConfusion (hty.symm.trans hcon.1))]
          omega
        have hbitvD : ∀ v, edgeCnt g (e :: E) .default (fun x => decide (x = v))
            = edgeCnt g E .default (fun x => decide (x = v))
              + (if rec0G g e = v then 1 else 0) := by
          intro v
          rw [hcvD v]
          by_cases hv : rec0G g e = v
          · rw [if_pos ⟨hty, decide_eq_true hv⟩, if_pos hv]
          · rw [if_neg (fun hcon => hv (of_decide_eq_true hcon.2)), if_neg hv]
        have hbitvS : ∀ v, edgeCnt g (e :: E) .side (fun x => decide (x = v))
            = edgeCnt g E .side (fun x => decide (x = v)) := by
          intro v
          rw [hcvS v, if_neg (fun hcon => LinkType.noConfusion (hty.symm.trans hcon.1))]
          omega
        obtain ⟨hD1, hD2⟩ := digSet_default_true d (by omega)
        have hmv := bucketMoveZero_facts hlD hssr1 hrec15 (by omega) hc0D
          (by
            have := hbD (rec0G g e) hssr1 hrec15
            have hx := hbitvD (rec0G g e)
            rw [if_pos rfl] at hx
            omega)
        have hsetd : (AnalogInput.set a .default 0 ((g.node e.src).state.output_strength - e.ss)).ss_counts_default
            = bucketMove a.ss_counts_default 0 (rec0G g e) :=
          analogSet_default_d a _ _
        have hsets : (AnalogInput.set a .default 0 ((g.node e.src).state.output_strength - e.ss)).ss_counts_side
            = a.ss_counts_side := analogSet_default_s a _ _
        obtain ⟨ih1, ih2, ih3, ih4, ih5, ih6, ih7, ih8⟩ :=
          ih (d.set .default true)
            (a.set .default 0 ((g.node e.src).state.output_strength - e.ss))
            hbtail
            (by rw [hsetd, bucketMove_length, hlD])
            (by rw [hsets, hlS])
            (by rw [hD1]; omega)
            (by rw [hD2]; omega)
            (by
              intro v hv1 hv15
              rw [hsetd]
              by_cases hv : rec0G g e = v
              · rw [← hv, hmv.2.2.1]
                have := hbD v hv1 hv15
                have hx := hbitvD v
                rw [if_pos hv] at hx
                rw [← hv] at this hx
                omega
              · rw [hmv.2.2.2 v (by omega) (fun hq => hv hq.symm)]
                have := hbD v hv1 hv15
                have hx := hbitvD v
                rw [if_neg hv] at hx
                omega)
            (by
              intro v hv1 hv15
              rw [hsets]
              have := hbS v hv1 hv15
              have hx := hbitvS v
              omega)
            (by
              rw [hsetd, hmv.2.1]
              omega)
            (by
              rw [hsets]
              omega)
            (by rw [hsetd, hmv.2.1]; omega)
            (by rw [hsets]; exact hc0S)
        rw [hstep]
        refine ⟨?_, ?_, ih3, ih4, ?_, ?_, ?_, ?_⟩
        · rw [ih1, hD1]
          omega
        · rw [ih2, hD2]
          omega
        · intro v hv1 hv15
          rw [ih5 v hv1 hv15, hsetd]
          by_cases hv : rec0G g e = v
          · rw [← hv, hmv.2.2.1]
            have hx := hbitvD v
            rw [if_pos hv] at hx
            rw [← hv] at hx
            omega
          · rw [hmv.2.2.2 v (by omega) (fun hq => hv hq.symm)]
            have hx := hbitvD v
            rw [if_neg hv] at hx
            omega
        · intro v hv1 hv15
          rw [ih6 v hv1 hv15, hsets, hbitvS v]
        · rw [ih7, hsetd, hmv.2.1]
          omega
        · rw [ih8, hsets]
          omega
      | side =>
        have hstep : inputsFold g (e :: E) d a
            = inputsFold g E (d.set .side true)
                (a.set .side 0 ((g.node e.src).state.output_strength - e.ss)) := by
          rw [inputsFold_cons, if_pos hss, hty]
        have hbitd : edgeCnt g (e :: E) .default (fun x => decide (x ≠ 0))
            = edgeCnt g E .default (fun x => decide (x ≠ 0)) := by
          rw [hcd, if_neg (fun hcon => LinkType.noConfusion (hty.symm.trans hcon.1))]
          omega
        have hbits : edgeCnt g (e :: E) .side (fun x => decide (x ≠ 0))
            = edgeCnt g E .side (fun x => decide (x ≠ 0)) + 1 := by
          rw [hcs, if_pos ⟨hty, decide_eq_true hssr⟩]
        have hbitvD : ∀ v, edgeCnt g (e :: E) .default (fun x => decide (x = v))
            = edgeCnt g E .default (fun x => decide (x = v)) := by
          intro v
          rw [hcvD v, if_neg (fun hcon => LinkType.noConfusion (hty.symm.trans hcon.1))]
          omega
        have hbitvS : ∀ v, edgeCnt g (e :: E) .side (fun x => decide (x = v))
            = edgeCnt g E .side (fun x => decide (x = v))
              + (if rec0G g e = v then 1 else 0) := by
          intro v
          rw [hcvS v]
          by_cases hv : rec0G g e = v
          · rw [if_pos ⟨hty, decide_eq_true hv⟩, if_pos hv]
          · rw [if_neg (fun hcon => hv (of_decide_eq_true hcon.2)), if_neg hv]
        obtain ⟨hD1, hD2⟩ := digSet_side_true d (by omega)
        have hmv := bucketMoveZero_facts hlS hssr1 hrec15 (by omega) hc0S
          (by
            have := hbS (rec0G g e) hssr1 hrec15
            have hx := hbitvS (rec0G g e)
            rw [if_pos rfl] at hx
            omega)
        have hsetd : (AnalogInput.set a .side 0 ((g.node e.src).state.output_strength - e.ss)).ss_counts_default
            = a.ss_counts_default := analogSet_side_d a _ _
        have hsets : (AnalogInput.set a .side 0 ((g.node e.src).state.output_strength - e.ss)).ss_counts_side
            = bucketMove a.ss_counts_side 0 (rec0G g e) :=
          analogSet_side_s a _ _
        obtain ⟨ih1, ih2, ih3, ih4, ih5, ih6, ih7, ih8⟩ :=
          ih (d.set .side true)
            (a.set .side 0 ((g.node e.src).state.output_strength - e.ss))
            hbtail
            (by rw [hsetd, hlD])
            (by rw [hsets, bucketMove_length, hlS])
            (by rw [hD2]; omega)
            (by rw [hD1]; omega)
            (by
              intro v hv1 hv15
              rw [hsetd]
              have := hbD v hv1 hv15
              have hx := hbitvD v
              omega)
            (by
              intro v hv1 hv15
              rw [hsets]
              by_cases hv : rec0G g e = v
              · rw [← hv, hmv.2.2.1]
                have := hbS v hv1 hv15
                have hx := hbitvS v
                rw [if_pos hv] at hx
                rw [← hv] at this hx
                omega
              · rw [hmv.2.2.2 v (by omega) (fun hq => hv hq.symm)]
                have := hbS v hv1 hv15
                have hx := hbitvS v
                rw [if_neg hv] at hx
                omega)
            (by
              rw [hsetd]
              omega)
            (by
              rw [hsets, hmv.2.1]
              omega)
            (by rw [hsetd]; exact hc0D)
            (by rw [hsets, hmv.2.1]; omega)
        rw [hstep]
        refine ⟨?_, ?_, ih3, ih4, ?_, ?_, ?_, ?_⟩
        · rw [ih1, hD2]
          omega
        · rw [ih2, hD1]
          omega
        · intro v hv1 hv15
          rw [ih5 v hv1 hv15, hsetd, hbitvD v]
        · intro v hv1 hv15
          rw [ih6 v hv1 hv15, hsets]
          by_cases hv : rec0G g e = v
          · rw [← hv, hmv.2.2.1]
            have hx := hbitvS v
            rw [if_pos hv] at hx
            rw [← hv] at hx
            omega
          · rw [hmv.2.2.2 v (by omega) (fun hq => hv hq.symm)]
            have hx := hbitvS v
            rw [if_neg hv] at hx
            omega
        · rw [ih7, hsetd]
          omega
        · rw [ih8, hsets, hmv.2.1]
          omega
    · have hss0 : rec0G g e = 0 := by
        by_contra hne
        exact hss hne
      have hstep : inputsFold g (e :: E) d a = inputsFold g E d a := by
        rw [inputsFold_cons, if_neg hss]
      have hbitd : edgeCnt g (e :: E) .default (fun x => decide (x ≠ 0))
          = edgeCnt g E .default (fun x => decide (x ≠ 0)) := by
        rw [hcd, if_neg (fun hcon => by
          have := of_decide_eq_true hcon.2
          exact this hss0)]
        omega
      have hbits : edgeCnt g (e :: E) .side (fun x => decide (x ≠ 0))
          = edgeCnt g E .side (fun x => decide (x ≠ 0)) := by
        rw [hcs, if_neg (fun hcon => by
          have := of_decide_eq_true hcon.2
          exact this hss0)]
        omega
      have hbitvD : ∀ v, 1 ≤ v → edgeCnt g (e :: E) .default (fun x => decide (x = v))
          = edgeCnt g E .default (fun x => decide (x = v)) := by
        intro v hv
        rw [hcvD v, if_neg (fun hcon => by
          have := of_decide_eq_true hcon.2
          omega)]
        omega
      have hbitvS : ∀ v, 1 ≤ v → edgeCnt g (e :: E) .side (fun x => decide (x = v))
          = edgeCnt g E .side (fun x => decide (x = v)) := by
        intro v hv
        rw [hcvS v, if_neg (fun hcon => by
          have := of_decide_eq_true hcon.2
          omega)]
        omega
      obtain ⟨ih1, ih2, ih3, ih4, ih5, ih6, ih7, ih8⟩ :=
        ih d a hbtail hlD hlS (by omega) (by omega)
          (fun v hv1 hv15 => by
            have := hbD v hv1 hv15
            have hx := hbitvD v hv1
            omega)
          (fun v hv1 hv15 => by
            have := hbS v hv1 hv15
            have hx := hbitvS v hv1
            omega)
          (by omega) (by omega) hc0D hc0S
      rw [hstep]
      refine ⟨?_, ?_, ih3, ih4, ?_, ?_, ?_, ?_⟩
      · rw [ih1, hbitd]
      · rw [ih2, hbits]
      · intro v hv1 hv15
        rw [ih5 v hv1 hv15, hbitvD v hv1]
      · intro v hv1 hv15
        rw [ih6 v hv1 hv15, hbitvS v hv1]
      · rw [ih7, hbitd]
      · rw [ih8, hbits]

theorem srcRef_self (b : Backend) (i : Nat) : srcRef b b i = (b.nodeAt i).output_power := by
  unfold srcRef
  split <;> rfl

/-- Source-constancy/type/delivery predicate of an incoming edge. -/
def nonconstP (g : CGraph) (lt : LinkType) (p : Nat → Bool) (e : CEdge) : Bool :=
  !decide ((g.node e.src).ty = .constant) && (decide (e.ty = lt) && p (rec0G g e))

def constP (g : CGraph) (lt : LinkType) (p : Nat → Bool) (e : CEdge) : Bool :=
  decide ((g.node e.src).ty = .constant) && (decide (e.ty = lt) && p (rec0G g e))

theorem edgeCnt_partition (g : CGraph) (E : List CEdge) (lt : LinkType) (p : Nat → Bool) :
    edgeCnt g E lt p
      = (E.filter (constP g lt p)).length + (E.filter (nonconstP g lt p)).length := by
  have hdis := length_filter_disjoint (constP g lt p) (nonconstP g lt p) (fun x => by
    rintro ⟨h1, h2⟩
    unfold constP at h1
    unfold nonconstP at h2
    rw [Bool.and_eq_true] at h1 h2
    rw [h1.1] at h2
    simp at h2) E
  have hcg : E.filter (fun x => constP g lt p x || nonconstP g lt p x)
      = E.filter (fun e => e.ty = lt && p (rec0G g e)) :=
    List.filter_congr (fun e _ => by
      unfold constP nonconstP
      cases hdec : decide ((g.node e.src).ty = .constant) <;> simp [hdec])
  unfold edgeCnt
  rw [← hcg, hdis]

theorem constCount_eq (g : CGraph) (jt : Nat) (lt : LinkType) (p : Nat → Bool) :
    constCount g jt lt p = ((g.incomingEdges jt).filter (constP g lt p)).length := by
  unfold constCount CGraph.incomingOfType
  rw [List.filter_filter, List.filter_filter]
  refine congrArg List.length (List.filter_congr (fun e _ => ?_))
  unfold constP
  cases h1 : decide ((g.node e.src).ty = .constant) <;>
    cases h2 : decide (e.ty = lt) <;>
      cases h3 : p (rec0G g e) <;> simp [h1, h2, h3]

theorem filter_map_snd (A : Nat × CEdge → Bool) (P : CEdge → Bool) (l : List (Nat × CEdge)) :
    (((l.filter A).map (fun pr => pr.2)).filter P).length
      = (l.filter (fun pr => A pr && P pr.2)).length := by
  rw [List.filter_map, List.length_map, List.filter_filter]
  refine congrArg List.length (List.filter_congr (fun pr _ => ?_))
  cases hA : A pr <;> cases hP : P pr.2 <;> simp [hA, hP, Function.comp]

theorem mem_incomingEdges {g : CGraph} {jt : Nat} {e : CEdge} (h : e ∈ g.incomingEdges jt) :
    (∃ pr ∈ g.liveEdges, pr.2 = e) ∧ e.dst = jt := by
  unfold CGraph.incomingEdges at h
  obtain ⟨pr, hpr, hpe⟩ := List.mem_map.mp h
  have hf := List.mem_filter.mp hpr
  refine ⟨⟨pr, hf.1, hpe⟩, ?_⟩
  rw [← hpe]
  simpa using hf.2

theorem rec0_le_of_live {g : CGraph} (hwf : WFGraph g) {pr : Nat × CEdge}
    (h : pr ∈ g.liveEdges) : rec0G g pr.2 ≤ 15 := by
  obtain ⟨hsrc, _, _⟩ := hwf.1 pr h
  have hlt := containsNode_lt hsrc
  have hout := hwf.2.1 pr.2.src hlt
  unfold rec0G
  omega

theorem edgeCnt_le_type (g : CGraph) (jt : Nat) (lt : LinkType) (p : Nat → Bool) :
    edgeCnt g (g.incomingEdges jt) lt p ≤ (g.incomingOfType jt lt).length := by
  unfold edgeCnt CGraph.incomingOfType
  exact length_filter_mono (fun a ha => by
    rw [Bool.and_eq_true] at ha
    exact ha.1)

/-- The compiled input aggregates of one graph node, for a well-formed
graph. -/
theorem compiledInputs_spec (g : CGraph) (hwf : WFGraph g) (jt : Nat)
    (hj : jt < g.nodes.length) :
    ((compiledInputs g jt).1.count_default
        = edgeCnt g (g.incomingEdges jt) .default (fun x => decide (x ≠ 0)))
    ∧ ((compiledInputs g jt).1.count_side
        = edgeCnt g (g.incomingEdges jt) .side (fun x => decide (x ≠ 0)))
    ∧ (compiledInputs g jt).2.ss_counts_default.length = 16
    ∧ (compiledInputs g jt).2.ss_counts_side.length = 16
    ∧ (∀ v, 1 ≤ v → v ≤ 15 →
        (compiledInputs g jt).2.ss_counts_default.getD v 0
          = edgeCnt g (g.incomingEdges jt) .default (fun x => decide (x = v)))
    ∧ (∀ v, 1 ≤ v → v ≤ 15 →
        (compiledInputs g jt).2.ss_counts_side.getD v 0
          = edgeCnt g (g.incomingEdges jt) .side (fun x => decide (x = v)))
    ∧ (compiledInputs g jt).2.ss_counts_default.getD 0 0
        = 255 - edgeCnt g (g.incomingEdges jt) .default (fun x => decide (x ≠ 0))
    ∧ (compiledInputs g jt).2.ss_counts_side.getD 0 0
        = 255 - edgeCnt g (g.incomingEdges jt) .side (fun x => decide (x ≠ 0)) := by
  have hb : ∀ e ∈ g.incomingEdges jt, rec0G g e ≤ 15 := by
    intro e he
    obtain ⟨⟨pr, hpr, hpe⟩, _⟩ := mem_incomingEdges he
    rw [← hpe]
    exact rec0_le_of_live hwf hpr
  have hcapD := hwf.2.2.2 jt hj
  have hleD := edgeCnt_le_type g jt .default
  have hleS := edgeCnt_le_type g jt .side
  have hd0 : (AnalogInput.dflt.ss_counts_default).getD 0 0 = 255 := rfl
  have hs0 : (AnalogInput.dflt.ss_counts_side).getD 0 0 = 255 := rfl
  have hdv : ∀ v, 1 ≤ v → v ≤ 15 → (AnalogInput.dflt.ss_counts_default).getD v 0 = 0 := by
    intro v h1 h15
    interval_cases v <;> rfl
  have hsv : ∀ v, 1 ≤ v → v ≤ 15 → (AnalogInput.dflt.ss_counts_side).getD v 0 = 0 := by
    intro v h1 h15
    interval_cases v <;> rfl
  obtain ⟨h1, h2, h3, h4, h5, h6, h7, h8⟩ :=
    inputsFold_spec g (g.incomingEdges jt) ⟨0, 0⟩ AnalogInput.dflt hb rfl rfl
      (by
        show 0 + edgeCnt g (g.incomingEdges jt) LinkType.default (fun x => decide (x ≠ 0)) ≤ 255
        have := hleD (fun x => decide (x ≠ 0))
        omega)
      (by
        show 0 + edgeCnt g (g.incomingEdges jt) LinkType.side (fun x => decide (x ≠ 0)) ≤ 255
        have := hleS (fun x => decide (x ≠ 0))
        omega)
      (by
        intro v hv1 hv15
        rw [hdv v hv1 hv15]
        have := hleD (fun x => decide (x = v))
        omega)
      (by
        intro v hv1 hv15
        rw [hsv v hv1 hv15]
        have := hleS (fun x => decide (x = v))
        omega)
      (by
        rw [hd0]
        have := hleD (fun x => decide (x ≠ 0))
        omega)
      (by
        rw [hs0]
        have := hleS (fun x => decide (x ≠ 0))
        omega)
      (by rw [hd0]) (by rw [hs0])
  rw [compiledInputs_eq_inputsFold]
  refine ⟨by rw [h1]; simp, by rw [h2]; simp, h3, h4, ?_, ?_, ?_, ?_⟩
  · intro v hv1 hv15
    rw [h5 v hv1 hv15, hdv v hv1 hv15]
    omega
  · intro v hv1 hv15
    rw [h6 v hv1 hv15, hsv v hv1 hv15]
    omega
  · rw [h7, hd0]
  · rw [h8, hs0]

/-- One source's contribution to the link count equals its contribution to
the incoming-edge count of the target. -/
theorem perSource_count (g : CGraph) (hwf : WFGraph g) (t i : Nat)
    (ht : t < g.nodeIndices.length) (hi : i < g.nodeIndices.length)
    (lt : LinkType) (p : Nat → Bool) :
    (((compiledBase g).linksOf i).filter
        (critLink (compiledBase g) (compiledBase g) i t lt p)).length
      = ((g.liveEdges.filter (fun pr => pr.2.dst = g.nodeIndices.getD t 0)).filter
          (fun pr => decide (pr.2.src = g.nodeIndices.getD i 0)
            && nonconstP g lt p pr.2)).length := by
  have hsr : srcRef (compiledBase g) (compiledBase g) i
      = (g.node (g.nodeIndices.getD i 0)).state.output_strength := by
    rw [srcRef_self, compiledBase_nodeAt g i hi]
    rfl
  rw [compiledBase_linksOf g i hi]
  by_cases hconst : (g.node (g.nodeIndices.getD i 0)).ty = .constant
  · have hlinks : compiledOutLinks g (denseOf g) (g.nodeIndices.getD i 0) = [] := by
      unfold compiledOutLinks
      rw [if_pos hconst]
    have hrhs : (g.liveEdges.filter (fun pr => pr.2.dst = g.nodeIndices.getD t 0)).filter
        (fun pr => decide (pr.2.src = g.nodeIndices.getD i 0) && nonconstP g lt p pr.2)
        = [] := by
      rw [List.filter_congr (fun pr _ => ?_)]
      · exact List.filter_false _
      · show (decide (pr.2.src = g.nodeIndices.getD i 0) && nonconstP g lt p pr.2) = false
        by_cases hsrc : pr.2.src = g.nodeIndices.getD i 0
        · unfold nonconstP
          rw [hsrc, decide_eq_true hconst]
          simp
        · rw [decide_eq_false hsrc]
          simp
    rw [hlinks, hrhs]
    rfl
  · have hlinks : compiledOutLinks g (denseOf g) (g.nodeIndices.getD i 0)
        = (sortGroupOutgoing g (denseOf g)
            (g.outgoingEdges (g.nodeIndices.getD i 0))).map
            (fun e => { ty := e.ty, distance := e.ss % 16,
                        target := denseOf g e.dst : ForwardLink }) := by
      unfold compiledOutLinks
      rw [if_neg hconst]
    rw [hlinks, List.filter_map, List.length_map,
      ((sortGroupOutgoing_perm g (denseOf g)
        (g.outgoingEdges (g.nodeIndices.getD i 0))).filter _).length_eq]
    unfold CGraph.outgoingEdges
    rw [filter_map_snd, List.filter_filter]
    refine congrArg List.length (List.filter_congr (fun pr hpr => ?_))
    by_cases hsrc : pr.2.src = g.nodeIndices.getD i 0
    · have hwfe := hwf.1 pr hpr
      have hss15 : pr.2.ss ≤ 15 := hwfe.2.2
      have hmod : pr.2.ss % 16 = pr.2.ss := Nat.mod_eq_of_lt (by omega)
      have hdstmem : pr.2.dst ∈ g.nodeIndices := mem_nodeIndices.mpr hwfe.2.1
      have hdense := denseOf_eq_iff hdstmem ht
      have hncst : ¬((g.node pr.2.src).ty = .constant) := by
        rw [hsrc]
        exact hconst
      have hrec : rec0G g pr.2
          = (g.node (g.nodeIndices.getD i 0)).state.output_strength - pr.2.ss := by
        unfold rec0G
        rw [hsrc]
      have hF : (critLink (compiledBase g) (compiledBase g) i t lt p ∘ fun e =>
          ({ ty := e.ty, distance := e.ss % 16, target := denseOf g e.dst } : ForwardLink)) pr.2
          = (decide (denseOf g pr.2.dst = t) && decide (pr.2.ty = lt)
              && p ((g.node (g.nodeIndices.getD i 0)).state.output_strength - pr.2.ss)) := by
        simp only [Function.comp, critLink, hsr, hmod]
      rw [hF]
      unfold nonconstP
      rw [decide_eq_true hsrc, decide_eq_false hncst, hrec]
      by_cases hdst : pr.2.dst = g.nodeIndices.getD t 0
      · rw [decide_eq_true hdst, decide_eq_true (hdense.mpr hdst)]
        simp
      · rw [decide_eq_false hdst, decide_eq_false (fun hq => hdst (hdense.mp hq))]
        simp
    · rw [decide_eq_false hsrc]
      simp

theorem sum_filter_partition (g : CGraph) (lt : LinkType) (p : Nat → Bool)
    (l : List (Nat × CEdge)) :
    ∀ (ks : List Nat), ks.Nodup →
      ((ks.map (fun k => (l.filter (fun pr => decide (pr.2.src = k)
          && nonconstP g lt p pr.2)).length)).sum
        = (l.filter (fun pr => decide (pr.2.src ∈ ks) && nonconstP g lt p pr.2)).length) := by
  intro ks
  induction ks with
  | nil =>
    intro _
    have hfalse : ∀ x ∈ l, (decide (x.2.src ∈ ([] : List Nat)) && nonconstP g lt p x.2)
        = false := fun x _ => by simp
    rw [List.filter_congr hfalse, List.filter_false]
    rfl
  | cons k ks ih =>
    intro hnd
    rw [List.map_cons, List.sum_cons, ih (List.nodup_cons.mp hnd).2]
    have hdisj := length_filter_disjoint
      (fun pr => decide (pr.2.src = k) && nonconstP g lt p pr.2)
      (fun pr => decide (pr.2.src ∈ ks) && nonconstP g lt p pr.2) (fun x => by
        rintro ⟨h1, h2⟩
        rw [Bool.and_eq_true] at h1 h2
        have e1 := of_decide_eq_true h1.1
        have e2 := of_decide_eq_true h2.1
        exact (List.nodup_cons.mp hnd).1 (e1 ▸ e2)) l
    rw [← hdisj]
    refine congrArg List.length (List.filter_congr (fun x _ => ?_))
    by_cases h1 : x.2.src = k <;> by_cases h2 : x.2.src ∈ ks <;> simp [h1, h2]

/-- The link count of the compiled backend equals the non-constant incoming
edge count of the graph. -/
theorem linkCount_compiledBase (g : CGraph) (hwf : WFGraph g) (t : Nat)
    (ht : t < g.nodeIndices.length) (lt : LinkType) (p : Nat → Bool) :
    linkCount (compiledBase g) (compiledBase g) t lt p
      = ((g.incomingEdges (g.nodeIndices.getD t 0)).filter (nonconstP g lt p)).length := by
  unfold linkCount
  rw [compiledBase_nodes_length]
  have hmap : (List.range g.nodeIndices.length).map (fun i =>
      (((compiledBase g).linksOf i).filter
        (critLink (compiledBase g) (compiledBase g) i t lt p)).length)
      = (List.range g.nodeIndices.length).map (fun i =>
        ((g.liveEdges.filter (fun pr => pr.2.dst = g.nodeIndices.getD t 0)).filter
          (fun pr => decide (pr.2.src = g.nodeIndices.getD i 0)
            && nonconstP g lt p pr.2)).length) :=
    List.map_congr_left (fun i hir =>
      perSource_count g hwf t i ht (List.mem_range.mp hir) lt p)
  rw [hmap,
    map_range_getD (fun j =>
      ((g.liveEdges.filter (fun pr => pr.2.dst = g.nodeIndices.getD t 0)).filter
        (fun pr => decide (pr.2.src = j) && nonconstP g lt p pr.2)).length) 0 g.nodeIndices,
    sum_filter_partition g lt p _ g.nodeIndices (nodeIndices_nodup g),
    List.filter_filter]
  unfold CGraph.incomingEdges
  rw [filter_map_snd]
  refine congrArg List.length (List.filter_congr (fun pr hpr => ?_))
  have hsrcmem : pr.2.src ∈ g.nodeIndices := mem_nodeIndices.mpr (hwf.1 pr hpr).1
  rw [decide_eq_true hsrcmem]
  by_cases hdst : pr.2.dst = g.nodeIndices.getD t 0 <;>
    cases hnc : nonconstP g lt p pr.2 <;> simp [hdst, hnc]

theorem linkTotal_eq (b0 b : Backend) (t : Nat) (lt : LinkType) :
    linkTotal b t lt = linkCount b0 b t lt (fun _ => true) := by
  unfold linkTotal linkCount
  congr 1
  refine List.map_congr_left (fun i _ => ?_)
  refine congrArg List.length (List.filter_congr (fun l _ => ?_))
  unfold critLink
  cases h1 : decide (l.target = t) <;> cases h2 : decide (l.ty = lt) <;> simp [h1, h2]

/-- The compiled backend satisfies the input-aggregate invariant. -/
theorem compiledBase_inv (g : CGraph) (hwf : WFGraph g) :
    Inv g (compiledBase g) (compiledBase g) := by
  have hlen := compiledBase_nodes_length g
  have hjlt : ∀ t, t < g.nodeIndices.length → g.nodeIndices.getD t 0 < g.nodes.length := by
    intro t ht
    have hmem : g.nodeIndices.getD t 0 ∈ g.nodeIndices := by
      rw [List.getD_eq_getElem _ _ ht]
      exact List.getElem_mem ht
    exact containsNode_lt (mem_nodeIndices.mp hmem)
  have hty : ∀ i, i < g.nodeIndices.length →
      ((compiledBase g).nodeAt i).ty = lowerTy (g.node (g.nodeIndices.getD i 0)).ty := by
    intro i hi
    rw [compiledBase_nodeAt g i hi]
    rfl
  have hidxA : ∀ i, i < g.nodeIndices.length →
      (lowerTy (g.node (g.nodeIndices.getD i 0)).ty).is_analog = true →
      ((compiledBase g).nodeAt i).analog_input_idx
        = analogPrefix g (g.nodeIndices.take i) := by
    intro i hi hA
    rw [compiledBase_nodeAt g i hi]
    show (if (lowerTy (g.node (g.nodeIndices.getD i 0)).ty).is_analog = true then
      analogPrefix g (g.nodeIndices.take i) else 0) = analogPrefix g (g.nodeIndices.take i)
    rw [if_pos hA]
  have houtle : ∀ i, ((compiledBase g).nodeAt i).output_power ≤ 15 := by
    intro i
    by_cases hi : i < g.nodeIndices.length
    · rw [compiledBase_nodeAt g i hi]
      show (g.node (g.nodeIndices.getD i 0)).state.output_strength ≤ 15
      exact hwf.2.1 _ (hjlt i hi)
    · rw [nodeAt_oob _ i (by rw [hlen]; omega)]
      decide
  have hcnt : ∀ t lt p, t < g.nodeIndices.length →
      constCount g (gIdx g t) lt p + linkCount (compiledBase g) (compiledBase g) t lt p
        = edgeCnt g (g.incomingEdges (g.nodeIndices.getD t 0)) lt p := by
    intro t lt p ht
    unfold gIdx
    rw [linkCount_compiledBase g hwf t ht lt p, constCount_eq, edgeCnt_partition]
  refine ⟨houtle, houtle, ?_, ?_, ?_, ?_, ?_, ?_⟩
  · intro i hcmp
    by_cases hi : i < g.nodeIndices.length
    · rw [hty i hi] at hcmp
      have htsp : ((compiledBase g).nodeAt i).type_specific_properties
          = lowerTSP (g.node (g.nodeIndices.getD i 0)) (nbPrefix g (g.nodeIndices.take i)) := by
        rw [compiledBase_nodeAt g i hi]
        rfl
      have hfar := hwf.2.2.1 (g.nodeIndices.getD i 0) (hjlt i hi)
      unfold Node.get_comparator_properties
      rw [htsp]
      unfold lowerTSP
      cases hg : (g.node (g.nodeIndices.getD i 0)).ty <;> rw [hg] at hcmp <;>
        first
        | exact absurd hcmp (fun h => NodeType.noConfusion h)
        | (rw [hg] at hfar; exact hfar)
    · rw [nodeAt_oob _ i (by rw [hlen]; omega)] at hcmp
      exact absurd hcmp (by decide)
  · intro t1 t2 h1 h2 ha1 ha2 hne
    rw [hlen] at h1 h2
    have ha1' : (lowerTy (g.node (g.nodeIndices.getD t1 0)).ty).is_analog = true := by
      rw [← hty t1 h1]
      exact ha1
    have ha2' : (lowerTy (g.node (g.nodeIndices.getD t2 0)).ty).is_analog = true := by
      rw [← hty t2 h2]
      exact ha2
    rw [hidxA t1 h1 ha1', hidxA t2 h2 ha2']
    rcases Nat.lt_or_ge t1 t2 with hlt | hge
    · exact Nat.ne_of_lt (analogPrefix_strict g g.nodeIndices t1 t2 hlt (by omega) ha1')
    · have hlt2 : t2 < t1 := by omega
      exact (Nat.ne_of_lt (analogPrefix_strict g g.nodeIndices t2 t1 hlt2 (by omega)
        ha2')).symm
  · intro t ht hA
    rw [hlen] at ht
    have hA' : (lowerTy (g.node (g.nodeIndices.getD t 0)).ty).is_analog = true := by
      rw [← hty t ht]
      exact hA
    rw [hidxA t ht hA']
    have halen : (compiledBase g).analog_inputs.length = analogPrefix g g.nodeIndices := by
      rw [compiledBase_analogs]
      simp [analogPrefix]
    rw [halen]
    exact analogPrefix_lt_of_analog g g.nodeIndices t ht hA'
  · intro t lt ht
    rw [hlen] at ht
    rw [linkTotal_eq (compiledBase g)]
    have h := hcnt t lt (fun _ => true) ht
    have hle := edgeCnt_le_type g (g.nodeIndices.getD t 0) lt (fun _ => true)
    obtain ⟨hc1, hc2⟩ := hwf.2.2.2 (g.nodeIndices.getD t 0) (hjlt t ht)
    cases lt <;> omega
  · intro t ht hA
    rw [hlen] at ht
    have hA' : (lowerTy (g.node (g.nodeIndices.getD t 0)).ty).is_analog = true := by
      rw [← hty t ht]
      exact hA
    rw [hidxA t ht hA', compiledBase_analog_getD g t ht hA']
    obtain ⟨c1, c2, c3, c4, c5, c6, c7, c8⟩ :=
      compiledInputs_spec g hwf (g.nodeIndices.getD t 0) (hjlt t ht)
    obtain ⟨hcap1, hcap2⟩ := hwf.2.2.2 (g.nodeIndices.getD t 0) (hjlt t ht)
    constructor
    · refine ⟨c3, ?_, ?_⟩
      · intro v hv1 hv15
        rw [c5 v hv1 hv15, ← hcnt t .default (fun x => decide (x = v)) ht]
      · rw [c7, hcnt t .default (fun x => decide (x ≠ 0)) ht]
        have hle := edgeCnt_le_type g (g.nodeIndices.getD t 0) .default (fun x => decide (x ≠ 0))
        omega
    · refine ⟨c4, ?_, ?_⟩
      · intro v hv1 hv15
        rw [c6 v hv1 hv15, ← hcnt t .side (fun x => decide (x = v)) ht]
      · rw [c8, hcnt t .side (fun x => decide (x ≠ 0)) ht]
        have hle := edgeCnt_le_type g (g.nodeIndices.getD t 0) .side (fun x => decide (x ≠ 0))
        omega
  · intro t ht hA
    rw [hlen] at ht
    have hdigt : ((compiledBase g).nodeAt t).digital_input
        = (compiledInputs g (g.nodeIndices.getD t 0)).1 := by
      rw [compiledBase_nodeAt g t ht]
      rfl
    rw [hdigt]
    obtain ⟨c1, c2, _, _, _, _, _, _⟩ :=
      compiledInputs_spec g hwf (g.nodeIndices.getD t 0) (hjlt t ht)
    exact ⟨by rw [c1, ← hcnt t .default (fun x => decide (x ≠ 0)) ht],
      by rw [c2, ← hcnt t .side (fun x => decide (x ≠ 0)) ht]⟩

/-! ### The initial-tick fold of `compile` -/

theorem initFold_updLike (ticks : List TickEntry) : ∀ (b : Backend),
    updLike b (ticks.foldl
      (fun b entry =>
        match posLookup b.pos_map entry.pos with
        | some node_id =>
            ({ b with scheduler := b.scheduler.schedule_tick node_id entry.ticks_left entry.tick_priority } : Backend).modifyNode node_id (fun n => { n with pending_tick := true })
        | none => b)
      b) := by
  induction ticks with
  | nil => exact fun b => updLike_refl b
  | cons e ts ih =>
    intro b
    rw [List.foldl_cons]
    refine updLike_trans ?_ (ih _)
    rcases h : posLookup b.pos_map e.pos with _ | nid
    · simp only [h]
      exact updLike_refl b
    · simp only [h]
      exact updLike_trans (updLike_scheduler b _)
        (updLike_modifyNode _ nid _ ⟨rfl, rfl, rfl, rfl, rfl, rfl, fun _ => rfl⟩)

theorem initFold_out (ticks : List TickEntry) : ∀ (b : Backend) (j : Nat),
    (((ticks.foldl
      (fun b entry =>
        match posLookup b.pos_map entry.pos with
        | some node_id =>
            ({ b with scheduler := b.scheduler.schedule_tick node_id entry.ticks_left entry.tick_priority } : Backend).modifyNode node_id (fun n => { n with pending_tick := true })
        | none => b)
      b).nodeAt j)).output_power = (b.nodeAt j).output_power := by
  induction ticks with
  | nil => exact fun b j => rfl
  | cons e ts ih =>
    intro b j
    rw [List.foldl_cons, ih]
    rcases h : posLookup b.pos_map e.pos with _ | nid
    · simp only [h]
    · simp only [h]
      rw [modifyNode_nodeAt]
      split
      next hij => rw [← hij.1]; rfl
      next hij => rfl

theorem srcRef_congr_base {b0 b0' b : Backend}
    (hout : ∀ j, (b0'.nodeAt j).output_power = (b0.nodeAt j).output_power) (i : Nat) :
    srcRef b0' b i = srcRef b0 b i := by
  unfold srcRef
  rw [hout i]

theorem linkCount_congr_base {b0 b0' b : Backend}
    (hout : ∀ j, (b0'.nodeAt j).output_power = (b0.nodeAt j).output_power)
    (t : Nat) (lt : LinkType) (p : Nat → Bool) :
    linkCount b0' b t lt p = linkCount b0 b t lt p := by
  unfold linkCount
  congr 1
  refine List.map_congr_left (fun i _ => ?_)
  congr 1
  refine List.filter_congr (fun l _ => ?_)
  unfold critLink
  rw [srcRef_congr_base hout i]

theorem Inv_congr_base {G : CGraph} {b0 b0' b : Backend}
    (hout : ∀ j, (b0'.nodeAt j).output_power = (b0.nodeAt j).output_power)
    (hInv : Inv G b0 b) : Inv G b0' b := by
  refine ⟨hInv.outLe, ?_, hInv.farLe, hInv.inj, hInv.idxLt, hInv.cap, ?_, ?_⟩
  · intro i
    rw [hout i]
    exact hInv.refLe i
  · intro t ht han
    have hfd : linkCount b0' b t .default = linkCount b0 b t .default :=
      funext (fun p => linkCount_congr_base hout t .default p)
    have hfs : linkCount b0' b t .side = linkCount b0 b t .side :=
      funext (fun p => linkCount_congr_base hout t .side p)
    rw [hfd, hfs]
    exact hInv.hist t ht han
  · intro t ht han
    rw [linkCount_congr_base hout t .default (fun x => decide (x ≠ 0)),
      linkCount_congr_base hout t .side (fun x => decide (x ≠ 0))]
    exact hInv.dig t ht han

/-- The fully compiled backend satisfies the input-aggregate invariant with
itself as the Wire reference: scheduling the initial ticks only touches the
scheduler and the `pending_tick` bits. -/
theorem compileB_inv (g : CGraph) (ticks : List TickEntry) (hwf : WFGraph g) :
    Inv g (compileB g ticks) (compileB g ticks) := by
  have hupd : updLike (compiledBase g) (compileB g ticks) := by
    rw [compileB_eq]
    exact initFold_updLike ticks (compiledBase g)
  have hout : ∀ j, ((compileB g ticks).nodeAt j).output_power
      = ((compiledBase g).nodeAt j).output_power := by
    intro j
    rw [compileB_eq]
    exact initFold_out ticks (compiledBase g) j
  exact Inv_congr_base hout (Inv_transport_updLike hwf hupd (compiledBase_inv g hwf))

/-! ### Bucket sums -/

theorem sum_map_add_list {α : Type} (l : List α) (f g : α → Nat) :
    (l.map (fun x => f x + g x)).sum = (l.map f).sum + (l.map g).sum := by
  induction l with
  | nil => rfl
  | cons a t ih =>
    simp only [List.map_cons, List.sum_cons, ih]
    omega

theorem sum_map_swap {α β : Type} (l1 : List α) (l2 : List β) (f : α → β → Nat) :
    (l1.map (fun a => (l2.map (fun y => f a y)).sum)).sum
    = (l2.map (fun y => (l1.map (fun a => f a y)).sum)).sum := by
  induction l1 with
  | nil => simp
  | cons a t ih =>
    simp only [List.map_cons, List.sum_cons, ih]
    exact (sum_map_add_list l2 (fun y => f a y)
      (fun y => (t.map (fun a' => f a' y)).sum)).symm

theorem sum_range_indicator (a : Nat) : ∀ (n : Nat), a < n →
    ((List.range n).map (fun k => if a = k then 1 else 0)).sum = 1 := by
  intro n
  induction n with
  | zero => intro h; omega
  | succ m ih =>
    intro ha
    rw [List.range_succ, List.map_append, List.sum_append]
    by_cases h : a = m
    · have hz : ((List.range m).map (fun k => if a = k then 1 else 0)).sum = 0 := by
        rw [List.sum_eq_zero]
        intro x hx
        obtain ⟨k, hk, hkx⟩ := List.mem_map.mp hx
        have hkm := List.mem_range.mp hk
        rw [← hkx, if_neg (by omega)]
      rw [hz, h]
      simp
    · rw [ih (by omega)]
      simp [h]

theorem filter_and_split {α : Type} (l : List α) (q r : α → Bool) :
    l.filter (fun x => q x && r x) = (l.filter q).filter r := by
  induction l with
  | nil => rfl
  | cons a t ih =>
    cases hq : q a <;> cases hr : r a <;>
      simp [List.filter_cons, hq, hr, ih]

theorem countP_buckets {α : Type} (w : α → Nat) :
    ∀ (E : List α), (∀ e ∈ E, w e ≤ 15) →
    ((List.range 15).map (fun k =>
      (E.filter (fun e => decide (w e = k + 1))).length)).sum
    = (E.filter (fun e => decide (w e ≠ 0))).length := by
  intro E
  induction E with
  | nil => intro _; simp
  | cons a t ih =>
    intro hb
    have hbt : ∀ e ∈ t, w e ≤ 15 := fun e he => hb e (List.mem_cons_of_mem a he)
    simp only [List.filter_cons]
    by_cases h0 : w a = 0
    · have hmap : (List.range 15).map (fun k =>
            (if decide (w a = k + 1) = true then a :: t.filter (fun e => decide (w e = k + 1))
              else t.filter (fun e => decide (w e = k + 1))).length)
          = (List.range 15).map (fun k => (t.filter (fun e => decide (w e = k + 1))).length) :=
        List.map_congr_left (fun k _ => by
          rw [if_neg (by simp only [decide_eq_true_eq]; omega)])
      rw [hmap, if_neg (by simp only [decide_eq_true_eq]; omega), ih hbt]
    · have hv15 : w a ≤ 15 := hb a (List.mem_cons_self a t)
      have hmap : (List.range 15).map (fun k =>
            (if decide (w a = k + 1) = true then a :: t.filter (fun e => decide (w e = k + 1))
              else t.filter (fun e => decide (w e = k + 1))).length)
          = (List.range 15).map (fun k => (t.filter (fun e => decide (w e = k + 1))).length
              + (if w a - 1 = k then 1 else 0)) :=
        List.map_congr_left (fun k _ => by
          by_cases hk : w a = k + 1
          · rw [if_pos (by simp only [decide_eq_true_eq]; exact hk), if_pos (by omega),
              List.length_cons]
          · rw [if_neg (by simp only [decide_eq_true_eq]; exact hk), if_neg (by omega)]
            omega)
      rw [hmap, sum_map_add_list, ih hbt, sum_range_indicator (w a - 1) 15 (by omega),
        if_pos (by simp only [decide_eq_true_eq]; omega), List.length_cons]

theorem constCount_buckets (g : CGraph) (hwf : WFGraph g) (jt : Nat) (lt : LinkType) :
    ((List.range 15).map (fun k =>
      constCount g jt lt (fun x => decide (x = k + 1)))).sum
    = constCount g jt lt (fun x => decide (x ≠ 0)) := by
  unfold constCount
  exact countP_buckets (rec0G g) _
    (fun e he => WF_rec0_le hwf jt lt e (List.mem_of_mem_filter he))

theorem linkCount_buckets {b0 b : Backend} (houts : ∀ i, (b.nodeAt i).output_power ≤ 15)
    (hrefs : ∀ i, (b0.nodeAt i).output_power ≤ 15) (t : Nat) (lt : LinkType) :
    ((List.range 15).map (fun k =>
      linkCount b0 b t lt (fun x => decide (x = k + 1)))).sum
    = linkCount b0 b t lt (fun x => decide (x ≠ 0)) := by
  have hsplit : ∀ (i : Nat) (p : Nat → Bool), (b.linksOf i).filter (critLink b0 b i t lt p)
      = ((b.linksOf i).filter (fun l => decide (l.target = t) && decide (l.ty = lt))).filter
          (fun l => p (srcRef b0 b i - l.distance)) := by
    intro i p
    exact filter_and_split (b.linksOf i)
      (fun l => decide (l.target = t) && decide (l.ty = lt))
      (fun l => p (srcRef b0 b i - l.distance))
  have hper : ∀ i : Nat,
      ((List.range 15).map (fun k =>
        ((b.linksOf i).filter (critLink b0 b i t lt (fun x => decide (x = k + 1)))).length)).sum
      = ((b.linksOf i).filter (critLink b0 b i t lt (fun x => decide (x ≠ 0)))).length := by
    intro i
    have hm : (List.range 15).map (fun k =>
          ((b.linksOf i).filter (critLink b0 b i t lt (fun x => decide (x = k + 1)))).length)
        = (List.range 15).map (fun k =>
          (((b.linksOf i).filter (fun l => decide (l.target = t) && decide (l.ty = lt))).filter
            (fun l => decide (srcRef b0 b i - l.distance = k + 1))).length) :=
      List.map_congr_left (fun k _ =>
        congrArg List.length (hsplit i (fun x => decide (x = k + 1))))
    have h2 := countP_buckets (fun l : ForwardLink => srcRef b0 b i - l.distance)
      ((b.linksOf i).filter (fun l => decide (l.target = t) && decide (l.ty = lt)))
      (fun l _ => by
        have hs := srcRef_le houts hrefs i
        show srcRef b0 b i - l.distance ≤ 15
        omega)
    have h3 : (((b.linksOf i).filter (fun l => decide (l.target = t) && decide (l.ty = lt))).filter
          (fun l => decide (srcRef b0 b i - l.distance ≠ 0))).length
        = ((b.linksOf i).filter (critLink b0 b i t lt (fun x => decide (x ≠ 0)))).length :=
      (congrArg List.length (hsplit i (fun x => decide (x ≠ 0)))).symm
    rw [hm, ← h3]
    exact h2
  unfold linkCount
  rw [sum_map_swap]
  refine congrArg List.sum (List.map_congr_left (fun i _ => ?_))
  exact hper i

theorem sum_getD_range : ∀ (l : List Nat),
    l.sum = ((List.range l.length).map (fun v => l.getD v 0)).sum := by
  intro l
  induction l with
  | nil => rfl
  | cons a t ih =>
    rw [List.sum_cons, List.length_cons, List.range_succ_eq_map, List.map_cons,
      List.sum_cons, List.map_map]
    have hc : ((fun v => (a :: t).getD v 0) ∘ Nat.succ) = (fun v => t.getD v 0) := by
      funext v
      rfl
    rw [hc, ← ih]
    rfl

theorem histOK_sum {om cnt : (Nat → Bool) → Nat} {counts : List Nat}
    (h : histOKGen om cnt counts)
    (hsplitOm : ((List.range 15).map (fun k => om (fun x => decide (x = k + 1)))).sum
      = om (fun x => decide (x ≠ 0)))
    (hsplitCnt : ((List.range 15).map (fun k => cnt (fun x => decide (x = k + 1)))).sum
      = cnt (fun x => decide (x ≠ 0))) :
    counts.sum = 255 := by
  obtain ⟨hlen, hbuck, hghost⟩ := h
  have h16 : List.range 16 = 0 :: (List.range 15).map Nat.succ := by decide
  rw [sum_getD_range counts, hlen, h16, List.map_cons, List.sum_cons, List.map_map]
  have hc : ((fun v => counts.getD v 0) ∘ Nat.succ) = (fun k => counts.getD (k + 1) 0) := by
    funext k
    rfl
  rw [hc]
  have hm : (List.range 15).map (fun k => counts.getD (k + 1) 0)
      = (List.range 15).map (fun k =>
          om (fun x => decide (x = k + 1)) + cnt (fun x => decide (x = k + 1))) := by
    refine List.map_congr_left (fun k hk => ?_)
    have hk15 := List.mem_range.mp hk
    exact hbuck (k + 1) (by omega) (by omega)
  rw [hm, sum_map_add_list, hsplitOm, hsplitCnt]
  exact hghost

/-- Decidable form of the far-input bound, used to establish `WFGraph` on
concrete graphs. -/
def farOK : CNodeType → Bool
  | .comparator _ farInput _ => farInput.getD 0 ≤ 15
  | _ => true

theorem WFGraph_of_checks {g : CGraph}
    (h1 : ∀ p ∈ g.liveEdges, g.containsNode p.2.src = true ∧ g.containsNode p.2.dst = true
      ∧ p.2.ss ≤ 15)
    (h2 : ∀ i < g.nodes.length, (g.node i).state.output_strength ≤ 15)
    (h3 : ∀ i < g.nodes.length, farOK (g.node i).ty = true)
    (h4 : ∀ i < g.nodes.length, (g.incomingOfType i .default).length ≤ 255
      ∧ (g.incomingOfType i .side).length ≤ 255) : WFGraph g := by
  refine ⟨h1, h2, ?_, h4⟩
  intro i hi
  have h := h3 i hi
  cases hty : (g.node i).ty
  case comparator m f d =>
    rw [hty] at h
    simp only [farOK] at h
    exact of_decide_eq_true h
  all_goals exact trivial

/-! # Claim theorems -/

/-- C7: for every mode and in-range inputs, `calculate_comparator_output`
computes the u8 wrap-around difference `input − side` and returns `input`
(Compare) resp. the difference (Subtract) when it is ≤ 15, else 0;
equivalently it returns 0 when `side > input` and otherwise `input`
(Compare) resp. `input − side` (Subtract). -/
theorem C7_calculate_comparator_output (mode : ComparatorMode) (input side : Nat)
    (hi : input ≤ 15) (hs : side ≤ 15) :
    calculate_comparator_output mode input side =
      (if (input + 256 - side) % 256 ≤ 15 then
        match mode with
        | .compare => input
        | .subtract => (input + 256 - side) % 256
      else 0)
    ∧ calculate_comparator_output mode input side =
      (if input < side then 0
       else
        match mode with
        | .compare => input
        | .subtract => input - side) := by
  have h1 : input % 256 = input := by omega
  have h2 : side % 256 = side := by omega
  unfold calculate_comparator_output
  rw [h1, h2]
  refine ⟨rfl, ?_⟩
  rcases Nat.lt_or_ge input side with h | h
  · have hv : (input + 256 - side) % 256 = 256 - (side - input) := by omega
    rw [hv, if_neg (by omega), if_pos h]
  · have hv : (input + 256 - side) % 256 = input - side := by omega
    rw [hv, if_pos (by omega), if_neg (by omega)]

/-- Witness for C7 at mode Subtract, input 3, side 5. -/
theorem C7_witness :
    calculate_comparator_output .subtract 3 5 =
      (if (3 : Nat) < 5 then 0
       else
        match ComparatorMode.subtract with
        | .compare => 3
        | .subtract => 3 - 5) :=
  (C7_calculate_comparator_output .subtract 3 5 (by decide) (by decide)).2

/-- C9 (amended): `schedule_tick` places the node in slot
`(pos + delay) % 16` for every delay, with no validation or clamping; a
delay larger than 15 silently wraps around the 16-slot ring, so `delay + 16`
schedules identically to `delay`. -/
theorem C9_schedule_wraps (s : TickScheduler) (node delay : Nat) (priority : TickPriority) :
    (s.schedule_tick node delay priority).queues_deque =
      s.queues_deque.set ((s.pos + delay) % 16)
        ((s.queues_deque.getD ((s.pos + delay) % 16) Queues.empty).push priority node)
    ∧ s.schedule_tick node (delay + 16) priority = s.schedule_tick node delay priority := by
  refine ⟨rfl, ?_⟩
  unfold TickScheduler.schedule_tick
  have hv : (s.pos + (delay + 16)) % TickScheduler.NUM_QUEUES =
      (s.pos + delay) % TickScheduler.NUM_QUEUES := by
    unfold TickScheduler.NUM_QUEUES
    omega
  rw [hv]

/-- Counterexample for C9: a delay of 17 is neither rejected nor clamped —
it is scheduled into the very slot that a delay of 1 uses. -/
theorem C9_counterexample :
    TickScheduler.empty.schedule_tick 0 17 .normal = TickScheduler.empty.schedule_tick 0 1 .normal
    ∧ ¬ (17 ≤ 15) := by decide

/-- C1 (amended): on a position missing from `pos_map`, `inspect` logs and
returns with no state change and no fault, but `set_pressure_plate` faults:
its `self.pos_map[&pos]` lookup panics. -/
theorem C1_unknown_pos (b : Backend) (pos : Nat) (powered : Bool)
    (h : posLookup b.pos_map pos = none) :
    inspect b pos = .ok b ∧ setPressurePlate b pos powered = .error .unknownPos := by
  unfold inspect setPressurePlate
  rw [h]
  exact ⟨rfl, rfl⟩

/-- Witness for C1 on the empty backend at position 5. -/
theorem C1_witness :
    posLookup (default : Backend).pos_map 5 = none
    ∧ (inspect (default : Backend) 5 = .ok (default : Backend)
        ∧ setPressurePlate (default : Backend) 5 true = .error .unknownPos) :=
  ⟨rfl, C1_unknown_pos default 5 true rfl⟩

/-- Counterexample for C1: `set_pressure_plate` on an unknown position does
not log-and-return — it faults (the indexing panic, modelled as
`Except.error`). -/
theorem C1_counterexample :
    setPressurePlate (default : Backend) 5 true = .error .unknownPos
    ∧ (setPressurePlate (default : Backend) 5 true).isOk = false := ⟨rfl, rfl⟩

/-- Counterexample for C3: after `on_use_block` on the button and ten
ticks, the button is off but the lamp is still lit — the lamp does not turn
off on the 10th tick as the claim states (it is scheduled to go dark two
ticks later). -/
theorem C3_counterexample :
    ((buttonLampAfter 10).nodeAt 0).powered = false
    ∧ ((buttonLampAfter 10).nodeAt 1).powered = true
    ∧ ¬ (((buttonLampAfter 10).nodeAt 1).powered = false) := by decide

/-- C3 (amended): pressing the button lights both nodes immediately; both
stay on through tick 9; the 10th tick turns the button off while the lamp
stays lit (a lamp turns off with a 2-tick delay); the lamp goes dark on the
12th tick. -/
theorem C3_button_lamp :
    (onUseBlock (compileB buttonLampGraph []) 10).isOk = true
    ∧ ((buttonLampAfter 0).nodeAt 0).powered = true
    ∧ ((buttonLampAfter 0).nodeAt 1).powered = true
    ∧ ((buttonLampAfter 9).nodeAt 0).powered = true
    ∧ ((buttonLampAfter 9).nodeAt 1).powered = true
    ∧ ((buttonLampAfter 10).nodeAt 0).powered = false
    ∧ ((buttonLampAfter 10).nodeAt 1).powered = true
    ∧ ((buttonLampAfter 11).nodeAt 0).powered = false
    ∧ ((buttonLampAfter 11).nodeAt 1).powered = true
    ∧ ((buttonLampAfter 12).nodeAt 0).powered = false
    ∧ ((buttonLampAfter 12).nodeAt 1).powered = false := by decide

/-- C4: the code evaluated at a candidate that satisfies every condition of
the claim (constant input 14 ≠ 15, no side inputs, the only outgoing edge
leads to a Lamp — not a Comparator — with distance 0 ≤ 14) refuses the
rewrite: the outgoing-edge check reads `graph[output_edge.source()].ty`,
and the source of an outgoing edge is the candidate comparator itself. -/
theorem C4_comparator_to_torch_bug :
    tryConvertComparatorToTorch normCandidateGraph 1 = (normCandidateGraph, false)
    ∧ getConstantInput normCandidateGraph 1 .default = some 14
    ∧ normCandidateGraph.incomingOfType 1 .side = []
    ∧ (normCandidateGraph.outgoingEdges 1).all
        (fun e => !(normCandidateGraph.node e.dst).ty.isComparator && e.ss ≤ 14) = true
    ∧ (normCandidateGraph.outgoingEdges 1).any
        (fun e => (normCandidateGraph.node e.src).ty.isComparator) = true := by decide

/-- Counterexample for C5: on the very graph shape the claim describes (a
non-Comparator source with two equal-distance default edges to two
identical removable Comparators of incoming degree 1), one coalescing
iteration merges nothing — the iteration explicitly skips Comparator
candidates. -/
theorem C5_counterexample :
    runCoalescingIteration cmpSiblingsGraph = (cmpSiblingsGraph, 0)
    ∧ ¬ (runCoalescingIteration cmpSiblingsGraph).2 = 1 := by decide

/-- C6: the series-reduction pass, run on `seriesChainGraph`, discovers the
chain Torch → Repeater(2) → Torch in the permuted order
[Repeater(2), Torch, Torch] (the head-direction loop pushes at the back of
the deque), finds the shorter chain [Repeater(2), Repeater(2)] matching the
*permuted* profile, and splices it in — but the pulse profile of the
original chain in head-to-tail order differs from the replacement's, so the
rewrite is not profile-preserving. -/
theorem C6_series_reduction_bug :
    discoverChain seriesChainGraph 0 =
      some (3, [⟨0, .repeater 2⟩, ⟨2, .torch⟩, ⟨1, .torch⟩], 4)
    ∧ seriesReductionPass 100 seriesChainGraph = seriesChainReduced
    ∧ findShortestChain 100 (profileOfChain [.repeater 2, .torch, .torch]) =
        some [.repeater 2, .repeater 2]
    ∧ profileOfChain [.torch, .repeater 2, .torch] ≠ profileOfChain [.repeater 2, .repeater 2] := by
  decide

/-- C10: after `flush(world, io_only = true)`, every node that has block
information has `changed = false` (the clear is unconditional, so a pending
change of a non-I/O node is skipped and dropped); flush never alters
`powered` or `output_power`, and a non-I/O node is never written to the
world. -/
theorem C10_flush_drops_skipped (b : Backend) (i : Nat)
    (hb : (b.blocks.getD i none).isSome = true) :
    ((flushB b true).1.nodeAt i).changed = false
    ∧ (∀ j, ((flushB b true).1.nodeAt j).powered = (b.nodeAt j).powered
          ∧ ((flushB b true).1.nodeAt j).output_power = (b.nodeAt j).output_power)
    ∧ ((b.nodeAt i).ioMarked = false → i ∉ (flushB b true).2) := by
  unfold flushB
  refine ⟨?_, ?_, ?_⟩
  · rw [flush_fold_nodeAt]
    by_cases hmem : i ∈ List.range b.nodes.length
    · rw [if_pos ⟨hmem, hb⟩]
    · rw [if_neg (fun hc => hmem hc.1)]
      have hlen : b.nodes.length ≤ i := by
        by_contra hlt
        exact hmem (List.mem_range.2 (by omega))
      have hdef : ({ b with events := [] } : Backend).nodeAt i = default :=
        nodeAt_oob _ _ hlen
      rw [hdef]
      rfl
  · intro j
    constructor
    · rw [flush_fold_nodeAt]
      split <;> rfl
    · rw [flush_fold_nodeAt]
      split <;> rfl
  · intro hio
    exact flush_fold_writes _ _ i hio (by simp)

/-- Witness for C10 on a one-node backend whose node is non-I/O, has block
information and a pending change. -/
theorem C10_witness :
    (flushWitnessBackend.blocks.getD 0 none).isSome = true
    ∧ (((flushB flushWitnessBackend true).1.nodeAt 0).changed = false
      ∧ (∀ j, ((flushB flushWitnessBackend true).1.nodeAt j).powered =
            (flushWitnessBackend.nodeAt j).powered
          ∧ ((flushB flushWitnessBackend true).1.nodeAt j).output_power =
            (flushWitnessBackend.nodeAt j).output_power)
      ∧ ((flushWitnessBackend.nodeAt 0).ioMarked = false →
          0 ∉ (flushB flushWitnessBackend true).2)) :=
  ⟨rfl, C10_flush_drops_skipped flushWitnessBackend 0 rfl⟩

/-- C5 (amended): the coalescing iteration never merges Comparator
siblings — every node slot holding a Comparator is left exactly as it was
(the iteration skips Comparator candidates, and a Comparator can never be a
merge victim because its type would have to equal the non-Comparator
candidate's). -/
theorem C5_comparators_survive_coalescing (g : CGraph) (j : Nat) (n : CompileNode)
    (hj : g.nodes.getD j none = some n) (hc : n.ty.isComparator = true) :
    (runCoalescingIteration g).1.nodes.getD j none = some n := by
  unfold runCoalescingIteration
  have hfold : ∀ (l : List Nat) (p : CGraph × Nat),
      p.1.nodes.getD j none = some n →
      ((l.foldl coalesceIterStep p).1.nodes.getD j none = some n) := by
    intro l
    induction l with
    | nil => intro p h1; exact h1
    | cons a as ih =>
      intro p h1
      simp only [List.foldl_cons]
      refine ih _ ?_
      unfold coalesceIterStep
      by_cases hcont : p.1.containsNode a
      · rw [if_neg (by simp [hcont])]
        by_cases hskip : ((p.1.node a).ty.isComparator || !(p.1.node a).is_removable) = true
        · rw [if_pos hskip]
          exact h1
        · rw [if_neg hskip]
          have hna : (p.1.node a).ty.isComparator = false := by
            have hx := eq_false_of_ne_true hskip
            rcases Bool.or_eq_false_iff.1 hx with ⟨hy, _⟩
            exact hy
          rcases hin : p.1.incomingEdges a with _ | ⟨e, _ | ⟨e2, rest⟩⟩
          · simp only [hin]
            exact h1
          · simp only [hin]
            by_cases hty : e.ty ≠ LinkType.default
            · rw [if_pos hty]
              exact h1
            · rw [if_neg hty]
              by_cases hsrc : (p.1.node e.src).ty.isComparator
              · rw [if_pos hsrc]
                exact h1
              · rw [if_neg hsrc]
                exact coalesceOutgoing_preserves p.1 e.src a j n h1 hc hna
          · simp only [hin]
            exact h1
      · rw [if_pos (by simp [hcont])]
        exact h1
  exact hfold _ (g, 0) hj

/-- Witness for C5 at `cmpSiblingsGraph`, whose slot 1 holds a removable
Subtract comparator. -/
theorem C5_witness :
    cmpSiblingsGraph.nodes.getD 1 none =
      some { ty := .comparator .subtract none false, block := none,
             state := ⟨false, 0, false⟩, is_input := false, is_output := false }
    ∧ (CNodeType.comparator .subtract none false).isComparator = true
    ∧ (runCoalescingIteration cmpSiblingsGraph).1.nodes.getD 1 none =
      some { ty := .comparator .subtract none false, block := none,
             state := ⟨false, 0, false⟩, is_input := false, is_output := false } :=
  ⟨rfl, rfl, C5_comparators_survive_coalescing cmpSiblingsGraph 1 _ rfl rfl⟩

/-- Counterexample for C2: immediately after `compile` of a graph with one
analog node fed by one incoming default edge (delivering 15), the default
histogram sums to 255, not to `1 + 255`: `compile_node` moves one unit from
the ghost bucket 0 into bucket 15 instead of adding a fresh unit. -/
theorem C2_counterexample :
    ((compileB constCmpGraph []).analog_inputs.getD 0 default).ss_counts_default.sum = 255
    ∧ ((compileB constCmpGraph []).nodeAt 1).ty.is_analog = true
    ∧ ((compileB constCmpGraph []).nodeAt 1).analog_input_idx = 0
    ∧ (constCmpGraph.incomingOfType 1 .default).length = 1
    ∧ ¬ ((255 : Nat) = 1 + 255) := by decide

/-- Counterexample for C8: after the public operation `on_use_block` turns
the lever on, the comparator's incoming default edge delivers strength 15,
yet its `digital_input.count_default` is still 0 — analog targets take the
histogram path in `set_node` and their digital counters are never
maintained after compile. -/
theorem C8_counterexample :
    (onUseBlock (compileB leverCmpGraph []) 7).isOk = true
    ∧ (leverCmpToggled.nodeAt 1).digital_input.count_default = 0
    ∧ deliveringCount leverCmpToggled 1 .default = 1
    ∧ ¬ ((0 : Nat) = 1) := by decide

/-- C2 (amended): after compile and after every subsequent sequence of the
public operations (tick, on_use_block, set_pressure_plate, flush), for every
analog node the 16 buckets of `ss_counts_default` sum to exactly 255, and
likewise `ss_counts_side` — not to `incoming_default_edge_count + 255`:
`AnalogInput::set` moves one entry between buckets per recorded delivery, so
the total stays at the 255 ghost entries of `AnalogInput::default`
regardless of how many incoming edges the node has. -/
theorem C2_bucket_sums {g : CGraph} {ticks : List TickEntry} {b : Backend}
    (hwf : WFGraph g) (hr : ReachableB (compileB g ticks) b)
    (t : Nat) (ht : t < b.nodes.length) (han : (b.nodeAt t).ty.is_analog = true) :
    (b.analog_inputs.getD (b.nodeAt t).analog_input_idx default).ss_counts_default.sum = 255
    ∧ (b.analog_inputs.getD (b.nodeAt t).analog_input_idx default).ss_counts_side.sum = 255 := by
  have hInv : Inv g (compileB g ticks) b :=
    ReachableB_inv hwf (compileB_inv g ticks hwf) hr
  obtain ⟨hd, hs⟩ := hInv.hist t ht han
  exact ⟨histOK_sum hd (constCount_buckets g hwf (gIdx g t) .default)
      (linkCount_buckets hInv.outLe hInv.refLe t .default),
    histOK_sum hs (constCount_buckets g hwf (gIdx g t) .side)
      (linkCount_buckets hInv.outLe hInv.refLe t .side)⟩

/-- Witness for C2 at the constant→comparator graph: the compiled backend
itself is reachable, node 1 (the comparator) is analog, and both of its
bucket sums are 255. -/
theorem C2_bucket_sums_witness :
    WFGraph constCmpGraph
    ∧ (1 < (compileB constCmpGraph []).nodes.length
        ∧ ((compileB constCmpGraph []).nodeAt 1).ty.is_analog = true)
    ∧ (((compileB constCmpGraph []).analog_inputs.getD
          ((compileB constCmpGraph []).nodeAt 1).analog_input_idx
          default).ss_counts_default.sum = 255
      ∧ ((compileB constCmpGraph []).analog_inputs.getD
          ((compileB constCmpGraph []).nodeAt 1).analog_input_idx
          default).ss_counts_side.sum = 255) :=
  ⟨WFGraph_of_checks (by decide) (by decide) (by decide) (by decide),
   ⟨by decide, by decide⟩,
   C2_bucket_sums (WFGraph_of_checks (by decide) (by decide) (by decide) (by decide))
     ReachableB.base 1 (by decide) (by decide)⟩

/-- C8 (amended): after compile and after every subsequent sequence of the
public operations, for every NON-analog node the digital input counters
equal the number of recorded nonzero deliveries into the node:
compile-time-folded constant edges delivering nonzero strength, plus forward
links whose recorded delivery — the source's current output power, except
for Wire sources, which stay frozen at their compiled output — minus the
link distance is nonzero.  Analog nodes' digital counters are NOT
maintained after compile (see the counterexample). -/
theorem C8_digital_counters {g : CGraph} {ticks : List TickEntry} {b : Backend}
    (hwf : WFGraph g) (hr : ReachableB (compileB g ticks) b)
    (t : Nat) (ht : t < b.nodes.length) (hdig : (b.nodeAt t).ty.is_analog = false) :
    (b.nodeAt t).digital_input.count_default
      = constCount g (gIdx g t) .default (fun x => decide (x ≠ 0))
        + linkCount (compileB g ticks) b t .default (fun x => decide (x ≠ 0))
    ∧ (b.nodeAt t).digital_input.count_side
      = constCount g (gIdx g t) .side (fun x => decide (x ≠ 0))
        + linkCount (compileB g ticks) b t .side (fun x => decide (x ≠ 0)) :=
  (ReachableB_inv hwf (compileB_inv g ticks hwf) hr).dig t ht hdig

/-- Witness for C8 at the lever→comparator graph: the compiled backend
itself is reachable, node 0 (the lever) is digital, and its counters match
the recorded-delivery counts. -/
theorem C8_digital_counters_witness :
    WFGraph leverCmpGraph
    ∧ (0 < (compileB leverCmpGraph []).nodes.length
        ∧ ((compileB leverCmpGraph []).nodeAt 0).ty.is_analog = false)
    ∧ (((compileB leverCmpGraph []).nodeAt 0).digital_input.count_default
        = constCount leverCmpGraph (gIdx leverCmpGraph 0) .default (fun x => decide (x ≠ 0))
          + linkCount (compileB leverCmpGraph []) (compileB leverCmpGraph []) 0 .default
              (fun x => decide (x ≠ 0))
      ∧ ((compileB leverCmpGraph []).nodeAt 0).digital_input.count_side
        = constCount leverCmpGraph (gIdx leverCmpGraph 0) .side (fun x => decide (x ≠ 0))
          + linkCount (compileB leverCmpGraph []) (compileB leverCmpGraph []) 0 .side
              (fun x => decide (x ≠ 0))) :=
  ⟨WFGraph_of_checks (by decide) (by decide) (by decide) (by decide),
   ⟨by decide, by decide⟩,
   C8_digital_counters (WFGraph_of_checks (by decide) (by decide) (by decide) (by decide))
     ReachableB.base 0 (by decide) (by decide)⟩

end MCHPRS
